import Mathlib

/-!
# Minefield: a verification development for `main.go`

The Go program keeps a field of mines (`Field.Mines []*Mine`), pre-computes for every
mine the list of mines inside its blast radius (`Field.AddMine`), and simulates the chain
reaction started by one mine (`Field.StartExplosions`), returning the time step with the
most explosions.

## Embedding

* `*Mine` pointers are addresses (`Ptr := Nat`) into a heap `Heap := Ptr → Mine`; every
  method that mutates a mine through a pointer returns the new heap.  Pointers are non-nil.
  The code never compares two pointers.
* `float32` / `float64` are modelled exactly: a value is NaN, an infinity or a finite
  integer multiple of the smallest subnormal (`2^-149`, resp. `2^-1074`); the arithmetic
  rounds to nearest, ties to even.  The two zeros are identified: no operation the
  program applies (`==`, `<`, `<=`, `-`, conversions, `math.Pow(_, 2)`, `+`, `math.Sqrt`)
  tells them apart.
* Go `int` is `Int`: the only arithmetic on it is `time++` and `explosions[time]++`,
  both bounded by the number of queued pointers, far below `2^63`.
* `map[int]int` is an association list with pairwise distinct keys; Go iterates a map in
  an unspecified order, so statements about the peak quantify over every ordering of the
  entries.
* The chain-reaction loop `for time := 0; len(mines) > 0; time++` takes a fuel argument;
  running out of fuel is `none`.
* `sort.Sort` is embedded as the `insertionSort` of package `sort`, which is what it runs
  on a slice of at most 12 elements: the mine at index `i` is swapped towards the front
  for as long as it is `Less` than the mine before it.  Statements about the sorted slice
  also cover every arrangement that is in sorted order, so they do not depend on the
  algorithm where `Less` is a strict total order.
* The real numbers appear only in the statement that `Mine.Distance` approximates the
  Euclidean distance; a finite `float32` `F32.fin n` stands for the real `n / 2^149`.
-/

namespace Minefield

/-! ## Floating point -/

/-- Go `float32`: NaN, `±Inf`, or the finite value `n * 2^-149`. -/
inductive F32 where
  | nan : F32
  | inf (neg : Bool) : F32
  | fin (n : Int) : F32
  deriving DecidableEq, Repr

/-- Go `float64`: NaN, `±Inf`, or the finite value `n * 2^-1074`. -/
inductive F64 where
  | nan : F64
  | inf (neg : Bool) : F64
  | fin (n : Int) : F64
  deriving DecidableEq, Repr

/-- Number of binary digits of `n`, for `n < 2^(2^k)`: splits off the top `2^(k-1)` digits
when they are not all zero. -/
def bitLenGo : Nat → Nat → Nat
  | 0, n => if n = 0 then 0 else 1
  | k + 1, n =>
    if n < 2 ^ (2 ^ k) then bitLenGo k n else 2 ^ k + bitLenGo k (n / 2 ^ (2 ^ k))

/-- The first `j' ≥ j` with `n < 2^(2^j')`; `fuel` bounds the search. -/
def bitLevel : Nat → Nat → Nat → Nat
  | 0, _, j => j
  | fuel + 1, n, j => if n < 2 ^ (2 ^ j) then j else bitLevel fuel n (j + 1)

/-- Number of binary digits of `n`, `0` for `n = 0` (`bitLen_eq_size`). -/
def bitLen (n : Nat) : Nat := bitLenGo (bitLevel n n 0) n

/-- Round `n / 2^k` to the nearest integer, ties to even. -/
def rneDiv (n k : Nat) : Nat :=
  let q := n / 2 ^ k
  let r := n % 2 ^ k
  if 2 * r > 2 ^ k ∨ (2 * r = 2 ^ k ∧ q % 2 = 1) then q + 1 else q

/-- Round the magnitude `n * 2^-shift` (in units of the target format's smallest
subnormal) to at most `prec` significant bits, ties to even.  The result is in units. -/
def roundMag (prec n shift : Nat) : Nat :=
  let k := max shift (bitLen n - prec)
  rneDiv n k * 2 ^ (k - shift)

/-- Newton iteration for the integer square root, from a start `x` above the root; the
guess decreases at every step, so `fuel ≥ x` is enough. -/
def isqrtAux : Nat → Nat → Nat → Nat
  | 0, x, _ => x
  | fuel + 1, x, m => if (x + m / x) / 2 < x then isqrtAux fuel ((x + m / x) / 2) m else x

/-- Integer square root `⌊√m⌋` (`isqrt_eq_sqrt`). -/
def isqrt (m : Nat) : Nat :=
  isqrtAux (2 ^ (bitLen m / 2 + 1)) (2 ^ (bitLen m / 2 + 1)) m

/-- Magnitude `2^128`, in units of `2^-149`: the first `float32` magnitude that overflows. -/
def F32.overflow : Nat := 2 ^ 277

/-- Magnitude `2^1024`, in units of `2^-1074`: the first `float64` magnitude that overflows. -/
def F64.overflow : Nat := 2 ^ 2098

/-- Pack a sign and a rounded magnitude into a `float32`. -/
def F32.ofMag (neg : Bool) (mag : Nat) : F32 :=
  if F32.overflow ≤ mag then .inf neg else .fin (if neg then -(mag : Int) else mag)

/-- Pack a sign and a rounded magnitude into a `float64`. -/
def F64.ofMag (neg : Bool) (mag : Nat) : F64 :=
  if F64.overflow ≤ mag then .inf neg else .fin (if neg then -(mag : Int) else mag)

/-- Go `a - b` on `float32`. -/
def F32.sub : F32 → F32 → F32
  | .nan, _ => .nan
  | _, .nan => .nan
  | .inf a, .inf b => if a = b then .nan else .inf a
  | .inf a, .fin _ => .inf a
  | .fin _, .inf b => .inf (!b)
  | .fin a, .fin b => F32.ofMag (decide (a - b < 0)) (roundMag 24 (a - b).natAbs 0)

/-- Go `a < b` on `float32`. -/
def F32.lt : F32 → F32 → Bool
  | .fin a, .fin b => decide (a < b)
  | .fin _, .inf neg => !neg
  | .inf neg, .fin _ => neg
  | .inf a, .inf b => a && !b
  | _, _ => false

/-- Go `a == b` on `float32`. -/
def F32.eq : F32 → F32 → Bool
  | .fin a, .fin b => decide (a = b)
  | .inf a, .inf b => a == b
  | _, _ => false

/-- Go `a <= b` on `float32`. -/
def F32.le (a b : F32) : Bool := a.lt b || a.eq b

/-- The `float32` constant `0`. -/
def F32.zero : F32 := .fin 0

/-- The `float32` value of a small integer `k` (`|k| < 2^24`). -/
def F32.ofInt (k : Int) : F32 := .fin (k * 2 ^ 149)

/-- The `float32` nearest to the decimal constant `p / q`. -/
def F32.ofRatio (p q : Nat) : F32 :=
  let n := p * 2 ^ 213 / q
  let sticky := if p * 2 ^ 213 % q = 0 then 0 else 1
  F32.ofMag false (roundMag 24 (2 * n + sticky) 65)

/-- Go `float64(x)` for a `float32` `x` (exact). -/
def F32.toF64 : F32 → F64
  | .nan => .nan
  | .inf neg => .inf neg
  | .fin n => .fin (n * 2 ^ 925)

/-- Go `math.Pow(x, 2)`: NaN for NaN, `+Inf` for `±Inf`, otherwise `x*x` rounded to
`float64`. -/
def F64.sq : F64 → F64
  | .nan => .nan
  | .inf _ => .inf false
  | .fin n => F64.ofMag false (roundMag 53 (n.natAbs * n.natAbs) 1074)

/-- Go `a + b` on `float64`. -/
def F64.add : F64 → F64 → F64
  | .nan, _ => .nan
  | _, .nan => .nan
  | .inf a, .inf b => if a = b then .inf a else .nan
  | .inf a, .fin _ => .inf a
  | .fin _, .inf b => .inf b
  | .fin a, .fin b => F64.ofMag (decide (a + b < 0)) (roundMag 53 (a + b).natAbs 0)

/-- Magnitude of the correctly rounded square root of `n * 2^-1074`, in units of
`2^-1074`. -/
def F64.sqrtMag (n : Nat) : Nat :=
  let m := n * 2 ^ 1074
  let k := bitLen (isqrt m) - 53
  let q := isqrt (m / 4 ^ k)
  let up : Bool := decide (4 * m > (2 * q + 1) * (2 * q + 1) * 4 ^ k) ||
    (decide (4 * m = (2 * q + 1) * (2 * q + 1) * 4 ^ k) && decide (q % 2 = 1))
  (if up then q + 1 else q) * 2 ^ k

/-- Go `math.Sqrt(x)`. -/
def F64.sqrt : F64 → F64
  | .nan => .nan
  | .inf neg => if neg then .nan else .inf false
  | .fin n => if n < 0 then .nan else .fin (F64.sqrtMag n.natAbs)

/-- Go `float32(x)` for a `float64` `x`. -/
def F64.toF32 : F64 → F32
  | .nan => .nan
  | .inf neg => .inf neg
  | .fin n => F32.ofMag (decide (n < 0)) (roundMag 24 n.natAbs 925)

/-! ## Data model -/

/-- A `*Mine`. -/
abbrev Ptr := Nat

/-- Go `Interval`. -/
structure Interval where
  Time : Int
  Explosions : Int
  deriving DecidableEq, Repr

/-- Go `Mine`. `Peak` is `none` for a nil `*Interval`. -/
structure Mine where
  ID : Int
  X : F32
  Y : F32
  Power : F32
  Exploded : Bool
  Neighbors : List Ptr
  Peak : Option Interval
  deriving DecidableEq, Repr

/-- The mine objects, by address. -/
abbrev Heap := Ptr → Mine

/-- Go `Field`. -/
structure Field where
  Mines : List Ptr
  deriving DecidableEq, Repr

/-- `Mine.Distance`: the straight line distance between two mines. -/
def Mine.Distance (m m2 : Mine) : F32 :=
  let xDiffSquared := F64.sq (F32.toF64 (F32.sub m2.X m.X))
  let yDiffSquared := F64.sq (F32.toF64 (F32.sub m2.Y m.Y))
  F64.toF32 (F64.sqrt (F64.add xDiffSquared yDiffSquared))

/-- Assignment `p.Neighbors = ns`. -/
def setNeighbors (h : Heap) (p : Ptr) (ns : List Ptr) : Heap :=
  Function.update h p { h p with Neighbors := ns }

/-- Assignment `p.Exploded = b`. -/
def setExploded (h : Heap) (p : Ptr) (b : Bool) : Heap :=
  Function.update h p { h p with Exploded := b }

/-- `Mine.Explode`: explodes the mine and returns true; false if it was already exploded. -/
def Explode (h : Heap) (m : Ptr) : Heap × Bool :=
  if (h m).Exploded then (h, false) else (setExploded h m true, true)

/-! ## `Field.AddMine` -/

/-- The three `fmt.Errorf` returns of `AddMine`. -/
inductive AddErr where
  | negativePower
  | sameID
  | sameCoords
  deriving DecidableEq, Repr

/-- One pass of the body of the `AddMine` loop after its two checks: computes the distance
once, appends `neighbor` to `mine.Neighbors` if it is within `mine.Power`, then appends
`mine` to `neighbor.Neighbors` if it is within `neighbor.Power`. -/
def linkNeighbors (mine neighbor : Ptr) (h : Heap) : Heap :=
  let distance := (h mine).Distance (h neighbor)
  let h1 := if distance.le (h mine).Power then
      setNeighbors h mine ((h mine).Neighbors ++ [neighbor]) else h
  if distance.le (h1 neighbor).Power then
    setNeighbors h1 neighbor ((h1 neighbor).Neighbors ++ [mine]) else h1

/-- The `for _, neighbor := range f.Mines` loop of `AddMine`, over the mines still to visit.
Returns the heap as it is when the loop returns, and the error if it returned one. -/
def addLoop (mine : Ptr) : List Ptr → Heap → Heap × Option AddErr
  | [], h => (h, none)
  | neighbor :: rest, h =>
    if (h mine).ID = (h neighbor).ID then (h, some .sameID)
    else if (h mine).X.eq (h neighbor).X && (h mine).Y.eq (h neighbor).Y then
      (h, some .sameCoords)
    else addLoop mine rest (linkNeighbors mine neighbor h)

/-- `Field.AddMine`: the heap and field after the call, and the returned error. -/
def AddMine (h : Heap) (f : Field) (mine : Ptr) : Heap × Field × Option AddErr :=
  if (h mine).Power.lt F32.zero then (h, f, some .negativePower)
  else
    match addLoop mine f.Mines (setNeighbors h mine []) with
    | (h1, some e) => (h1, f, some e)
    | (h1, none) => (h1, { Mines := f.Mines ++ [mine] }, none)

/-- Successive `AddMine` calls, stopping at the first error. -/
def addAll : Heap → Field → List Ptr → Heap × Field × Option AddErr
  | h, f, [] => (h, f, none)
  | h, f, p :: ps =>
    match AddMine h f p with
    | (h1, f1, none) => addAll h1 f1 ps
    | r => r

/-- Fields obtained from the empty field by successful `AddMine` calls. -/
inductive Built : Heap → Field → Prop where
  | empty (h : Heap) : Built h { Mines := [] }
  | add {h : Heap} {f : Field} (mine : Ptr) {h1 : Heap} {f1 : Field} :
      Built h f → AddMine h f mine = (h1, f1, none) → Built h1 f1

/-! ## `byPeakExplosions` -/

/-- Whether a `float32` is NaN. -/
def F32.isNaN : F32 → Bool
  | .nan => true
  | _ => false

/-- The comparison of `byPeakExplosions.Less` on two mines whose peaks are `pa` and `pb`. -/
def lessMine (a b : Mine) (pa pb : Interval) : Bool :=
  if pa.Explosions ≠ pb.Explosions then decide (pa.Explosions > pb.Explosions)
  else if !(a.X.eq b.X) then a.X.lt b.X
  else a.Y.lt b.Y

/-- `byPeakExplosions.Less(i, j)`; `none` is a run-time panic (index out of range, or a
nil `Peak`). -/
def byPeakExplosions.Less (h : Heap) (m : List Ptr) (i j : Nat) : Option Bool :=
  match m[i]?, m[j]? with
  | some a, some b =>
    match (h a).Peak, (h b).Peak with
    | some pa, some pb => some (lessMine (h a) (h b) pa pb)
    | _, _ => none
  | _, _ => none

/-- The comparison `Less` on two mines given by pointer; `none` is the panic on a nil
`Peak`. -/
def lessPtr (h : Heap) (a b : Ptr) : Option Bool :=
  match (h a).Peak, (h b).Peak with
  | some pa, some pb => some (lessMine (h a) (h b) pa pb)
  | _, _ => none

/-- The inner loop of `insertionSort` in package `sort`,
`for j := i; j > a && data.Less(j, j-1); j-- { data.Swap(j, j-1) }`: the mine `x` at index
`i` moves towards the front for as long as it is `Less` than the mine right before it.
The list is `data[a:i]` in reverse order (the mine at `j-1` first); the result is
`data[a:i+1]` after the loop, again in reverse order. -/
def insertMine (h : Heap) (x : Ptr) : List Ptr → Option (List Ptr)
  | [] => some [x]
  | y :: before =>
    match lessPtr h x y with
    | none => none
    | some true => (insertMine h x before).map (fun r => y :: r)
    | some false => some (x :: y :: before)

/-- The function `insertionSort(data, 0, n)` of package `sort`: its outer loop
`for i := a + 1; i < b; i++` over the mines not yet placed.  `placed` is `data[0:i]` in
reverse order. -/
def insertionSort (h : Heap) : List Ptr → List Ptr → Option (List Ptr)
  | placed, [] => some placed.reverse
  | placed, x :: rest =>
    match insertMine h x placed with
    | none => none
    | some placed1 => insertionSort h placed1 rest

/-- Model of `sort.Sort(byPeakExplosions(mines))`, which runs `insertionSort` on a slice of
at most 12 mines.  On a longer slice `sort.Sort` partitions first; that part of the
library is not embedded, and what is proved of longer slices is proved of every
arrangement that is in sorted order (`IsSorted`, `SortedByPeak`).  The slice holds
pointers, so sorting moves no mine. -/
def sortMines (h : Heap) (mines : List Ptr) : Option (List Ptr) :=
  insertionSort h [] mines

/-- The loop `for i, m := range field.Mines` of `main` that prints the winners: it stops at
the first mine whose peak count is below `maxExplosions`.  Returns the mines printed. -/
def scanWinners (h : Heap) (maxExplosions : Int) : List Ptr → Option (List Ptr)
  | [] => some []
  | m :: rest =>
    match (h m).Peak with
    | none => none
    | some pk =>
      if pk.Explosions < maxExplosions then some []
      else (scanWinners h maxExplosions rest).map (fun r => m :: r)

/-- The end of `main`: `maxExplosions := field.Mines[0].Peak.Explosions`, then the scan.
`none` is a panic (empty slice or nil `Peak`). -/
def winners (h : Heap) (mines : List Ptr) : Option (List Ptr) :=
  match mines with
  | [] => none
  | m0 :: _ =>
    match (h m0).Peak with
    | none => none
    | some pk => scanWinners h pk.Explosions mines

/-! ## `Field.StartExplosions` -/

/-- Go `map[int]int`, as its entries. -/
abbrev Counts := List (Int × Int)

/-- Map lookup `explosions[k]` with presence. -/
def Counts.get : Counts → Int → Option Int
  | [], _ => none
  | (k1, v) :: rest, k => if k1 = k then some v else Counts.get rest k

/-- Map update `explosions[k]++` (a missing key reads as `0`). -/
def Counts.incr : Counts → Int → Counts
  | [], k => [(k, 0 + 1)]
  | (k1, v) :: rest, k => if k1 = k then (k1, v + 1) :: rest else (k1, v) :: Counts.incr rest k

/-- The loop `for _, m := range f.Mines { m.Exploded = false }`. -/
def resetAll : List Ptr → Heap → Heap
  | [], h => h
  | m :: rest, h => resetAll rest (setExploded h m false)

/-- The loop `for _, m := range mines` of one time step: explodes every mine of the frontier
that is not yet exploded, counts it, and queues its unexploded neighbors. -/
def frontierLoop (time : Int) : List Ptr → Heap → Counts → List Ptr → Heap × Counts × List Ptr
  | [], h, ex, neighbors => (h, ex, neighbors)
  | m :: rest, h, ex, neighbors =>
    match Explode h m with
    | (h1, false) => frontierLoop time rest h1 ex neighbors
    | (h1, true) =>
      frontierLoop time rest h1 (ex.incr time)
        (neighbors ++ (h1 m).Neighbors.filter (fun n => !(h1 n).Exploded))

/-- The loop `for time := 0; len(mines) > 0; time++`.  Returns the heap, the map and the
value of `time` when the loop ends (the number of time steps run); `none` when the fuel
runs out first. -/
def chainLoop : Nat → Int → List Ptr → Heap → Counts → Option (Heap × Counts × Int)
  | 0, _, _, _, _ => none
  | fuel + 1, time, mines, h, ex =>
    if mines.length > 0 then
      match frontierLoop time mines h ex [] with
      | (h1, ex1, neighbors) => chainLoop fuel (time + 1) neighbors h1 ex1
    else some (h, ex, time)

/-- The first part of `StartExplosions`: reset every mine of the field, then run the chain
reaction from `m`. -/
def explosionCounts (fuel : Nat) (h : Heap) (f : Field) (m : Ptr) :
    Option (Heap × Counts × Int) :=
  chainLoop fuel 0 [m] (resetAll f.Mines h) []

/-- The entries of the map as intervals, in the order the model stores them. -/
def intervalsOf (ex : Counts) : List Interval :=
  ex.map (fun kv => { Time := kv.1, Explosions := kv.2 })

/-- The comparison passed to `sort.Slice`. -/
def intervalLess (a b : Interval) : Bool :=
  if a.Explosions ≠ b.Explosions then decide (a.Explosions > b.Explosions)
  else decide (a.Time < b.Time)

/-- Insertion into a sorted list of intervals. -/
def insertInterval (a : Interval) : List Interval → List Interval
  | [] => [a]
  | b :: l => if intervalLess a b then a :: b :: l else b :: insertInterval a l

/-- Model of `sort.Slice(intervals, less)`: an insertion sort with the same comparison.
Only the first element of the result is used, and it is the same for every sorting
algorithm and every order of the input (`peak_of_sorted`, `peak_perm`). -/
def sortIntervals : List Interval → List Interval
  | [] => []
  | a :: l => insertInterval a (sortIntervals l)

/-- The second part of `StartExplosions`: sort the intervals and return `intervals[0]`;
`none` is the index-out-of-range panic. -/
def peak (ivs : List Interval) : Option Interval := (sortIntervals ivs).head?

/-- `Field.StartExplosions`: the heap after the call and the returned interval. -/
def StartExplosions (fuel : Nat) (h : Heap) (f : Field) (m : Ptr) : Option (Heap × Interval) :=
  match explosionCounts fuel h f m with
  | none => none
  | some (h1, ex, _) =>
    match peak (intervalsOf ex) with
    | none => none
    | some iv => some (h1, iv)

/-- A blank mine object with the given identity, position and power. -/
def mkMine (id : Int) (x y power : F32) : Mine :=
  { ID := id, X := x, Y := y, Power := power, Exploded := false, Neighbors := [], Peak := none }

/-! ## `ParseData` -/

/-- The error returns of `ParseData`: wrong number of fields, a field that does not parse
(X, Y or power), an error of `AddMine`, or the scanner's error. -/
inductive ParseErr where
  | fieldCount
  | badX
  | badY
  | badPower
  | add (e : AddErr)
  | scan
  deriving DecidableEq, Repr

/-- A heap in which no mine has been allocated yet: every cell is the zero `Mine`. -/
def emptyHeap : Heap := fun _ => mkMine 0 F32.zero F32.zero F32.zero

/-- The loop `for scanner.Scan()` of `ParseData` over the lines still to read.  `fields` is
`strings.Fields` and `parseFloat s` is `float32(x)` for `x, err := strconv.ParseFloat(s, 32)`
(`none` when `err != nil`); both are library functions and are parameters.  The mine
allocated for the line numbered `id` lives at address `id`. -/
def parseLoop (fields : String → List String) (parseFloat : String → Option F32) :
    List String → Nat → Heap → Field → Except ParseErr (Heap × Field)
  | [], _, h, f => .ok (h, f)
  | line :: rest, id, h, f =>
    match fields line with
    | [sx, sy, sp] =>
      match parseFloat sx with
      | none => .error .badX
      | some x =>
        match parseFloat sy with
        | none => .error .badY
        | some y =>
          match parseFloat sp with
          | none => .error .badPower
          | some power =>
            match AddMine (Function.update h (id + 1) (mkMine ((id + 1 : Nat) : Int) x y power))
                f (id + 1) with
            | (h2, f2, none) => parseLoop fields parseFloat rest (id + 1) h2 f2
            | (_, _, some e) => .error (.add e)
    | _ => .error .fieldCount

/-- `ParseData`: the returned `(*Field, error)` pair, the field together with the heap its
mines live in.  `lines` are the lines the scanner delivers and `scanErr` tells whether
`scanner.Err()` is non-nil after the last of them. -/
def ParseData (fields : String → List String) (parseFloat : String → Option F32)
    (lines : List String) (scanErr : Bool) : Option (Heap × Field) × Option ParseErr :=
  match parseLoop fields parseFloat lines 0 emptyHeap { Mines := [] } with
  | .error e => (none, some e)
  | .ok r => if scanErr then (none, some .scan) else (some r, none)

/-! ## Specification vocabulary -/

/-- `h1` differs from `h` at most in `Neighbors` fields. -/
def NeighborsOnly (h h1 : Heap) : Prop :=
  ∀ p, h1 p = { h p with Neighbors := (h1 p).Neighbors }

/-- `h1` differs from `h` at most in `Exploded` flags. -/
def ExplodedOnly (h h1 : Heap) : Prop :=
  ∀ p, h1 p = { h p with Exploded := (h1 p).Exploded }

/-- Every neighbor of a mine of `s` is in `s`. -/
def Closed (h : Heap) (s : List Ptr) : Prop :=
  ∀ p ∈ s, ∀ q ∈ (h p).Neighbors, q ∈ s

/-- A directed walk of `n` edges in the neighbor graph (edge `a → b` iff `b` is in
`a.Neighbors`). -/
inductive Walk (h : Heap) : Nat → Ptr → Ptr → Prop where
  | nil (a : Ptr) : Walk h 0 a a
  | snoc {n : Nat} {a b c : Ptr} : Walk h n a b → c ∈ (h b).Neighbors → Walk h (n + 1) a c

/-- The shortest directed path from `a` to `b` has exactly `n` edges. -/
def ShortestPath (h : Heap) (a b : Ptr) (n : Nat) : Prop :=
  Walk h n a b ∧ ∀ k, k < n → ¬ Walk h k a b

/-- The entry the map must hold for a step at which `c` mines explode. -/
def countEntry (c : Nat) : Option Int := if c = 0 then none else some (c : Int)

/-- The two rejection tests of the `AddMine` loop on a candidate `a` and an existing mine
`b`: same ID, or same X and same Y. -/
def Clash (a b : Mine) : Prop :=
  a.ID = b.ID ∨ (a.X.eq b.X = true ∧ a.Y.eq b.Y = true)

/-- What holds of every field built by successful `AddMine` calls: the mines are distinct
objects, no two of them clash, none has a power below zero, and each neighbor list is the
field's mine list filtered by "another mine, within my power". -/
def FieldInv (h : Heap) (f : Field) : Prop :=
  f.Mines.Nodup ∧
  (∀ a ∈ f.Mines, ∀ b ∈ f.Mines, a ≠ b → ¬ Clash (h a) (h b)) ∧
  (∀ a ∈ f.Mines, (h a).Power.lt F32.zero = false) ∧
  (∀ a ∈ f.Mines, (h a).Neighbors =
    f.Mines.filter (fun b => decide (b ≠ a) && ((h a).Distance (h b)).le (h a).Power))

instance Clash.decidable (a b : Mine) : Decidable (Clash a b) :=
  inferInstanceAs (Decidable (a.ID = b.ID ∨ (a.X.eq b.X = true ∧ a.Y.eq b.Y = true)))

/-- The peak explosion count of a mine (`0` when no peak is assigned). -/
def peakCount (m : Mine) : Int :=
  match m.Peak with
  | some pk => pk.Explosions
  | none => 0

/-- The slice is in sorted order for `Less`: no mine is `Less` than a mine before it. -/
def SortedByPeak (h : Heap) (l : List Ptr) : Prop :=
  l.Pairwise (fun a b => lessPtr h b a = some false)

/-- What `sort.IsSorted(byPeakExplosions(l))` checks,
`for i := n - 1; i > 0; i-- { if data.Less(i, i-1) { return false } }`: no mine is `Less`
than the mine right before it. -/
def IsSorted (h : Heap) (l : List Ptr) : Prop :=
  l.Chain' (fun a b => lessPtr h b a = some false)

instance IsSorted.decidable (h : Heap) (l : List Ptr) : Decidable (IsSorted h l) :=
  inferInstanceAs (Decidable (l.Chain' (fun a b => lessPtr h b a = some false)))

/-- Mine `a` ranks before mine `b`: higher peak count, or the same count and a lower X, or
the same count and X and a lower Y. -/
def RankedBefore (a b : Mine) : Prop :=
  peakCount a > peakCount b ∨
    (peakCount a = peakCount b ∧ a.X.lt b.X = true) ∨
    (peakCount a = peakCount b ∧ a.X.eq b.X = true ∧ a.Y.lt b.Y = true)

instance RankedBefore.decidable (a b : Mine) : Decidable (RankedBefore a b) :=
  inferInstanceAs (Decidable (peakCount a > peakCount b ∨
    (peakCount a = peakCount b ∧ a.X.lt b.X = true) ∨
    (peakCount a = peakCount b ∧ a.X.eq b.X = true ∧ a.Y.lt b.Y = true)))

/-- The record a line stands for: its three fields parsed as X, Y and power; `none` when
the line does not have exactly three fields or a field does not parse. -/
def parseRecord (fields : String → List String) (parseFloat : String → Option F32)
    (line : String) : Option (F32 × F32 × F32) :=
  match fields line with
  | [sx, sy, sp] =>
    match parseFloat sx, parseFloat sy, parseFloat sp with
    | some x, some y, some power => some (x, y, power)
    | _, _, _ => none
  | _ => none

/-- Two records have the same X and the same Y. -/
def SameCoords (a b : F32 × F32 × F32) : Prop :=
  a.1.eq b.1 = true ∧ a.2.1.eq b.2.1 = true

/-! ## Concrete fields -/

/-- The four mines of `TestMine_Neighbors`, at addresses 1 to 4. -/
def testHeap : Heap := fun p =>
  match p with
  | 1 => mkMine 1 (F32.ofInt 1) (F32.ofInt 1) (F32.ofInt 2)
  | 2 => mkMine 2 (F32.ofInt 2) (F32.ofInt 2) (F32.ofInt 2)
  | 3 => mkMine 3 (F32.ofInt 3) (F32.ofInt 3) (F32.ofInt 4)
  | 4 => mkMine 4 (F32.ofInt 4) (F32.ofInt 4) (F32.ofInt 5)
  | _ => mkMine 0 F32.zero F32.zero F32.zero

/-- Three mines on a line: mine 1 at (0,0) with power 5 and mine 2 at (1,0) with power 1
form the field; the candidate at address 3 sits at (2,0) and reuses ID 2. -/
def clashHeap : Heap := fun p =>
  match p with
  | 1 => mkMine 1 (F32.ofInt 0) (F32.ofInt 0) (F32.ofInt 5)
  | 2 => mkMine 2 (F32.ofInt 1) (F32.ofInt 0) (F32.ofInt 1)
  | 3 => mkMine 2 (F32.ofInt 2) (F32.ofInt 0) (F32.ofInt 0)
  | _ => mkMine 0 F32.zero F32.zero F32.zero

/-- The heap after adding mines 1 and 2 of `clashHeap` to an empty field. -/
def clashField : Heap := (addAll clashHeap { Mines := [] } [1, 2]).1

/-- The heap after adding mines 1 and 2 of `testHeap` to an empty field. -/
def pairHeap : Heap := (addAll testHeap { Mines := [] } [1, 2]).1

/-- Two mines whose X coordinate is NaN, with Y coordinates 1 and 2 and the same peak. -/
def nanHeap : Heap := fun p =>
  match p with
  | 1 => { mkMine 1 F32.nan (F32.ofInt 1) (F32.ofInt 1) with
      Peak := some { Time := 0, Explosions := 1 } }
  | _ => { mkMine 2 F32.nan (F32.ofInt 2) (F32.ofInt 1) with
      Peak := some { Time := 0, Explosions := 1 } }

/-- Three mines with assigned peaks, the second with a NaN X coordinate:
(2, 9) with peak count 1, (NaN, 1) with peak count 3 and (1, 5) with peak count 3. -/
def nanRankHeap : Heap := fun p =>
  match p with
  | 1 => { mkMine 1 (F32.ofInt 2) (F32.ofInt 9) (F32.ofInt 1) with
      Peak := some { Time := 0, Explosions := 1 } }
  | 2 => { mkMine 2 F32.nan (F32.ofInt 1) (F32.ofInt 1) with
      Peak := some { Time := 0, Explosions := 3 } }
  | _ => { mkMine 3 (F32.ofInt 1) (F32.ofInt 5) (F32.ofInt 1) with
      Peak := some { Time := 0, Explosions := 3 } }

/-- Three mines of `TestMines_SortByExplosions` (its m4, m5 and m6), with their peaks. -/
def rankHeap : Heap := fun p =>
  match p with
  | 1 => { mkMine 4 (F32.ofInt 4) (F32.ofInt 4) F32.zero with
      Peak := some { Time := 0, Explosions := 4 } }
  | 2 => { mkMine 5 (F32.ofInt 4) (F32.ofInt 5) F32.zero with
      Peak := some { Time := 0, Explosions := 4 } }
  | _ => { mkMine 6 (F32.ofInt 5) (F32.ofInt 2) F32.zero with
      Peak := some { Time := 0, Explosions := 4 } }

/-- The number of mines of `l` that are not exploded. -/
def unexploded (h : Heap) (l : List Ptr) : Nat :=
  (l.filter (fun p => !(h p).Exploded)).length

/-- The number of distinct mines of a frontier that are not exploded. -/
def newlyExploded (h : Heap) (mines : List Ptr) : Nat :=
  (mines.filter (fun p => !(h p).Exploded)).toFinset.card

/-- The map `ex` after `c` increments of the fresh key `time`. -/
def Counts.bump (ex : Counts) (time : Int) (c : Nat) : Counts :=
  if c = 0 then ex else ex ++ [(time, (c : Int))]

/-- The two heaps hold the same mine at every address of `s`. -/
def AgreeOn (s : List Ptr) (h1 h2 : Heap) : Prop :=
  ∀ p ∈ s, h1 p = h2 p

/-- Five mines on a line, all with power 1: the field's mines 1, 2 and 3 sit at X = 1, 3
and 0; the candidates at addresses 4 and 5 sit at X = 2 and 4 and reuse ID 3. -/
def strayHeap : Heap := fun p =>
  match p with
  | 1 => mkMine 1 (F32.ofInt 1) (F32.ofInt 0) (F32.ofInt 1)
  | 2 => mkMine 2 (F32.ofInt 3) (F32.ofInt 0) (F32.ofInt 1)
  | 3 => mkMine 3 (F32.ofInt 0) (F32.ofInt 0) (F32.ofInt 1)
  | 4 => mkMine 3 (F32.ofInt 2) (F32.ofInt 0) (F32.ofInt 1)
  | _ => mkMine 3 (F32.ofInt 4) (F32.ofInt 0) (F32.ofInt 1)

/-- The heap after adding mines 1, 2 and 3 of `strayHeap` to an empty field. -/
def strayBuilt : Heap := (addAll strayHeap { Mines := [] } [1, 2, 3]).1

/-- The heap after `AddMine` has then rejected the candidates 4 and 5. -/
def strayField : Heap :=
  (AddMine (AddMine strayBuilt { Mines := [1, 2, 3] } 4).1 { Mines := [1, 2, 3] } 5).1

/-- A mine with a negative power, at every address. -/
def negHeap : Heap := fun _ => mkMine 3 (F32.ofInt 3) (F32.ofInt 3) (F32.ofInt (-3))

/-- A single mine, at every address, with nothing in its neighbor list. -/
def loneHeap : Heap := fun _ => mkMine 1 (F32.ofInt 1) (F32.ofInt 1) F32.zero

/-- Fields obtained from the empty field by `AddMine` calls, whether they succeed or fail. -/
inductive Reached : Heap → Field → Prop where
  | empty (h : Heap) : Reached h { Mines := [] }
  | call {h : Heap} {f : Field} (mine : Ptr) :
      Reached h f → Reached (AddMine h f mine).1 (AddMine h f mine).2.1

/-- A mine whose power is NaN, at every address. -/
def nanPowerHeap : Heap := fun _ => mkMine 1 (F32.ofInt 1) (F32.ofInt 1) F32.nan

/-- The nine mines of `TestField_StartExplosions`, at addresses 1 to 9. -/
def gridHeap : Heap := fun p =>
  match p with
  | 1 => mkMine 1 (F32.ofInt 1) (F32.ofInt 1) (F32.ofRatio 15 10)
  | 2 => mkMine 2 (F32.ofInt 1) (F32.ofInt 2) (F32.ofRatio 15 10)
  | 3 => mkMine 3 (F32.ofInt 1) (F32.ofInt 3) (F32.ofRatio 15 10)
  | 4 => mkMine 4 (F32.ofInt 2) (F32.ofInt 1) (F32.ofRatio 15 10)
  | 5 => mkMine 5 (F32.ofInt 2) (F32.ofInt 2) (F32.ofRatio 15 10)
  | 6 => mkMine 6 (F32.ofInt 2) (F32.ofInt 3) (F32.ofRatio 15 10)
  | 7 => mkMine 7 (F32.ofInt 3) (F32.ofInt 1) (F32.ofRatio 50 10)
  | 8 => mkMine 8 (F32.ofInt 3) (F32.ofInt 2) (F32.ofRatio 9 10)
  | _ => mkMine 9 (F32.ofInt 3) (F32.ofInt 3) (F32.ofRatio 11 10)

/-- The heap after adding the nine mines of `gridHeap`, in order, to an empty field. -/
def gridField : Heap := (addAll gridHeap { Mines := [] } [1, 2, 3, 4, 5, 6, 7, 8, 9]).1

/-- A mine whose X coordinate is `+Inf`, at every address. -/
def infHeap : Heap := fun _ => mkMine 1 (F32.inf false) (F32.ofInt 2) (F32.ofInt 1)

/-- The value of `strings.Fields` on the lines used in `TestParseData`. -/
def sampleFields : String → List String
  | "1 1 1" => ["1", "1", "1"]
  | "2 2 2" => ["2", "2", "2"]
  | "2 2" => ["2", "2"]
  | _ => []

/-- The value of `strconv.ParseFloat(s, 32)` on the fields used in `TestParseData`. -/
def sampleFloat : String → Option F32
  | "1" => some (F32.ofInt 1)
  | "2" => some (F32.ofInt 2)
  | _ => none

/-! ## Floating point facts -/

theorem size_of_div_pow {n j : Nat} (hn : 2 ^ j ≤ n) :
    Nat.size n = j + Nat.size (n / 2 ^ j) := by
  have hpos : 0 < 2 ^ j := Nat.two_pow_pos _
  have hq : 0 < n / 2 ^ j := Nat.div_pos hn hpos
  have hs : 0 < Nat.size (n / 2 ^ j) := Nat.size_pos.2 hq
  apply le_antisymm
  · rw [Nat.size_le]
    have h1 : n < (n / 2 ^ j + 1) * 2 ^ j := by
      rw [Nat.mul_comm]
      exact Nat.lt_mul_div_succ n hpos
    have h2 : n / 2 ^ j + 1 ≤ 2 ^ Nat.size (n / 2 ^ j) := Nat.lt_size_self _
    calc n < (n / 2 ^ j + 1) * 2 ^ j := h1
      _ ≤ 2 ^ Nat.size (n / 2 ^ j) * 2 ^ j := Nat.mul_le_mul_right _ h2
      _ = 2 ^ (j + Nat.size (n / 2 ^ j)) := by rw [← Nat.pow_add, Nat.add_comm]
  · have h3 : 2 ^ (Nat.size (n / 2 ^ j) - 1) ≤ n / 2 ^ j :=
      Nat.lt_size.1 (Nat.sub_lt hs (by decide))
    have h4 : 2 ^ (j + Nat.size (n / 2 ^ j) - 1) ≤ n := by
      calc 2 ^ (j + Nat.size (n / 2 ^ j) - 1)
          = 2 ^ (Nat.size (n / 2 ^ j) - 1) * 2 ^ j := by
            rw [← Nat.pow_add]
            congr 1
            omega
        _ ≤ n / 2 ^ j * 2 ^ j := Nat.mul_le_mul_right _ h3
        _ ≤ n := Nat.div_mul_le_self n _
    have h5 := Nat.lt_size.2 h4
    omega

theorem bitLenGo_eq_size : ∀ (k n : Nat), n < 2 ^ (2 ^ k) → bitLenGo k n = Nat.size n
  | 0, n, hn => by
    have : n = 0 ∨ n = 1 := by
      simp only [Nat.pow_zero, Nat.pow_one] at hn
      omega
    rcases this with e | e <;> subst e <;> simp [bitLenGo]
  | k + 1, n, hn => by
    unfold bitLenGo
    by_cases hlt : n < 2 ^ (2 ^ k)
    · simp only [hlt, if_true]
      exact bitLenGo_eq_size k n hlt
    · simp only [hlt, if_false]
      have hge : 2 ^ (2 ^ k) ≤ n := Nat.le_of_not_lt hlt
      have hq : n / 2 ^ (2 ^ k) < 2 ^ (2 ^ k) := by
        rw [Nat.div_lt_iff_lt_mul (Nat.two_pow_pos _), ← Nat.pow_add]
        have : 2 ^ k + 2 ^ k = 2 ^ (k + 1) := by rw [Nat.pow_succ]; omega
        rw [this]
        exact hn
      rw [bitLenGo_eq_size k _ hq, size_of_div_pow hge]

theorem bitLevel_spec : ∀ (fuel n j : Nat), n < 2 ^ (2 ^ (j + fuel)) →
    n < 2 ^ (2 ^ (bitLevel fuel n j))
  | 0, _, _, hn => hn
  | fuel + 1, n, j, hn => by
    unfold bitLevel
    by_cases hlt : n < 2 ^ (2 ^ j)
    · simp only [hlt, if_true]
    · simp only [hlt, if_false]
      apply bitLevel_spec fuel n (j + 1)
      have : j + 1 + fuel = j + (fuel + 1) := by omega
      rw [this]
      exact hn

/-- `bitLen` is the number of binary digits. -/
theorem bitLen_eq_size (n : Nat) : bitLen n = Nat.size n := by
  unfold bitLen
  apply bitLenGo_eq_size
  apply bitLevel_spec
  rw [Nat.zero_add]
  calc n < 2 ^ n := Nat.lt_two_pow n
    _ ≤ 2 ^ (2 ^ n) := Nat.pow_le_pow_right (by decide) (Nat.le_of_lt (Nat.lt_two_pow n))

theorem isqrtAux_eq_iter (m : Nat) :
    ∀ (fuel x : Nat), x ≤ fuel → isqrtAux fuel x m = Nat.sqrt.iter m x
  | 0, x, hx => by
    have : x = 0 := by omega
    subst this
    unfold Nat.sqrt.iter
    simp [isqrtAux]
  | fuel + 1, x, hx => by
    unfold isqrtAux
    rw [Nat.sqrt.iter]
    by_cases hlt : (x + m / x) / 2 < x
    · simp only [hlt, if_true, dif_pos]
      exact isqrtAux_eq_iter m fuel _ (by omega)
    · simp only [hlt, if_false, dif_neg, not_false_eq_true]

/-- `isqrt` is the integer square root. -/
theorem isqrt_eq_sqrt (m : Nat) : isqrt m = Nat.sqrt m := by
  unfold isqrt
  rw [isqrtAux_eq_iter m _ _ (le_refl _), Nat.eq_sqrt]
  refine ⟨Nat.sqrt.iter_sq_le _ _, Nat.sqrt.lt_iter_succ_sq _ _ ?_⟩
  have h1 : m < 2 ^ bitLen m := by
    rw [bitLen_eq_size]
    exact Nat.lt_size_self m
  have h2 : 2 ^ bitLen m ≤ 2 ^ (bitLen m / 2 + 1) * 2 ^ (bitLen m / 2 + 1) := by
    rw [← Nat.pow_add]
    exact Nat.pow_le_pow_right (by decide) (by omega)
  calc m < 2 ^ bitLen m := h1
    _ ≤ 2 ^ (bitLen m / 2 + 1) * 2 ^ (bitLen m / 2 + 1) := h2
    _ ≤ (2 ^ (bitLen m / 2 + 1) + 1) * (2 ^ (bitLen m / 2 + 1) + 1) :=
      Nat.mul_le_mul (Nat.le_succ _) (Nat.le_succ _)

theorem F32.sq_ofMag (s t : Bool) (m : Nat) :
    F64.sq (F32.toF64 (F32.ofMag s m)) = F64.sq (F32.toF64 (F32.ofMag t m)) := by
  unfold F32.ofMag
  split
  · simp [F32.toF64, F64.sq]
  · cases s <;> cases t <;> simp [F32.toF64, F64.sq, Int.natAbs_mul, Int.natAbs_neg]

theorem F32.sq_sub_comm (a b : F32) :
    F64.sq (F32.toF64 (F32.sub a b)) = F64.sq (F32.toF64 (F32.sub b a)) := by
  cases a <;> cases b <;> simp only [F32.sub, F32.toF64, F64.sq]
  · rename_i x y
    by_cases hxy : x = y
    · subst hxy; simp [F32.toF64, F64.sq]
    · have hyx : ¬ y = x := fun e => hxy e.symm
      simp [hxy, hyx, F32.toF64, F64.sq]
  · rename_i x y
    have e : (x - y).natAbs = (y - x).natAbs := by omega
    rw [e]
    exact F32.sq_ofMag _ _ _

/-- The computed distance does not depend on the direction. -/
theorem Mine.Distance_comm (a b : Mine) : a.Distance b = b.Distance a := by
  unfold Mine.Distance
  simp only [F32.sq_sub_comm a.X b.X, F32.sq_sub_comm a.Y b.Y]

theorem Mine.Distance_congr {a b c d : Mine} (hx : a.X = c.X) (hy : a.Y = c.Y)
    (hx2 : b.X = d.X) (hy2 : b.Y = d.Y) : a.Distance b = c.Distance d := by
  unfold Mine.Distance
  rw [hx, hy, hx2, hy2]

theorem F32.not_lt_zero_of_le {p : F32} (hp : F32.zero.le p = true) :
    p.lt F32.zero = false := by
  cases p with
  | nan => rfl
  | inf neg => cases neg <;> simp_all [F32.le, F32.lt, F32.eq, F32.zero]
  | fin n =>
    simp only [F32.le, F32.lt, F32.eq, F32.zero, Bool.or_eq_true, decide_eq_true_eq] at hp
    simp only [F32.lt, F32.zero, decide_eq_false_iff_not]
    omega

/-! ## Rounding errors -/

/-- Rounding `n / 2^k` to the nearest integer moves `n` by at most `2^k / 2`. -/
theorem rneDiv_err (n k : Nat) :
    2 * (rneDiv n k * 2 ^ k) ≤ 2 * n + 2 ^ k ∧ 2 * n ≤ 2 * (rneDiv n k * 2 ^ k) + 2 ^ k := by
  have hdm := Nat.div_add_mod n (2 ^ k)
  have hr : n % 2 ^ k < 2 ^ k := Nat.mod_lt _ (Nat.two_pow_pos k)
  unfold rneDiv
  simp only
  generalize n / 2 ^ k = q at *
  generalize n % 2 ^ k = r at *
  generalize hP : 2 ^ k = P at *
  have hqP : q * P = P * q := Nat.mul_comm _ _
  split
  · rename_i hc
    rw [Nat.add_mul, Nat.one_mul]
    omega
  · rename_i hc
    omega

theorem rneDiv_zero (n : Nat) : rneDiv n 0 = n := by
  simp [rneDiv, Nat.mod_one]

/-- The rounded magnitude, scaled back, is `rneDiv` at the rounding position. -/
theorem roundMag_scaled (prec n shift : Nat) :
    roundMag prec n shift * 2 ^ shift =
      rneDiv n (max shift (bitLen n - prec)) * 2 ^ (max shift (bitLen n - prec)) := by
  unfold roundMag
  simp only
  rw [Nat.mul_assoc, ← Nat.pow_add, Nat.sub_add_cancel (le_max_left _ _)]

/-- Rounding to `prec` bits at or above the position `shift`: the error is at most half a
unit, or at most the fraction `2^-prec` of the magnitude. -/
theorem roundMag_err (prec n shift : Nat) :
    (2 * (roundMag prec n shift * 2 ^ shift) ≤ 2 * n + 2 ^ shift ∧
        2 * n ≤ 2 * (roundMag prec n shift * 2 ^ shift) + 2 ^ shift) ∨
      (2 ^ prec * (roundMag prec n shift * 2 ^ shift) ≤ 2 ^ prec * n + n ∧
        2 ^ prec * n ≤ 2 ^ prec * (roundMag prec n shift * 2 ^ shift) + n) := by
  rw [roundMag_scaled]
  have herr := rneDiv_err n (max shift (bitLen n - prec))
  rcases le_total (bitLen n - prec) shift with hle | hle
  · rw [max_eq_left hle] at herr ⊢
    exact Or.inl herr
  · rw [max_eq_right hle] at herr ⊢
    rcases Nat.eq_zero_or_pos (bitLen n - prec) with h0 | hpos
    · have : shift = 0 := by omega
      subst this
      rw [h0] at herr ⊢
      exact Or.inl herr
    · right
      have hsz : 2 ^ (bitLen n - 1) ≤ n := by
        rw [bitLen_eq_size]
        apply Nat.lt_size.1
        rw [bitLen_eq_size] at hpos
        omega
      have hpow : 2 ^ prec * 2 ^ (bitLen n - prec) = 2 * 2 ^ (bitLen n - 1) := by
        rw [← Nat.pow_add, ← Nat.pow_succ']
        congr 1
        omega
      generalize rneDiv n (bitLen n - prec) * 2 ^ (bitLen n - prec) = R at *
      generalize 2 ^ (bitLen n - prec) = K at *
      generalize 2 ^ (bitLen n - 1) = M at *
      generalize hQ : 2 ^ prec = Q at *
      have h1 : Q * (2 * R) ≤ Q * (2 * n + K) := Nat.mul_le_mul_left _ herr.1
      have h2 : Q * (2 * n) ≤ Q * (2 * R + K) := Nat.mul_le_mul_left _ herr.2
      rw [Nat.mul_add] at h1 h2
      have e1 : Q * (2 * R) = 2 * (Q * R) := by ring
      have e2 : Q * (2 * n) = 2 * (Q * n) := by ring
      rw [e1, e2] at h1 h2
      omega

/-- With no position to keep (`shift = 0`) the error of rounding to `prec` bits is at most
the fraction `2^-prec` of the magnitude. -/
theorem roundMag_rel (prec n : Nat) :
    2 ^ prec * roundMag prec n 0 ≤ 2 ^ prec * n + n ∧
      2 ^ prec * n ≤ 2 ^ prec * roundMag prec n 0 + n := by
  rcases roundMag_err prec n 0 with h | h
  · simp only [Nat.pow_zero, Nat.mul_one] at h
    have : roundMag prec n 0 = n := by omega
    rw [this]
    omega
  · simpa using h

/-- Above the subnormal range the error of rounding to `prec` bits is at most the fraction
`2^-prec` of the magnitude. -/
theorem roundMag_rel_of_le (prec n shift : Nat) (hn : 2 ^ (shift + prec) ≤ 2 * n ∨ n = 0) :
    2 ^ prec * (roundMag prec n shift * 2 ^ shift) ≤ 2 ^ prec * n + n ∧
      2 ^ prec * n ≤ 2 ^ prec * (roundMag prec n shift * 2 ^ shift) + n := by
  rcases roundMag_err prec n shift with h | h
  · rcases hn with hn | hn
    · rw [Nat.pow_add, Nat.mul_comm] at hn
      generalize roundMag prec n shift * 2 ^ shift = R at *
      generalize 2 ^ shift = K at *
      generalize 2 ^ prec = Q at *
      have h1 : Q * (2 * R) ≤ Q * (2 * n + K) := Nat.mul_le_mul_left _ h.1
      have h2 : Q * (2 * n) ≤ Q * (2 * R + K) := Nat.mul_le_mul_left _ h.2
      rw [Nat.mul_add] at h1 h2
      have e1 : Q * (2 * R) = 2 * (Q * R) := by ring
      have e2 : Q * (2 * n) = 2 * (Q * n) := by ring
      rw [e1, e2] at h1 h2
      omega
    · subst hn
      have hz : roundMag prec 0 shift = 0 := by
        simp [roundMag, rneDiv]
      rw [hz]
      simp
  · exact h

/-- What `F64.sqrtMag` computes for a positive magnitude: with `B` the weight of the last
kept bit, the result is `q * B` or `(q + 1) * B`, whichever is nearer to the square root
of `n * 2^1074`, and `B * 2^52` is at most that root. -/
theorem F64.sqrtMag_spec (n : Nat) (hn : 0 < n) :
    ∃ q B : Nat, (B * 2 ^ 52) * (B * 2 ^ 52) ≤ n * 2 ^ 1074 ∧
      q * q * (B * B) ≤ n * 2 ^ 1074 ∧ n * 2 ^ 1074 < (q + 1) * (q + 1) * (B * B) ∧
      ((F64.sqrtMag n = (q + 1) * B ∧
          (2 * q + 1) * (2 * q + 1) * (B * B) ≤ 4 * (n * 2 ^ 1074)) ∨
        (F64.sqrtMag n = q * B ∧
          4 * (n * 2 ^ 1074) ≤ (2 * q + 1) * (2 * q + 1) * (B * B))) := by
  have h4 : ∀ k : Nat, 4 ^ k = 2 ^ k * 2 ^ k := by
    intro k
    rw [← Nat.mul_pow]
  have hBpos : ∀ k : Nat, 0 < 2 ^ k * 2 ^ k := fun k =>
    Nat.mul_pos (Nat.two_pow_pos k) (Nat.two_pow_pos k)
  refine ⟨Nat.sqrt (n * 2 ^ 1074 / 4 ^ (Nat.size (Nat.sqrt (n * 2 ^ 1074)) - 53)),
    2 ^ (Nat.size (Nat.sqrt (n * 2 ^ 1074)) - 53), ?_, ?_, ?_, ?_⟩
  · have h1 : 2 ^ 537 ≤ Nat.sqrt (n * 2 ^ 1074) := by
      rw [Nat.le_sqrt, ← Nat.pow_add]
      calc 2 ^ (537 + 537) = 1 * 2 ^ 1074 := by rw [Nat.one_mul]
        _ ≤ n * 2 ^ 1074 := Nat.mul_le_mul_right _ hn
    have h2 : 537 < Nat.size (Nat.sqrt (n * 2 ^ 1074)) := Nat.lt_size.2 h1
    have h3 : 2 ^ (Nat.size (Nat.sqrt (n * 2 ^ 1074)) - 53) * 2 ^ 52 ≤
        Nat.sqrt (n * 2 ^ 1074) := by
      rw [← Nat.pow_add]
      apply Nat.lt_size.1
      omega
    exact le_trans (Nat.mul_le_mul h3 h3) (Nat.sqrt_le _)
  · rw [← h4, ← Nat.le_div_iff_mul_le (by rw [h4]; exact hBpos _)]
    exact Nat.sqrt_le _
  · rw [← h4, ← Nat.div_lt_iff_lt_mul (by rw [h4]; exact hBpos _)]
    exact Nat.lt_succ_sqrt _
  · unfold F64.sqrtMag
    simp only [isqrt_eq_sqrt, bitLen_eq_size, ← h4]
    generalize Nat.sqrt (n * 2 ^ 1074 / 4 ^ (Nat.size (Nat.sqrt (n * 2 ^ 1074)) - 53)) = q
    generalize 4 ^ (Nat.size (Nat.sqrt (n * 2 ^ 1074)) - 53) = K
    generalize 2 ^ (Nat.size (Nat.sqrt (n * 2 ^ 1074)) - 53) = B
    generalize n * 2 ^ 1074 = m
    rcases Nat.lt_trichotomy (4 * m) ((2 * q + 1) * (2 * q + 1) * K) with hlt | heq | hgt
    · right
      have h1 : ¬ (4 * m > (2 * q + 1) * (2 * q + 1) * K) := by omega
      have h2 : ¬ (4 * m = (2 * q + 1) * (2 * q + 1) * K) := by omega
      simp only [h1, h2, decide_False, Bool.false_or, Bool.false_and, Bool.false_eq_true,
        if_false, true_and]
      exact le_of_lt hlt
    · by_cases hodd : q % 2 = 1
      · left
        simp [heq, hodd]
      · right
        simp [heq, hodd]
    · left
      simp only [gt_iff_lt, hgt, decide_True, Bool.true_or, if_true, true_and]
      exact le_of_lt hgt

/-! ## Rounding errors, as real numbers -/

theorem sqrt_between {lo hi A B : ℝ} (hlo : 0 ≤ lo) (hhi : 0 ≤ hi)
    (h1 : lo ^ 2 * A ≤ B) (h2 : B ≤ hi ^ 2 * A) :
    lo * Real.sqrt A ≤ Real.sqrt B ∧ Real.sqrt B ≤ hi * Real.sqrt A := by
  have e1 : lo * Real.sqrt A = Real.sqrt (lo ^ 2 * A) := by
    rw [Real.sqrt_mul (sq_nonneg lo), Real.sqrt_sq hlo]
  have e2 : hi * Real.sqrt A = Real.sqrt (hi ^ 2 * A) := by
    rw [Real.sqrt_mul (sq_nonneg hi), Real.sqrt_sq hhi]
  rw [e1, e2]
  exact ⟨Real.sqrt_le_sqrt h1, Real.sqrt_le_sqrt h2⟩

theorem le_sqrt_of_sq_le {x y : ℝ} (h : x ^ 2 ≤ y) : x ≤ Real.sqrt y :=
  le_trans (le_abs_self x) (Real.abs_le_sqrt h)

theorem sqrt_le_of_le_sq {x y : ℝ} (hy : 0 ≤ y) (h : x ≤ y ^ 2) : Real.sqrt x ≤ y :=
  Real.sqrt_le_iff.2 ⟨hy, h⟩

/-- A multiple `t` of `B` nearest to the square root of `m`, where `B * P` is at most
that root, is within the fraction `1 / (2 * P)` of the root. -/
theorem sqrt_round_near {t q B P m : Nat} (hP : 0 < P)
    (h1 : (B * P) * (B * P) ≤ m) (h2 : q * q * (B * B) ≤ m)
    (h3 : m < (q + 1) * (q + 1) * (B * B))
    (h4 : (t = (q + 1) * B ∧ (2 * q + 1) * (2 * q + 1) * (B * B) ≤ 4 * m) ∨
      (t = q * B ∧ 4 * m ≤ (2 * q + 1) * (2 * q + 1) * (B * B))) :
    Real.sqrt m - Real.sqrt m / (2 * P) ≤ t ∧ (t : ℝ) ≤ Real.sqrt m + Real.sqrt m / (2 * P) := by
  have hB : (0 : ℝ) ≤ B := Nat.cast_nonneg _
  have hq : (0 : ℝ) ≤ q := Nat.cast_nonneg _
  have hPr : (0 : ℝ) < P := Nat.cast_pos.2 hP
  have c1 : ((B : ℝ) * P) ^ 2 ≤ (m : ℝ) := by
    have := (Nat.cast_le (α := ℝ)).2 h1
    rw [Nat.cast_mul, Nat.cast_mul] at this
    rw [pow_two]
    exact this
  have c2 : ((q : ℝ) * B) ^ 2 ≤ (m : ℝ) := by
    have := (Nat.cast_le (α := ℝ)).2 h2
    rw [Nat.cast_mul, Nat.cast_mul, Nat.cast_mul] at this
    calc ((q : ℝ) * B) ^ 2 = q * q * (B * B) := by ring
      _ ≤ _ := this
  have c3 : (m : ℝ) ≤ (((q : ℝ) + 1) * B) ^ 2 := by
    have := (Nat.cast_le (α := ℝ)).2 (le_of_lt h3)
    rw [Nat.cast_mul, Nat.cast_mul, Nat.cast_mul, Nat.cast_add, Nat.cast_one] at this
    calc (m : ℝ) ≤ (q + 1) * (q + 1) * (B * B) := this
      _ = _ := by ring
  have r1 := le_sqrt_of_sq_le c1
  have r2 := le_sqrt_of_sq_le c2
  have r3 := sqrt_le_of_le_sq (mul_nonneg (by linarith) hB) c3
  have hr0 : 0 ≤ Real.sqrt m := Real.sqrt_nonneg _
  have hhalf : (B : ℝ) / 2 ≤ Real.sqrt m / (2 * P) := by
    rw [div_le_div_iff₀ (by norm_num) (by positivity)]
    nlinarith
  rcases h4 with ⟨e, h5⟩ | ⟨e, h5⟩
  · have c5 : ((2 * (q : ℝ) + 1) * B / 2) ^ 2 ≤ (m : ℝ) := by
      have := (Nat.cast_le (α := ℝ)).2 h5
      rw [Nat.cast_mul, Nat.cast_mul, Nat.cast_mul, Nat.cast_add, Nat.cast_mul,
        Nat.cast_one, Nat.cast_mul] at this
      have e4 : ((4 : Nat) : ℝ) = 4 := by norm_num
      have e2 : ((2 : Nat) : ℝ) = 2 := by norm_num
      rw [e4, e2] at this
      nlinarith
    have r5 := le_sqrt_of_sq_le c5
    have et : (t : ℝ) = (q + 1) * B := by
      rw [e, Nat.cast_mul, Nat.cast_add, Nat.cast_one]
    rw [et]
    have hpos : 0 ≤ Real.sqrt m / (2 * P) := by positivity
    constructor
    · linarith
    · linarith
  · have c5 : (m : ℝ) ≤ ((2 * (q : ℝ) + 1) * B / 2) ^ 2 := by
      have := (Nat.cast_le (α := ℝ)).2 h5
      rw [Nat.cast_mul, Nat.cast_mul, Nat.cast_mul, Nat.cast_add, Nat.cast_mul,
        Nat.cast_one, Nat.cast_mul] at this
      have e4 : ((4 : Nat) : ℝ) = 4 := by norm_num
      have e2 : ((2 : Nat) : ℝ) = 2 := by norm_num
      rw [e4, e2] at this
      nlinarith
    have r5 := sqrt_le_of_le_sq (by positivity) c5
    have et : (t : ℝ) = q * B := by
      rw [e, Nat.cast_mul]
    rw [et]
    have hpos : 0 ≤ Real.sqrt m / (2 * P) := by positivity
    constructor
    · linarith
    · linarith

theorem sqrtMag_zero : F64.sqrtMag 0 = 0 := by
  simp [F64.sqrtMag, isqrt_eq_sqrt]

/-- The computed square root is within the fraction `2^-53` of the square root. -/
theorem sqrtMag_near (n : Nat) :
    Real.sqrt ((n * 2 ^ 1074 : Nat) : ℝ) - Real.sqrt ((n * 2 ^ 1074 : Nat) : ℝ) / 2 ^ 53 ≤
        (F64.sqrtMag n : ℝ) ∧
      (F64.sqrtMag n : ℝ) ≤
        Real.sqrt ((n * 2 ^ 1074 : Nat) : ℝ) + Real.sqrt ((n * 2 ^ 1074 : Nat) : ℝ) / 2 ^ 53 := by
  rcases Nat.eq_zero_or_pos n with h0 | hn
  · subst h0
    simp [sqrtMag_zero]
  obtain ⟨q, B, h1, h2, h3, h4⟩ := F64.sqrtMag_spec n hn
  have := sqrt_round_near (Nat.two_pow_pos 52) h1 h2 h3 h4
  have e : (2 : ℝ) * ((2 ^ 52 : Nat) : ℝ) = 2 ^ 53 := by norm_num
  rw [e] at this
  exact this

/-- A relative error bound between natural numbers, read in the reals. -/
theorem near_of_nat {Q R n : Nat} (hQ : 0 < Q)
    (h : Q * R ≤ Q * n + n ∧ Q * n ≤ Q * R + n) :
    (1 - 1 / (Q : ℝ)) * n ≤ R ∧ (R : ℝ) ≤ (1 + 1 / (Q : ℝ)) * n := by
  have hQr : (0 : ℝ) < Q := Nat.cast_pos.2 hQ
  have h1 : (Q : ℝ) * R ≤ Q * n + n := by exact_mod_cast h.1
  have h2 : (Q : ℝ) * n ≤ Q * R + n := by exact_mod_cast h.2
  have e1 : (1 - 1 / (Q : ℝ)) * n = (Q * n - n) / Q := by field_simp; ring
  have e2 : (1 + 1 / (Q : ℝ)) * n = (Q * n + n) / Q := by field_simp; ring
  rw [e1, e2, div_le_iff₀ hQr, le_div_iff₀ hQr]
  constructor <;> linarith

theorem scale_bounds {lo hi lo2 hi2 x y z : ℝ} (hlo : 0 ≤ lo) (hhi : 0 ≤ hi)
    (h1 : lo * y ≤ x ∧ x ≤ hi * y) (h2 : lo2 * z ≤ y ∧ y ≤ hi2 * z) :
    lo * lo2 * z ≤ x ∧ x ≤ hi * hi2 * z := by
  constructor
  · calc lo * lo2 * z = lo * (lo2 * z) := by ring
      _ ≤ lo * y := mul_le_mul_of_nonneg_left h2.1 hlo
      _ ≤ x := h1.1
  · calc x ≤ hi * y := h1.2
      _ ≤ hi * (hi2 * z) := mul_le_mul_of_nonneg_left h2.2 hhi
      _ = hi * hi2 * z := by ring

/-- The chain of roundings in `Mine.Distance`, on real numbers: from the exact coordinate
differences `X`, `Y` to the result `d`, with `K` and `L` the scale factors between the
units of `float32` and `float64`. -/
theorem dist_chain {X Y px py x2 y2 s t d K L e u : ℝ} (hX : 0 ≤ X) (hY : 0 ≤ Y)
    (hK : 0 < K) (hL : 0 < L) (he : 0 ≤ e ∧ e ≤ 1) (hu : 0 ≤ u ∧ u ≤ 1)
    (h1x : (1 - e) * X ≤ px ∧ px ≤ (1 + e) * X)
    (h1y : (1 - e) * Y ≤ py ∧ py ≤ (1 + e) * Y)
    (h2x : (1 - u) * (px * K * (px * K)) ≤ x2 * L ∧ x2 * L ≤ (1 + u) * (px * K * (px * K)))
    (h2y : (1 - u) * (py * K * (py * K)) ≤ y2 * L ∧ y2 * L ≤ (1 + u) * (py * K * (py * K)))
    (h3 : (1 - u) * (x2 + y2) ≤ s ∧ s ≤ (1 + u) * (x2 + y2))
    (h4 : (1 - u) * Real.sqrt (s * L) ≤ t ∧ t ≤ (1 + u) * Real.sqrt (s * L))
    (h5 : ((1 - e) * t ≤ d * K ∧ d * K ≤ (1 + e) * t) ∨
      (t - K / 2 ≤ d * K ∧ d * K ≤ t + K / 2)) :
    (1 - e) * ((1 - u) * ((1 - u) * (1 - e))) * Real.sqrt (X ^ 2 + Y ^ 2) - 1 / 2 ≤ d ∧
      d ≤ (1 + e) * ((1 + u) * ((1 + u) * (1 + e))) * Real.sqrt (X ^ 2 + Y ^ 2) + 1 / 2 := by
  have he1 : 0 ≤ 1 - e := by linarith [he.2]
  have hu1 : 0 ≤ 1 - u := by linarith [hu.2]
  have he2 : 0 ≤ 1 + e := by linarith [he.1]
  have hu2 : 0 ≤ 1 + u := by linarith [hu.1]
  have hpx : 0 ≤ px := le_trans (mul_nonneg he1 hX) h1x.1
  have hpy : 0 ≤ py := le_trans (mul_nonneg he1 hY) h1y.1
  -- the squares of the rounded differences
  have sx1 : ((1 - e) * X) ^ 2 ≤ px ^ 2 := pow_le_pow_left₀ (mul_nonneg he1 hX) h1x.1 2
  have sx2 : px ^ 2 ≤ ((1 + e) * X) ^ 2 := pow_le_pow_left₀ hpx h1x.2 2
  have sy1 : ((1 - e) * Y) ^ 2 ≤ py ^ 2 := pow_le_pow_left₀ (mul_nonneg he1 hY) h1y.1 2
  have sy2 : py ^ 2 ≤ ((1 + e) * Y) ^ 2 := pow_le_pow_left₀ hpy h1y.2 2
  have hP : (1 - e) ^ 2 * (X ^ 2 + Y ^ 2) ≤ px ^ 2 + py ^ 2 ∧
      px ^ 2 + py ^ 2 ≤ (1 + e) ^ 2 * (X ^ 2 + Y ^ 2) := by
    constructor
    · calc (1 - e) ^ 2 * (X ^ 2 + Y ^ 2) = ((1 - e) * X) ^ 2 + ((1 - e) * Y) ^ 2 := by ring
        _ ≤ px ^ 2 + py ^ 2 := add_le_add sx1 sy1
    · calc px ^ 2 + py ^ 2 ≤ ((1 + e) * X) ^ 2 + ((1 + e) * Y) ^ 2 := add_le_add sx2 sy2
        _ = (1 + e) ^ 2 * (X ^ 2 + Y ^ 2) := by ring
  -- the sum of the two squares, in `float64` units
  have hsum : (1 - u) * ((px ^ 2 + py ^ 2) * K ^ 2) ≤ (x2 + y2) * L ∧
      (x2 + y2) * L ≤ (1 + u) * ((px ^ 2 + py ^ 2) * K ^ 2) := by
    constructor
    · calc (1 - u) * ((px ^ 2 + py ^ 2) * K ^ 2)
          = (1 - u) * (px * K * (px * K)) + (1 - u) * (py * K * (py * K)) := by ring
        _ ≤ x2 * L + y2 * L := add_le_add h2x.1 h2y.1
        _ = (x2 + y2) * L := by ring
    · calc (x2 + y2) * L = x2 * L + y2 * L := by ring
        _ ≤ (1 + u) * (px * K * (px * K)) + (1 + u) * (py * K * (py * K)) :=
          add_le_add h2x.2 h2y.2
        _ = (1 + u) * ((px ^ 2 + py ^ 2) * K ^ 2) := by ring
  have hsL : (1 - u) * ((x2 + y2) * L) ≤ s * L ∧ s * L ≤ (1 + u) * ((x2 + y2) * L) := by
    constructor
    · have := mul_le_mul_of_nonneg_right h3.1 (le_of_lt hL)
      linarith
    · have := mul_le_mul_of_nonneg_right h3.2 (le_of_lt hL)
      linarith
  have hK2 : 0 ≤ K ^ 2 := sq_nonneg K
  have hPK : (1 - e) ^ 2 * ((X ^ 2 + Y ^ 2) * K ^ 2) ≤ (px ^ 2 + py ^ 2) * K ^ 2 ∧
      (px ^ 2 + py ^ 2) * K ^ 2 ≤ (1 + e) ^ 2 * ((X ^ 2 + Y ^ 2) * K ^ 2) := by
    constructor
    · have := mul_le_mul_of_nonneg_right hP.1 hK2
      linarith
    · have := mul_le_mul_of_nonneg_right hP.2 hK2
      linarith
  have hs1 := scale_bounds hu1 hu2 hsL hsum
  have hs2 := scale_bounds (mul_nonneg hu1 hu1) (mul_nonneg hu2 hu2) hs1 hPK
  have hroot := sqrt_between (A := (X ^ 2 + Y ^ 2) * K ^ 2) (B := s * L)
    (mul_nonneg hu1 he1) (mul_nonneg hu2 he2)
    (by have := hs2.1; calc ((1 - u) * (1 - e)) ^ 2 * ((X ^ 2 + Y ^ 2) * K ^ 2)
          = (1 - u) * (1 - u) * (1 - e) ^ 2 * ((X ^ 2 + Y ^ 2) * K ^ 2) := by ring
        _ ≤ s * L := this)
    (by have := hs2.2; calc s * L ≤ (1 + u) * (1 + u) * (1 + e) ^ 2 *
            ((X ^ 2 + Y ^ 2) * K ^ 2) := this
        _ = ((1 + u) * (1 + e)) ^ 2 * ((X ^ 2 + Y ^ 2) * K ^ 2) := by ring)
  have eD : Real.sqrt ((X ^ 2 + Y ^ 2) * K ^ 2) = Real.sqrt (X ^ 2 + Y ^ 2) * K := by
    rw [Real.sqrt_mul' _ hK2, Real.sqrt_sq (le_of_lt hK)]
  rw [eD] at hroot
  have hD : 0 ≤ Real.sqrt (X ^ 2 + Y ^ 2) := Real.sqrt_nonneg _
  generalize Real.sqrt (X ^ 2 + Y ^ 2) = D at *
  have ht := scale_bounds hu1 hu2 h4 hroot
  have ht0 : 0 ≤ t := le_trans (mul_nonneg (mul_nonneg hu1 (mul_nonneg hu1 he1))
    (mul_nonneg hD (le_of_lt hK))) ht.1
  have hlo : (1 - e) * ((1 - u) * ((1 - u) * (1 - e))) * D ≤
      (1 - u) * ((1 - u) * (1 - e)) * D := by
    have h0 : 0 ≤ (1 - u) * ((1 - u) * (1 - e)) * D :=
      mul_nonneg (mul_nonneg hu1 (mul_nonneg hu1 he1)) hD
    have h00 := mul_nonneg he.1 h0
    calc (1 - e) * ((1 - u) * ((1 - u) * (1 - e))) * D
        = (1 - u) * ((1 - u) * (1 - e)) * D - e * ((1 - u) * ((1 - u) * (1 - e)) * D) := by
          ring
      _ ≤ (1 - u) * ((1 - u) * (1 - e)) * D := by linarith
  have hhi : (1 + u) * ((1 + u) * (1 + e)) * D ≤
      (1 + e) * ((1 + u) * ((1 + u) * (1 + e))) * D := by
    have h0 : 0 ≤ (1 + u) * ((1 + u) * (1 + e)) * D :=
      mul_nonneg (mul_nonneg hu2 (mul_nonneg hu2 he2)) hD
    have h00 := mul_nonneg he.1 h0
    calc (1 + u) * ((1 + u) * (1 + e)) * D
        ≤ (1 + u) * ((1 + u) * (1 + e)) * D + e * ((1 + u) * ((1 + u) * (1 + e)) * D) := by
          linarith
      _ = (1 + e) * ((1 + u) * ((1 + u) * (1 + e))) * D := by ring
  rcases h5 with h5 | h5
  · have hd := scale_bounds he1 he2 h5 ht
    constructor
    · have : (1 - e) * ((1 - u) * ((1 - u) * (1 - e))) * D * K ≤ d * K := by
        calc (1 - e) * ((1 - u) * ((1 - u) * (1 - e))) * D * K
            = (1 - e) * ((1 - u) * ((1 - u) * (1 - e))) * (D * K) := by ring
          _ ≤ d * K := hd.1
      have := le_of_mul_le_mul_right this hK
      linarith
    · have : d * K ≤ (1 + e) * ((1 + u) * ((1 + u) * (1 + e))) * D * K := by
        calc d * K ≤ (1 + e) * ((1 + u) * ((1 + u) * (1 + e))) * (D * K) := hd.2
          _ = _ := by ring
      have := le_of_mul_le_mul_right this hK
      linarith
  · constructor
    · have : ((1 - u) * ((1 - u) * (1 - e)) * D - 1 / 2) * K ≤ d * K := by
        calc ((1 - u) * ((1 - u) * (1 - e)) * D - 1 / 2) * K
            = (1 - u) * ((1 - u) * (1 - e)) * (D * K) - K / 2 := by ring
          _ ≤ t - K / 2 := by linarith [ht.1]
          _ ≤ d * K := h5.1
      have := le_of_mul_le_mul_right this hK
      linarith
    · have : d * K ≤ ((1 + u) * ((1 + u) * (1 + e)) * D + 1 / 2) * K := by
        calc d * K ≤ t + K / 2 := h5.2
          _ ≤ (1 + u) * ((1 + u) * (1 + e)) * (D * K) + K / 2 := by linarith [ht.2]
          _ = _ := by ring
      have := le_of_mul_le_mul_right this hK
      linarith

theorem sq_round_cond (p : Nat) :
    2 ^ (1074 + 53) ≤ 2 * (p * 2 ^ 925 * (p * 2 ^ 925)) ∨ p * 2 ^ 925 * (p * 2 ^ 925) = 0 := by
  rcases Nat.eq_zero_or_pos p with h0 | hpos
  · right
    rw [h0, Nat.zero_mul, Nat.zero_mul]
  · left
    have hp : 2 ^ 925 ≤ p * 2 ^ 925 := Nat.le_mul_of_pos_left _ hpos
    have h1 := Nat.mul_le_mul hp hp
    have h2 : 2 ^ (1074 + 53) ≤ 2 ^ 925 * 2 ^ 925 := by
      rw [← Nat.pow_add]
      exact Nat.pow_le_pow_right (by decide) (by decide)
    have h3 := le_trans h2 h1
    exact le_trans h3 (Nat.le_mul_of_pos_left _ (by decide))

theorem half_unit_of_nat {d t K : Nat}
    (h : 2 * (d * K) ≤ 2 * t + K ∧ 2 * t ≤ 2 * (d * K) + K) :
    (t : ℝ) - (K : ℝ) / 2 ≤ d * K ∧ (d : ℝ) * K ≤ t + (K : ℝ) / 2 := by
  have a1 : (2 : ℝ) * ((d : ℝ) * K) ≤ 2 * t + K := by exact_mod_cast h.1
  have a2 : (2 : ℝ) * (t : ℝ) ≤ 2 * ((d : ℝ) * K) + K := by exact_mod_cast h.2
  constructor <;> linarith

/-- The magnitude that the chain of roundings of `Mine.Distance` returns for the exact
coordinate differences `X` and `Y` (in units of `2^-149`) is within the fraction `2^-22`,
plus half a unit, of the Euclidean length `√(X² + Y²)`. -/
theorem round_chain_near (X Y : Nat) :
    |((roundMag 24 (F64.sqrtMag (roundMag 53
          (roundMag 53 (roundMag 24 X 0 * 2 ^ 925 * (roundMag 24 X 0 * 2 ^ 925)) 1074 +
            roundMag 53 (roundMag 24 Y 0 * 2 ^ 925 * (roundMag 24 Y 0 * 2 ^ 925)) 1074) 0))
        925 : Nat) : ℝ) - Real.sqrt ((X : ℝ) ^ 2 + (Y : ℝ) ^ 2)| ≤
      Real.sqrt ((X : ℝ) ^ 2 + (Y : ℝ) ^ 2) / 2 ^ 22 + 1 / 2 := by
  have e24 : ((2 ^ 24 : Nat) : ℝ) = 2 ^ 24 := by norm_num
  have e53 : ((2 ^ 53 : Nat) : ℝ) = 2 ^ 53 := by norm_num
  have h1x := near_of_nat (Nat.two_pow_pos 24) (roundMag_rel 24 X)
  have h1y := near_of_nat (Nat.two_pow_pos 24) (roundMag_rel 24 Y)
  generalize roundMag 24 X 0 = px at *
  generalize roundMag 24 Y 0 = py at *
  have h2x := near_of_nat (Nat.two_pow_pos 53)
    (roundMag_rel_of_le 53 (px * 2 ^ 925 * (px * 2 ^ 925)) 1074 (sq_round_cond px))
  have h2y := near_of_nat (Nat.two_pow_pos 53)
    (roundMag_rel_of_le 53 (py * 2 ^ 925 * (py * 2 ^ 925)) 1074 (sq_round_cond py))
  generalize roundMag 53 (px * 2 ^ 925 * (px * 2 ^ 925)) 1074 = x2 at *
  generalize roundMag 53 (py * 2 ^ 925 * (py * 2 ^ 925)) 1074 = y2 at *
  have h3 := near_of_nat (Nat.two_pow_pos 53) (roundMag_rel 53 (x2 + y2))
  generalize roundMag 53 (x2 + y2) 0 = s at *
  have h4 := sqrtMag_near s
  generalize F64.sqrtMag s = t at *
  have h5 := roundMag_err 24 t 925
  generalize roundMag 24 t 925 = d at *
  simp only [Nat.cast_mul, Nat.cast_add] at h2x h2y h3 h4
  rw [e24] at h1x h1y
  rw [e53] at h2x h2y h3
  have hK : (0 : ℝ) < ((2 ^ 925 : Nat) : ℝ) := Nat.cast_pos.2 (Nat.two_pow_pos 925)
  have hL : (0 : ℝ) < ((2 ^ 1074 : Nat) : ℝ) := Nat.cast_pos.2 (Nat.two_pow_pos 1074)
  have h5r : ((1 - 1 / 2 ^ 24) * (t : ℝ) ≤ d * ((2 ^ 925 : Nat) : ℝ) ∧
        (d : ℝ) * ((2 ^ 925 : Nat) : ℝ) ≤ (1 + 1 / 2 ^ 24) * t) ∨
      ((t : ℝ) - ((2 ^ 925 : Nat) : ℝ) / 2 ≤ d * ((2 ^ 925 : Nat) : ℝ) ∧
        (d : ℝ) * ((2 ^ 925 : Nat) : ℝ) ≤ t + ((2 ^ 925 : Nat) : ℝ) / 2) := by
    rcases h5 with h5 | h5
    · exact Or.inr (half_unit_of_nat h5)
    · left
      have := near_of_nat (Nat.two_pow_pos 24) h5
      simp only [Nat.cast_mul] at this
      rw [e24] at this
      exact this
  generalize ((2 ^ 925 : Nat) : ℝ) = K at *
  generalize ((2 ^ 1074 : Nat) : ℝ) = L at *
  have h4r : (1 - 1 / 2 ^ 53) * Real.sqrt ((s : ℝ) * L) ≤ t ∧
      (t : ℝ) ≤ (1 + 1 / 2 ^ 53) * Real.sqrt ((s : ℝ) * L) := by
    generalize Real.sqrt ((s : ℝ) * L) = r at h4 ⊢
    constructor <;> linarith [h4.1, h4.2]
  have hch := dist_chain (e := 1 / 2 ^ 24) (u := 1 / 2 ^ 53) (Nat.cast_nonneg X)
    (Nat.cast_nonneg Y) hK hL (by norm_num) (by norm_num) h1x h1y h2x h2y h3 h4r h5r
  have hD : 0 ≤ Real.sqrt ((X : ℝ) ^ 2 + (Y : ℝ) ^ 2) := Real.sqrt_nonneg _
  generalize Real.sqrt ((X : ℝ) ^ 2 + (Y : ℝ) ^ 2) = D at *
  have nlo : (1 : ℝ) - 1 / 2 ^ 22 ≤
      (1 - 1 / 2 ^ 24) * ((1 - 1 / 2 ^ 53) * ((1 - 1 / 2 ^ 53) * (1 - 1 / 2 ^ 24))) := by
    norm_num
  have nhi : (1 + 1 / 2 ^ 24) * ((1 + 1 / 2 ^ 53) * ((1 + 1 / 2 ^ 53) * (1 + 1 / 2 ^ 24))) ≤
      (1 : ℝ) + 1 / 2 ^ 22 := by
    norm_num
  have b1 := mul_le_mul_of_nonneg_right nlo hD
  have b2 := mul_le_mul_of_nonneg_right nhi hD
  rw [abs_le]
  constructor <;> linarith [hch.1, hch.2]

/-! ## `Mine.Distance` on finite coordinates -/

theorem ofMag32_cases (neg : Bool) (mag : Nat) :
    (F32.overflow ≤ mag ∧ F32.ofMag neg mag = .inf neg) ∨
      (F32.ofMag neg mag = .fin (if neg then -(mag : Int) else mag)) := by
  unfold F32.ofMag
  by_cases h : F32.overflow ≤ mag
  · exact Or.inl ⟨h, by simp [h]⟩
  · exact Or.inr (by simp [h])

theorem ofMag64_cases (mag : Nat) :
    (F64.overflow ≤ mag ∧ F64.ofMag false mag = .inf false) ∨
      (F64.ofMag false mag = .fin (mag : Int)) := by
  unfold F64.ofMag
  by_cases h : F64.overflow ≤ mag
  · exact Or.inl ⟨h, by simp [h]⟩
  · exact Or.inr (by simp [h])

/-- The square of a coordinate difference, as `Mine.Distance` computes it: `+Inf` when the
subtraction or the square overflows, otherwise the rounded square of the rounded
difference. -/
theorem sq_sub_cases (u v : Int) :
    (F64.sq (F32.toF64 (F32.sub (.fin u) (.fin v))) = .inf false ∧
        (F32.overflow ≤ roundMag 24 (u - v).natAbs 0 ∨
          F64.overflow ≤ roundMag 53 (roundMag 24 (u - v).natAbs 0 * 2 ^ 925 *
            (roundMag 24 (u - v).natAbs 0 * 2 ^ 925)) 1074)) ∨
      F64.sq (F32.toF64 (F32.sub (.fin u) (.fin v))) =
        .fin ((roundMag 53 (roundMag 24 (u - v).natAbs 0 * 2 ^ 925 *
          (roundMag 24 (u - v).natAbs 0 * 2 ^ 925)) 1074 : Nat) : Int) := by
  simp only [F32.sub]
  generalize roundMag 24 (u - v).natAbs 0 = p
  generalize decide (u - v < 0) = sg
  rcases ofMag32_cases sg p with ⟨ho, e⟩ | e
  · left
    rw [e]
    exact ⟨rfl, Or.inl ho⟩
  · have hn : ((if sg = true then -(p : Int) else (p : Int)) * 2 ^ 925).natAbs = p * 2 ^ 925 := by
      rw [Int.natAbs_mul, Int.natAbs_pow]
      cases sg
      · simp only [Bool.false_eq_true, if_false, Int.natAbs_ofNat]
        rfl
      · simp only [if_true, Int.natAbs_neg, Int.natAbs_ofNat]
        rfl
    rw [e]
    simp only [F32.toF64, F64.sq]
    rw [hn]
    rcases ofMag64_cases (roundMag 53 (p * 2 ^ 925 * (p * 2 ^ 925)) 1074) with ⟨ho, e2⟩ | e2
    · exact Or.inl ⟨e2, Or.inr ho⟩
    · exact Or.inr e2

theorem add_fin_cases (x y : Nat) :
    (F64.add (.fin x) (.fin y) = .inf false ∧ F64.overflow ≤ roundMag 53 (x + y) 0) ∨
      F64.add (.fin x) (.fin y) = .fin ((roundMag 53 (x + y) 0 : Nat) : Int) := by
  have h1 : decide ((x : Int) + (y : Int) < 0) = false := by
    rw [decide_eq_false_iff_not]
    omega
  have h2 : ((x : Int) + (y : Int)).natAbs = x + y := by omega
  simp only [F64.add, h1, h2]
  rcases ofMag64_cases (roundMag 53 (x + y) 0) with ⟨ho, e⟩ | e
  · exact Or.inl ⟨e, ho⟩
  · exact Or.inr e

theorem sqrt_toF32_cases (s : Nat) :
    (F64.toF32 (F64.sqrt (.fin s)) = .inf false ∧
        F32.overflow ≤ roundMag 24 (F64.sqrtMag s) 925) ∨
      F64.toF32 (F64.sqrt (.fin s)) = .fin ((roundMag 24 (F64.sqrtMag s) 925 : Nat) : Int) := by
  have h1 : ¬ ((s : Int) < 0) := by omega
  have h2 : decide (((F64.sqrtMag s : Nat) : Int) < 0) = false := by
    rw [decide_eq_false_iff_not]
    omega
  simp only [F64.sqrt, h1, if_false, F64.toF32, Int.natAbs_ofNat, h2]
  rcases ofMag32_cases false (roundMag 24 (F64.sqrtMag s) 925) with ⟨ho, e⟩ | e
  · exact Or.inl ⟨e, ho⟩
  · right
    rw [e]
    rfl

/-- For finite coordinates `Mine.Distance` returns `+Inf`, after an overflow at one of its
steps, or else the finite value that the chain of roundings gives. -/
theorem Distance_of_fin (a b : Mine) (ax ay bx by_ : Int) (hax : a.X = .fin ax)
    (hay : a.Y = .fin ay) (hbx : b.X = .fin bx) (hby : b.Y = .fin by_) :
    ∃ px py x2 y2 s d : Nat, px = roundMag 24 (bx - ax).natAbs 0 ∧
      py = roundMag 24 (by_ - ay).natAbs 0 ∧
      x2 = roundMag 53 (px * 2 ^ 925 * (px * 2 ^ 925)) 1074 ∧
      y2 = roundMag 53 (py * 2 ^ 925 * (py * 2 ^ 925)) 1074 ∧
      s = roundMag 53 (x2 + y2) 0 ∧ d = roundMag 24 (F64.sqrtMag s) 925 ∧
      ((a.Distance b = .inf false ∧
          (F32.overflow ≤ px ∨ F32.overflow ≤ py ∨ F64.overflow ≤ x2 ∨ F64.overflow ≤ y2 ∨
            F64.overflow ≤ s ∨ F32.overflow ≤ d)) ∨
        a.Distance b = .fin (d : Int)) := by
  refine ⟨_, _, _, _, _, _, rfl, rfl, rfl, rfl, rfl, rfl, ?_⟩
  unfold Mine.Distance
  simp only [hax, hay, hbx, hby]
  rcases sq_sub_cases bx ax with ⟨ex, hox⟩ | ex
  · left
    rw [ex]
    constructor
    · rcases sq_sub_cases by_ ay with ⟨ey, _⟩ | ey <;> rw [ey] <;> rfl
    · rcases hox with h | h
      · exact Or.inl h
      · exact Or.inr (Or.inr (Or.inl h))
  · rcases sq_sub_cases by_ ay with ⟨ey, hoy⟩ | ey
    · left
      rw [ex, ey]
      constructor
      · rfl
      · rcases hoy with h | h
        · exact Or.inr (Or.inl h)
        · exact Or.inr (Or.inr (Or.inr (Or.inl h)))
    · rw [ex, ey]
      rcases add_fin_cases
        (roundMag 53 (roundMag 24 (bx - ax).natAbs 0 * 2 ^ 925 *
          (roundMag 24 (bx - ax).natAbs 0 * 2 ^ 925)) 1074)
        (roundMag 53 (roundMag 24 (by_ - ay).natAbs 0 * 2 ^ 925 *
          (roundMag 24 (by_ - ay).natAbs 0 * 2 ^ 925)) 1074) with ⟨es, hos⟩ | es
      · left
        rw [es]
        exact ⟨rfl, Or.inr (Or.inr (Or.inr (Or.inr (Or.inl hos))))⟩
      · rw [es]
        rcases sqrt_toF32_cases (roundMag 53
          (roundMag 53 (roundMag 24 (bx - ax).natAbs 0 * 2 ^ 925 *
            (roundMag 24 (bx - ax).natAbs 0 * 2 ^ 925)) 1074 +
          roundMag 53 (roundMag 24 (by_ - ay).natAbs 0 * 2 ^ 925 *
            (roundMag 24 (by_ - ay).natAbs 0 * 2 ^ 925)) 1074) 0) with ⟨ed, hod⟩ | ed
        · exact Or.inl ⟨ed, Or.inr (Or.inr (Or.inr (Or.inr (Or.inr hod))))⟩
        · exact Or.inr ed

/-- The `float64` steps of `Mine.Distance` do not overflow when the two `float32`
differences are finite. -/
theorem no_overflow64 (px py : Nat) (hpx : px < F32.overflow) (hpy : py < F32.overflow) :
    roundMag 53 (px * 2 ^ 925 * (px * 2 ^ 925)) 1074 < F64.overflow ∧
      roundMag 53 (py * 2 ^ 925 * (py * 2 ^ 925)) 1074 < F64.overflow ∧
      roundMag 53 (roundMag 53 (px * 2 ^ 925 * (px * 2 ^ 925)) 1074 +
        roundMag 53 (py * 2 ^ 925 * (py * 2 ^ 925)) 1074) 0 < F64.overflow := by
  have hsq : ∀ p : Nat, p < F32.overflow →
      roundMag 53 (p * 2 ^ 925 * (p * 2 ^ 925)) 1074 ≤ 2 ^ 1331 := by
    intro p hp
    have hn : p * 2 ^ 925 ≤ 2 ^ 277 * 2 ^ 925 := Nat.mul_le_mul_right _ (le_of_lt hp)
    have hnX := Nat.mul_le_mul hn hn
    have e : 2 ^ 277 * 2 ^ 925 * (2 ^ 277 * 2 ^ 925) = 2 ^ 1330 * 2 ^ 1074 := by
      rw [← Nat.pow_add, ← Nat.pow_add, ← Nat.pow_add]
    rw [e] at hnX
    have h := (roundMag_rel_of_le 53 (p * 2 ^ 925 * (p * 2 ^ 925)) 1074 (sq_round_cond p)).1
    generalize roundMag 53 (p * 2 ^ 925 * (p * 2 ^ 925)) 1074 = x2 at *
    generalize p * 2 ^ 925 * (p * 2 ^ 925) = n at *
    have h2 : 2 ^ 53 * (x2 * 2 ^ 1074) ≤ 2 ^ 53 * (2 * n) := by
      have : n ≤ 2 ^ 53 * n := Nat.le_mul_of_pos_left _ (Nat.two_pow_pos 53)
      rw [Nat.mul_comm 2 n, Nat.mul_two, Nat.mul_add]
      omega
    have h3 : x2 * 2 ^ 1074 ≤ 2 * n := Nat.le_of_mul_le_mul_left h2 (Nat.two_pow_pos 53)
    have h4 : x2 * 2 ^ 1074 ≤ 2 ^ 1331 * 2 ^ 1074 := by
      have e2 : 2 ^ 1331 * 2 ^ 1074 = 2 * (2 ^ 1330 * 2 ^ 1074) := by
        rw [← Nat.mul_assoc, ← Nat.pow_succ']
      rw [e2]
      omega
    exact Nat.le_of_mul_le_mul_right h4 (Nat.two_pow_pos 1074)
  have hx := hsq px hpx
  have hy := hsq py hpy
  have hlt : 2 ^ 1331 < F64.overflow := Nat.pow_lt_pow_right (by decide) (by decide)
  refine ⟨lt_of_le_of_lt hx hlt, lt_of_le_of_lt hy hlt, ?_⟩
  generalize roundMag 53 (px * 2 ^ 925 * (px * 2 ^ 925)) 1074 = x2 at *
  generalize roundMag 53 (py * 2 ^ 925 * (py * 2 ^ 925)) 1074 = y2 at *
  have h := (roundMag_rel 53 (x2 + y2)).1
  generalize roundMag 53 (x2 + y2) 0 = s at *
  have h2 : 2 ^ 53 * s ≤ 2 ^ 53 * (2 * (x2 + y2)) := by
    have : x2 + y2 ≤ 2 ^ 53 * (x2 + y2) := Nat.le_mul_of_pos_left _ (Nat.two_pow_pos 53)
    rw [Nat.mul_comm 2 (x2 + y2), Nat.mul_two, Nat.mul_add]
    omega
  have h3 : s ≤ 2 * (x2 + y2) := Nat.le_of_mul_le_mul_left h2 (Nat.two_pow_pos 53)
  have e3 : 2 * (2 ^ 1331 + 2 ^ 1331) = 2 ^ 1333 := by
    rw [← Nat.two_mul, ← Nat.pow_succ', ← Nat.pow_succ']
  have h4 : s ≤ 2 ^ 1333 := by
    rw [← e3]
    omega
  exact lt_of_le_of_lt h4 (Nat.pow_lt_pow_right (by decide) (by decide))

theorem le_sqrt_sq_add (X Y : ℝ) : X ≤ Real.sqrt (X ^ 2 + Y ^ 2) :=
  le_sqrt_of_sq_le (by nlinarith [sq_nonneg Y])

/-- In units of `2^-149`: for finite coordinates, `Mine.Distance` returns `+Inf` only when
the Euclidean distance is at least `2^276` units, and otherwise a finite value within the
fraction `2^-22`, plus half a unit, of the Euclidean distance. -/
theorem Distance_near_units (a b : Mine) (ax ay bx by_ : Int) (hax : a.X = .fin ax)
    (hay : a.Y = .fin ay) (hbx : b.X = .fin bx) (hby : b.Y = .fin by_) :
    (a.Distance b = .inf false ∧
        (2 : ℝ) ^ 276 ≤ Real.sqrt (((bx - ax).natAbs : ℝ) ^ 2 + ((by_ - ay).natAbs : ℝ) ^ 2)) ∨
      ∃ d : Nat, a.Distance b = .fin (d : Int) ∧
        |(d : ℝ) - Real.sqrt (((bx - ax).natAbs : ℝ) ^ 2 + ((by_ - ay).natAbs : ℝ) ^ 2)| ≤
          Real.sqrt (((bx - ax).natAbs : ℝ) ^ 2 + ((by_ - ay).natAbs : ℝ) ^ 2) / 2 ^ 22 +
            1 / 2 := by
  obtain ⟨px, py, x2, y2, s, d, hpx, hpy, hx2, hy2, hs, hd, hcase⟩ :=
    Distance_of_fin a b ax ay bx by_ hax hay hbx hby
  have hnear := round_chain_near (bx - ax).natAbs (by_ - ay).natAbs
  rw [← hpx, ← hpy, ← hx2, ← hy2, ← hs, ← hd] at hnear
  have h1x := (near_of_nat (Nat.two_pow_pos 24) (roundMag_rel 24 (bx - ax).natAbs)).2
  have h1y := (near_of_nat (Nat.two_pow_pos 24) (roundMag_rel 24 (by_ - ay).natAbs)).2
  rw [← hpx] at h1x
  rw [← hpy] at h1y
  have e24 : ((2 ^ 24 : Nat) : ℝ) = 2 ^ 24 := by norm_num
  rw [e24] at h1x h1y
  have hXD := le_sqrt_sq_add ((bx - ax).natAbs : ℝ) ((by_ - ay).natAbs : ℝ)
  have hYD := le_sqrt_sq_add ((by_ - ay).natAbs : ℝ) ((bx - ax).natAbs : ℝ)
  rw [add_comm] at hYD
  generalize Real.sqrt (((bx - ax).natAbs : ℝ) ^ 2 + ((by_ - ay).natAbs : ℝ) ^ 2) = D at *
  generalize ((bx - ax).natAbs : ℝ) = X at *
  generalize ((by_ - ay).natAbs : ℝ) = Y at *
  rcases hcase with ⟨hinf, hov⟩ | hfin
  · left
    refine ⟨hinf, ?_⟩
    have eT : ((F32.overflow : Nat) : ℝ) = 2 * (2 : ℝ) ^ 276 := by
      unfold F32.overflow
      rw [Nat.cast_pow, Nat.cast_ofNat, pow_succ' (2 : ℝ) 276]
    have hT : (1 : ℝ) ≤ (2 : ℝ) ^ 276 := one_le_pow₀ (by norm_num)
    have big : ∀ p : Nat, F32.overflow ≤ p → 2 * (2 : ℝ) ^ 276 ≤ (p : ℝ) := by
      intro p hp
      rw [← eT]
      exact Nat.cast_le.2 hp
    generalize (2 : ℝ) ^ 276 = T at *
    have hx_or : F32.overflow ≤ px ∨ F32.overflow ≤ py ∨ F32.overflow ≤ d := by
      by_cases h1 : F32.overflow ≤ px
      · exact Or.inl h1
      by_cases h2 : F32.overflow ≤ py
      · exact Or.inr (Or.inl h2)
      have h64 := no_overflow64 px py (Nat.lt_of_not_le h1) (Nat.lt_of_not_le h2)
      rw [← hx2, ← hy2, ← hs] at h64
      rcases hov with h | h | h | h | h | h
      · exact absurd h h1
      · exact absurd h h2
      · exact absurd h (Nat.not_le_of_lt h64.1)
      · exact absurd h (Nat.not_le_of_lt h64.2.1)
      · exact absurd h (Nat.not_le_of_lt h64.2.2)
      · exact Or.inr (Or.inr h)
    rcases hx_or with h | h | h
    · have := big px h
      linarith
    · have := big py h
      linarith
    · have := big d h
      have hb := (abs_le.1 hnear).2
      linarith
  · exact Or.inr ⟨d, hfin, hnear⟩

theorem sqrt_scaled {c : ℝ} (hc : 0 < c) (p1 p2 q1 q2 : ℝ) :
    Real.sqrt ((p2 / c - p1 / c) ^ 2 + (q2 / c - q1 / c) ^ 2) =
      Real.sqrt ((p2 - p1) ^ 2 + (q2 - q1) ^ 2) / c := by
  rw [← sub_div, ← sub_div, div_pow, div_pow, ← add_div, Real.sqrt_div' _ (sq_nonneg c),
    Real.sqrt_sq (le_of_lt hc)]

theorem natAbs_sq_cast (u v : Int) : ((u - v).natAbs : ℝ) ^ 2 = ((u : ℝ) - (v : ℝ)) ^ 2 := by
  rw [Nat.cast_natAbs, Int.cast_abs, sq_abs, Int.cast_sub]

/-- For mines at the finite points `(ax, ay) * 2^-149` and `(bx, by) * 2^-149`,
`Mine.Distance` returns `+Inf` only when the Euclidean distance between the points is at
least `2^127`, and otherwise a finite `float32` `d * 2^-149` within the fraction `2^-22`
of the Euclidean distance, plus `2^-150` (half the smallest subnormal). -/
theorem Distance_near (a b : Mine) (ax ay bx by_ : Int) (hax : a.X = .fin ax)
    (hay : a.Y = .fin ay) (hbx : b.X = .fin bx) (hby : b.Y = .fin by_) :
    (a.Distance b = .inf false ∧
        (2 : ℝ) ^ 127 ≤ Real.sqrt (((bx : ℝ) / 2 ^ 149 - (ax : ℝ) / 2 ^ 149) ^ 2 +
          ((by_ : ℝ) / 2 ^ 149 - (ay : ℝ) / 2 ^ 149) ^ 2)) ∨
      ∃ d : Nat, a.Distance b = .fin (d : Int) ∧
        |(d : ℝ) / 2 ^ 149 - Real.sqrt (((bx : ℝ) / 2 ^ 149 - (ax : ℝ) / 2 ^ 149) ^ 2 +
            ((by_ : ℝ) / 2 ^ 149 - (ay : ℝ) / 2 ^ 149) ^ 2)| ≤
          Real.sqrt (((bx : ℝ) / 2 ^ 149 - (ax : ℝ) / 2 ^ 149) ^ 2 +
            ((by_ : ℝ) / 2 ^ 149 - (ay : ℝ) / 2 ^ 149) ^ 2) / 2 ^ 22 + 1 / 2 ^ 150 := by
  have hc : (0 : ℝ) < 2 ^ 149 := pow_pos (by norm_num) 149
  have h150 : (2 : ℝ) ^ 150 = 2 * 2 ^ 149 := pow_succ' 2 149
  have h276 : (2 : ℝ) ^ 276 = 2 ^ 127 * 2 ^ 149 := by rw [← pow_add]
  have hu := Distance_near_units a b ax ay bx by_ hax hay hbx hby
  rw [natAbs_sq_cast, natAbs_sq_cast, h276] at hu
  rw [sqrt_scaled hc, h150]
  generalize Real.sqrt (((bx : ℝ) - (ax : ℝ)) ^ 2 + ((by_ : ℝ) - (ay : ℝ)) ^ 2) = D at *
  generalize (2 : ℝ) ^ 149 = c at *
  rcases hu with ⟨hinf, hbig⟩ | ⟨d, hfin, hnear⟩
  · left
    exact ⟨hinf, (le_div_iff₀ hc).2 hbig⟩
  · right
    refine ⟨d, hfin, ?_⟩
    rw [← sub_div, abs_div, abs_of_pos hc, div_le_iff₀ hc]
    have e : (D / c / 2 ^ 22 + 1 / (2 * c)) * c = D / 2 ^ 22 + 1 / 2 := by
      field_simp
      ring
    rw [e]
    exact hnear

/-! ## Heap updates -/

theorem NeighborsOnly.refl (h : Heap) : NeighborsOnly h h := fun _ => rfl

theorem NeighborsOnly.trans {a b c : Heap} (hab : NeighborsOnly a b) (hbc : NeighborsOnly b c) :
    NeighborsOnly a c := by
  intro p
  have h1 := hab p
  have h2 := hbc p
  rw [h2]
  conv_lhs => rw [h1]

theorem NeighborsOnly.id_eq {a b : Heap} (hab : NeighborsOnly a b) (p : Ptr) :
    (b p).ID = (a p).ID := by rw [hab p]

theorem NeighborsOnly.x_eq {a b : Heap} (hab : NeighborsOnly a b) (p : Ptr) :
    (b p).X = (a p).X := by rw [hab p]

theorem NeighborsOnly.y_eq {a b : Heap} (hab : NeighborsOnly a b) (p : Ptr) :
    (b p).Y = (a p).Y := by rw [hab p]

theorem NeighborsOnly.power_eq {a b : Heap} (hab : NeighborsOnly a b) (p : Ptr) :
    (b p).Power = (a p).Power := by rw [hab p]

theorem NeighborsOnly.distance_eq {a b : Heap} (hab : NeighborsOnly a b) (p q : Ptr) :
    (b p).Distance (b q) = (a p).Distance (a q) :=
  Mine.Distance_congr (hab.x_eq p) (hab.y_eq p) (hab.x_eq q) (hab.y_eq q)

theorem setNeighbors_same (h : Heap) (p : Ptr) (ns : List Ptr) :
    (setNeighbors h p ns p).Neighbors = ns := by
  simp [setNeighbors]

theorem setNeighbors_other (h : Heap) {p q : Ptr} (ns : List Ptr) (hq : q ≠ p) :
    setNeighbors h p ns q = h q := by
  simp [setNeighbors, Function.update_noteq hq]

theorem neighborsOnly_setNeighbors (h : Heap) (p : Ptr) (ns : List Ptr) :
    NeighborsOnly h (setNeighbors h p ns) := by
  intro q
  by_cases hq : q = p
  · subst hq; simp [setNeighbors]
  · rw [setNeighbors_other h ns hq]

theorem neighborsOnly_linkNeighbors (mine nb : Ptr) (h : Heap) :
    NeighborsOnly h (linkNeighbors mine nb h) := by
  cases c1 : ((h mine).Distance (h nb)).le (h mine).Power
  · cases c2 : ((h mine).Distance (h nb)).le (h nb).Power
    · simp only [linkNeighbors, c1, c2, Bool.false_eq_true, if_false]
      exact NeighborsOnly.refl h
    · simp only [linkNeighbors, c1, c2, Bool.false_eq_true, if_true, if_false]
      exact neighborsOnly_setNeighbors _ _ _
  · cases c2 : ((h mine).Distance (h nb)).le
        (setNeighbors h mine ((h mine).Neighbors ++ [nb]) nb).Power
    · simp only [linkNeighbors, c1, c2, Bool.false_eq_true, if_true, if_false]
      exact neighborsOnly_setNeighbors _ _ _
    · simp only [linkNeighbors, c1, c2, if_true]
      exact (neighborsOnly_setNeighbors _ _ _).trans (neighborsOnly_setNeighbors _ _ _)

theorem linkNeighbors_eq {mine nb : Ptr} (h : Heap) (hne : mine ≠ nb) :
    linkNeighbors mine nb h =
      if ((h mine).Distance (h nb)).le (h mine).Power = true then
        if ((h mine).Distance (h nb)).le (h nb).Power = true then
          setNeighbors (setNeighbors h mine ((h mine).Neighbors ++ [nb])) nb
            ((h nb).Neighbors ++ [mine])
        else setNeighbors h mine ((h mine).Neighbors ++ [nb])
      else
        if ((h mine).Distance (h nb)).le (h nb).Power = true then
          setNeighbors h nb ((h nb).Neighbors ++ [mine])
        else h := by
  have hne2 : nb ≠ mine := fun e => hne e.symm
  cases c1 : ((h mine).Distance (h nb)).le (h mine).Power
  · simp only [linkNeighbors, c1, Bool.false_eq_true, if_false]
  · simp only [linkNeighbors, c1, if_true, setNeighbors_other _ _ hne2]

theorem linkNeighbors_mine {mine nb : Ptr} (h : Heap) (hne : mine ≠ nb) :
    (linkNeighbors mine nb h mine).Neighbors = (h mine).Neighbors ++
      (if ((h mine).Distance (h nb)).le (h mine).Power = true then [nb] else []) := by
  rw [linkNeighbors_eq h hne]
  split <;> split <;>
    simp [setNeighbors_other _ _ hne, setNeighbors_same]

theorem linkNeighbors_nb {mine nb : Ptr} (h : Heap) (hne : mine ≠ nb) :
    (linkNeighbors mine nb h nb).Neighbors = (h nb).Neighbors ++
      (if ((h mine).Distance (h nb)).le (h nb).Power = true then [mine] else []) := by
  have hne2 : nb ≠ mine := fun e => hne e.symm
  rw [linkNeighbors_eq h hne]
  split <;> split <;>
    simp [setNeighbors_other _ _ hne2, setNeighbors_same]

theorem linkNeighbors_other {mine nb q : Ptr} (h : Heap) (hne : mine ≠ nb) (h1 : q ≠ mine)
    (h2 : q ≠ nb) : linkNeighbors mine nb h q = h q := by
  rw [linkNeighbors_eq h hne]
  split <;> split <;> simp [setNeighbors_other _ _ h1, setNeighbors_other _ _ h2]

/-! ## The `AddMine` loop -/

theorem Clash.congr {a b c d : Mine} (h1 : a.ID = c.ID) (h2 : a.X = c.X) (h3 : a.Y = c.Y)
    (h4 : b.ID = d.ID) (h5 : b.X = d.X) (h6 : b.Y = d.Y) : Clash a b ↔ Clash c d := by
  unfold Clash
  rw [h1, h2, h3, h4, h5, h6]

theorem NeighborsOnly.clash_iff {a b : Heap} (hab : NeighborsOnly a b) (p q : Ptr) :
    Clash (b p) (b q) ↔ Clash (a p) (a q) :=
  Clash.congr (hab.id_eq p) (hab.x_eq p) (hab.y_eq p) (hab.id_eq q) (hab.x_eq q) (hab.y_eq q)

theorem addLoop_cons_clash {mine n : Ptr} {rest : List Ptr} {h : Heap}
    (hc : Clash (h mine) (h n)) :
    (addLoop mine (n :: rest) h).1 = h ∧ (addLoop mine (n :: rest) h).2 ≠ none := by
  unfold addLoop
  rcases hc with hc | ⟨hx, hy⟩
  · simp [hc]
  · by_cases hid : (h mine).ID = (h n).ID
    · simp [hid]
    · simp [hid, hx, hy]

theorem addLoop_cons_ok {mine n : Ptr} {rest : List Ptr} {h : Heap}
    (hc : ¬ Clash (h mine) (h n)) :
    addLoop mine (n :: rest) h = addLoop mine rest (linkNeighbors mine n h) := by
  have hid : ¬ (h mine).ID = (h n).ID := fun e => hc (Or.inl e)
  have hxy : ((h mine).X.eq (h n).X && (h mine).Y.eq (h n).Y) = false := by
    cases hx : (h mine).X.eq (h n).X
    · rfl
    · cases hy : (h mine).Y.eq (h n).Y
      · rfl
      · exact absurd (Or.inr ⟨hx, hy⟩) hc
  conv_lhs => unfold addLoop
  simp [hid, hxy]

theorem addLoop_frame (mine : Ptr) :
    ∀ (l : List Ptr) (h : Heap), NeighborsOnly h (addLoop mine l h).1
  | [], h => NeighborsOnly.refl h
  | n :: rest, h => by
    by_cases hc : Clash (h mine) (h n)
    · rw [(addLoop_cons_clash hc).1]
      exact NeighborsOnly.refl h
    · rw [addLoop_cons_ok hc]
      exact (neighborsOnly_linkNeighbors mine n h).trans (addLoop_frame mine rest _)

/-- The loop returns no error exactly when no visited mine clashes with the candidate. -/
theorem addLoop_none_iff (mine : Ptr) :
    ∀ (l : List Ptr) (h : Heap),
      (addLoop mine l h).2 = none ↔ ∀ n ∈ l, ¬ Clash (h mine) (h n)
  | [], h => by simp [addLoop]
  | n :: rest, h => by
    by_cases hc : Clash (h mine) (h n)
    · constructor
      · intro e; exact absurd e (addLoop_cons_clash hc).2
      · intro hall; exact absurd hc (hall n (List.mem_cons_self _ _))
    · rw [addLoop_cons_ok hc, addLoop_none_iff mine rest]
      have hf := neighborsOnly_linkNeighbors mine n h
      constructor
      · intro hall m hm
        rcases List.mem_cons.1 hm with e | hm
        · subst e; exact hc
        · exact fun c => hall m hm ((hf.clash_iff mine m).2 c)
      · intro hall m hm c
        exact hall m (List.mem_cons_of_mem _ hm) ((hf.clash_iff mine m).1 c)

/-- After a loop without error the candidate has gained, in visiting order, the visited
mines within its power. -/
theorem addLoop_mine (mine : Ptr) :
    ∀ (l : List Ptr) (h : Heap), (∀ n ∈ l, ¬ Clash (h mine) (h n)) →
      ((addLoop mine l h).1 mine).Neighbors = (h mine).Neighbors ++
        l.filter (fun n => ((h mine).Distance (h n)).le (h mine).Power)
  | [], h, _ => by simp [addLoop]
  | n :: rest, h, hall => by
    have hc : ¬ Clash (h mine) (h n) := hall n (List.mem_cons_self _ _)
    have hne : mine ≠ n := fun e => hc (Or.inl (by rw [e]))
    have hf := neighborsOnly_linkNeighbors mine n h
    have hall2 : ∀ m ∈ rest, ¬ Clash (linkNeighbors mine n h mine) (linkNeighbors mine n h m) :=
      fun m hm c => hall m (List.mem_cons_of_mem _ hm) ((hf.clash_iff mine m).1 c)
    rw [addLoop_cons_ok hc, addLoop_mine mine rest _ hall2, linkNeighbors_mine h hne]
    simp only [hf.distance_eq, hf.power_eq, List.filter_cons, List.append_assoc]
    split <;> simp

/-- After a loop without error every other mine has gained the candidate once per visit,
if the candidate is within that mine's power. -/
theorem addLoop_other (mine : Ptr) :
    ∀ (l : List Ptr) (h : Heap), (∀ n ∈ l, ¬ Clash (h mine) (h n)) →
      ∀ p, p ≠ mine → ((addLoop mine l h).1 p).Neighbors = (h p).Neighbors ++
        List.replicate (if ((h mine).Distance (h p)).le (h p).Power = true then l.count p else 0)
          mine
  | [], h, _, p, _ => by simp [addLoop]
  | n :: rest, h, hall, p, hp => by
    have hc : ¬ Clash (h mine) (h n) := hall n (List.mem_cons_self _ _)
    have hne : mine ≠ n := fun e => hc (Or.inl (by rw [e]))
    have hf := neighborsOnly_linkNeighbors mine n h
    have hall2 : ∀ m ∈ rest, ¬ Clash (linkNeighbors mine n h mine) (linkNeighbors mine n h m) :=
      fun m hm c => hall m (List.mem_cons_of_mem _ hm) ((hf.clash_iff mine m).1 c)
    rw [addLoop_cons_ok hc, addLoop_other mine rest _ hall2 p hp]
    simp only [hf.distance_eq, hf.power_eq]
    by_cases hpn : p = n
    · subst hpn
      rw [linkNeighbors_nb h hne]
      split
      · simp [List.count_cons_self, List.replicate_succ, List.append_assoc]
      · simp
    · rw [linkNeighbors_other h hne hp hpn]
      have : (n :: rest).count p = rest.count p := by
        simp [List.count_cons, hpn, Ne.symm hpn]
      rw [this]

/-! ## `AddMine` -/

theorem F32.eq_comm (a b : F32) : a.eq b = b.eq a := by
  cases a <;> cases b <;> simp only [F32.eq, Bool.beq_comm]
  exact decide_eq_decide.2 ⟨Eq.symm, Eq.symm⟩

theorem Clash.symm {a b : Mine} (hc : Clash a b) : Clash b a := by
  rcases hc with e | ⟨hx, hy⟩
  · exact Or.inl e.symm
  · exact Or.inr ⟨by rw [F32.eq_comm]; exact hx, by rw [F32.eq_comm]; exact hy⟩

theorem AddMine_neg {h : Heap} {f : Field} {mine : Ptr}
    (hp : (h mine).Power.lt F32.zero = true) :
    AddMine h f mine = (h, f, some AddErr.negativePower) := by
  simp [AddMine, hp]

theorem AddMine_ok {h : Heap} {f : Field} {mine : Ptr}
    (hp : (h mine).Power.lt F32.zero = false)
    (hall : ∀ n ∈ f.Mines, ¬ Clash (h mine) (h n)) :
    AddMine h f mine =
      ((addLoop mine f.Mines (setNeighbors h mine [])).1, { Mines := f.Mines ++ [mine] }, none) := by
  have hf := neighborsOnly_setNeighbors h mine []
  have h2 : (addLoop mine f.Mines (setNeighbors h mine [])).2 = none :=
    (addLoop_none_iff mine f.Mines _).2 (fun n hn c => hall n hn ((hf.clash_iff mine n).1 c))
  unfold AddMine
  simp only [hp, Bool.false_eq_true, if_false]
  generalize addLoop mine f.Mines (setNeighbors h mine []) = r at h2
  obtain ⟨r1, r2⟩ := r
  simp only at h2
  subst h2
  rfl

theorem AddMine_clash {h : Heap} {f : Field} {mine : Ptr}
    (hp : (h mine).Power.lt F32.zero = false)
    (hex : ∃ n ∈ f.Mines, Clash (h mine) (h n)) :
    (AddMine h f mine).1 = (addLoop mine f.Mines (setNeighbors h mine [])).1 ∧
      (AddMine h f mine).2.1 = f ∧ (AddMine h f mine).2.2 ≠ none := by
  have hf := neighborsOnly_setNeighbors h mine []
  have h2 : (addLoop mine f.Mines (setNeighbors h mine [])).2 ≠ none := by
    intro e
    obtain ⟨n, hn, hc⟩ := hex
    exact (addLoop_none_iff mine f.Mines _).1 e n hn ((hf.clash_iff mine n).2 hc)
  unfold AddMine
  simp only [hp, Bool.false_eq_true, if_false]
  generalize addLoop mine f.Mines (setNeighbors h mine []) = r at h2
  obtain ⟨r1, r2⟩ := r
  cases r2 with
  | none => exact absurd rfl h2
  | some e => simp

/-- A successful call means: power not below zero, no clash, and the result is the loop's. -/
theorem AddMine_success {h : Heap} {f : Field} {mine : Ptr} {h1 : Heap} {f1 : Field}
    (hr : AddMine h f mine = (h1, f1, none)) :
    (h mine).Power.lt F32.zero = false ∧ (∀ n ∈ f.Mines, ¬ Clash (h mine) (h n)) ∧
      h1 = (addLoop mine f.Mines (setNeighbors h mine [])).1 ∧
      f1 = { Mines := f.Mines ++ [mine] } := by
  cases hp : (h mine).Power.lt F32.zero
  · by_cases hex : ∃ n ∈ f.Mines, Clash (h mine) (h n)
    · have := (AddMine_clash hp hex).2.2
      rw [hr] at this
      exact absurd rfl this
    · have hall : ∀ n ∈ f.Mines, ¬ Clash (h mine) (h n) := fun n hn c => hex ⟨n, hn, c⟩
      rw [AddMine_ok hp hall] at hr
      simp only [Prod.mk.injEq] at hr
      exact ⟨rfl, hall, hr.1.symm, hr.2.1.symm⟩
  · rw [AddMine_neg hp] at hr
    simp at hr

theorem AddMine_frame (h : Heap) (f : Field) (mine : Ptr) :
    NeighborsOnly h (AddMine h f mine).1 := by
  cases hp : (h mine).Power.lt F32.zero
  · by_cases hex : ∃ n ∈ f.Mines, Clash (h mine) (h n)
    · rw [(AddMine_clash hp hex).1]
      exact (neighborsOnly_setNeighbors h mine []).trans (addLoop_frame _ _ _)
    · have hall : ∀ n ∈ f.Mines, ¬ Clash (h mine) (h n) := fun n hn c => hex ⟨n, hn, c⟩
      rw [AddMine_ok hp hall]
      exact (neighborsOnly_setNeighbors h mine []).trans (addLoop_frame _ _ _)
  · rw [AddMine_neg hp]
    exact NeighborsOnly.refl h

/-! ## The field invariant -/

theorem fieldInv_empty (h : Heap) : FieldInv h { Mines := [] } := by
  refine ⟨List.nodup_nil, ?_, ?_, ?_⟩ <;> intro a ha <;> simp at ha

theorem fieldInv_add {h : Heap} {f : Field} {mine : Ptr} {h1 : Heap} {f1 : Field}
    (inv : FieldInv h f) (hr : AddMine h f mine = (h1, f1, none)) : FieldInv h1 f1 := by
  obtain ⟨hnd, hcl, hpw, hnb⟩ := inv
  obtain ⟨hp, hall, e1, e2⟩ := AddMine_success hr
  have hfr : NeighborsOnly h h1 := by
    have := AddMine_frame h f mine
    rw [hr] at this
    exact this
  have hf0 := neighborsOnly_setNeighbors h mine []
  have hall0 : ∀ n ∈ f.Mines, ¬ Clash (setNeighbors h mine [] mine) (setNeighbors h mine [] n) :=
    fun n hn c => hall n hn ((hf0.clash_iff mine n).1 c)
  have hnot : mine ∉ f.Mines := fun hm => hall mine hm (Or.inl rfl)
  subst e2
  refine ⟨?_, ?_, ?_, ?_⟩
  · exact List.Nodup.append hnd (List.nodup_singleton mine) (by
      intro a ha hb
      rw [List.mem_singleton] at hb
      exact hnot (hb ▸ ha))
  · intro a ha b hb hab c
    have c2 : Clash (h a) (h b) := (hfr.clash_iff a b).1 c
    simp only [List.mem_append, List.mem_singleton] at ha hb
    rcases ha with ha | ha <;> rcases hb with hb | hb
    · exact hcl a ha b hb hab c2
    · subst hb; exact hall a ha c2.symm
    · subst ha; exact hall b hb c2
    · exact hab (ha.trans hb.symm)
  · intro a ha
    rw [hfr.power_eq]
    simp only [List.mem_append, List.mem_singleton] at ha
    rcases ha with ha | ha
    · exact hpw a ha
    · subst ha; exact hp
  · intro a ha
    simp only [hfr.distance_eq, hfr.power_eq]
    simp only [List.mem_append, List.mem_singleton] at ha
    rcases ha with ha | ha
    · have hne : a ≠ mine := fun e => hnot (e ▸ ha)
      have hd : (setNeighbors h mine [] mine).Distance (h a) = (h mine).Distance (h a) :=
        Mine.Distance_congr (hf0.x_eq mine) (hf0.y_eq mine) rfl rfl
      rw [e1, addLoop_other mine f.Mines _ hall0 a hne, setNeighbors_other h [] hne, hnb a ha,
        hd, List.count_eq_one_of_mem hnd ha, List.filter_append,
        Mine.Distance_comm (h mine) (h a)]
      congr 1
      simp only [List.filter_cons, List.filter_nil, Ne.symm hne, ne_eq, not_false_eq_true,
        decide_True, Bool.true_and]
      split <;> simp
    · subst ha
      rw [e1, addLoop_mine a f.Mines _ hall0, setNeighbors_same, List.filter_append]
      simp only [hf0.distance_eq, hf0.power_eq, List.nil_append]
      have e : List.filter (fun b => decide (b ≠ a) && ((h a).Distance (h b)).le (h a).Power) [a]
          = [] := by simp
      rw [e, List.append_nil]
      apply List.filter_congr
      intro b hb
      have : b ≠ a := fun e => hnot (e ▸ hb)
      simp [this]

/-- Every field built by successful `AddMine` calls satisfies the field invariant. -/
theorem Built.inv {h : Heap} {f : Field} (hb : Built h f) : FieldInv h f := by
  induction hb with
  | empty h => exact fieldInv_empty h
  | add _ _ hr ih => exact fieldInv_add ih hr

/-- Membership form of the neighbor lists of a field satisfying the invariant. -/
theorem FieldInv.mem_neighbors {h : Heap} {f : Field} (inv : FieldInv h f) {a : Ptr}
    (ha : a ∈ f.Mines) (b : Ptr) :
    b ∈ (h a).Neighbors ↔
      b ∈ f.Mines ∧ b ≠ a ∧ ((h a).Distance (h b)).le (h a).Power = true := by
  rw [inv.2.2.2 a ha]
  simp [List.mem_filter]

theorem FieldInv.closed {h : Heap} {f : Field} (inv : FieldInv h f) : Closed h f.Mines :=
  fun _ ha b hb => ((inv.mem_neighbors ha b).1 hb).1

/-- A run of successful `AddMine` calls builds a field. -/
theorem built_addAll :
    ∀ (ps : List Ptr) {h : Heap} {f : Field} {h1 : Heap} {f1 : Field},
      Built h f → addAll h f ps = (h1, f1, none) → Built h1 f1
  | [], h, f, h1, f1, hb, hr => by
    simp only [addAll, Prod.mk.injEq] at hr
    obtain ⟨e1, e2, _⟩ := hr
    subst e1; subst e2
    exact hb
  | p :: ps, h, f, h1, f1, hb, hr => by
    unfold addAll at hr
    rcases hA : AddMine h f p with ⟨h2, f2, e⟩
    rw [hA] at hr
    cases e with
    | none => exact built_addAll ps (Built.add p hb hA) hr
    | some e => simp at hr

/-- Adding, one after the other, mines that clash neither with the field nor with each
other, none with a power below zero, succeeds and appends them in order. -/
theorem addAll_ok :
    ∀ (ps : List Ptr) (h : Heap) (f : Field),
      (∀ a ∈ ps, (h a).Power.lt F32.zero = false) →
      (∀ a ∈ ps, ∀ n ∈ f.Mines, ¬ Clash (h a) (h n)) →
      ps.Pairwise (fun a b => ¬ Clash (h b) (h a)) →
      ∃ h1, addAll h f ps = (h1, { Mines := f.Mines ++ ps }, none) ∧ NeighborsOnly h h1
  | [], h, f, _, _, _ => ⟨h, by simp [addAll], NeighborsOnly.refl h⟩
  | p :: ps, h, f, hpw, hcl, hpair => by
    have hp := hpw p (List.mem_cons_self _ _)
    have hall : ∀ n ∈ f.Mines, ¬ Clash (h p) (h n) := hcl p (List.mem_cons_self _ _)
    have hA := AddMine_ok hp hall
    have hfr : NeighborsOnly h (addLoop p f.Mines (setNeighbors h p [])).1 := by
      have := AddMine_frame h f p
      rw [hA] at this
      exact this
    rw [List.pairwise_cons] at hpair
    obtain ⟨h1, e, hfr1⟩ := addAll_ok ps (addLoop p f.Mines (setNeighbors h p [])).1
      { Mines := f.Mines ++ [p] }
      (fun a ha => by rw [hfr.power_eq]; exact hpw a (List.mem_cons_of_mem _ ha))
      (fun a ha n hn c => by
        have c2 := (hfr.clash_iff a n).1 c
        simp only [List.mem_append, List.mem_singleton] at hn
        rcases hn with hn | hn
        · exact hcl a (List.mem_cons_of_mem _ ha) n hn c2
        · subst hn; exact hpair.1 a ha c2)
      (hpair.2.imp (fun {a b} hab c => hab ((hfr.clash_iff b a).1 c)))
    refine ⟨h1, ?_, hfr.trans hfr1⟩
    unfold addAll
    rw [hA]
    simp only
    rw [e]
    simp


/-- Mines that do not clash pairwise, none with a power below zero, build a field when
added to the empty field one after the other. -/
theorem built_addAll_fresh (ps : List Ptr) (h : Heap)
    (hpw : ∀ a ∈ ps, (h a).Power.lt F32.zero = false)
    (hps : ps.Pairwise (fun a b => ¬ Clash (h b) (h a))) :
    Built (addAll h { Mines := [] } ps).1 { Mines := ps } := by
  obtain ⟨h1, e, _⟩ := addAll_ok ps h { Mines := [] } hpw (by simp) hps
  simp only [List.nil_append] at e
  rw [e]
  exact built_addAll ps (Built.empty h) e

/-! ## Claims about `AddMine` -/

set_option exponentiation.threshold 5000

/-- C1: in a field built from the empty field by successful `AddMine` calls, for two
distinct mines `a` and `b` of the field, `b` occurs in `a.Neighbors` if and only if
`a.Distance(b) <= a.Power` (whatever `b.Neighbors` holds). -/
theorem neighbor_iff_within_power (h : Heap) (f : Field) (hb : Built h f) (a b : Ptr)
    (ha : a ∈ f.Mines) (hbm : b ∈ f.Mines) (hab : a ≠ b) :
    b ∈ (h a).Neighbors ↔ ((h a).Distance (h b)).le (h a).Power = true := by
  rw [hb.inv.mem_neighbors ha b]
  exact ⟨fun hx => hx.2.2, fun hx => ⟨hbm, Ne.symm hab, hx⟩⟩

theorem neighbor_iff_within_power_witness :
    Built pairHeap { Mines := [1, 2] } ∧
      (2 ∈ (pairHeap 1).Neighbors ↔
        ((pairHeap 1).Distance (pairHeap 2)).le (pairHeap 1).Power = true) :=
  have hb : Built pairHeap { Mines := [1, 2] } :=
    built_addAll_fresh [1, 2] testHeap (by decide!) (by decide!)
  ⟨hb, neighbor_iff_within_power pairHeap { Mines := [1, 2] } hb 1 2 (by decide) (by decide)
    (by decide)⟩

/-- C2: evaluation at a failing input.  The field holds mines 1 and 2; the candidate at
address 3 reuses ID 2 and lies within the power of mine 1.  `AddMine` returns the
duplicate-ID error and leaves the mine list as it was, but mine 1 has already gained the
rejected candidate as a neighbor. -/
theorem AddMine_error_keeps_rejected_neighbor :
    Built clashField { Mines := [1, 2] } ∧
      (AddMine clashField { Mines := [1, 2] } 3).2 = ({ Mines := [1, 2] }, some AddErr.sameID) ∧
      (clashField 1).Neighbors = [2] ∧
      ((AddMine clashField { Mines := [1, 2] } 3).1 1).Neighbors = [2, 3] :=
  ⟨built_addAll_fresh [1, 2] clashHeap (by decide!) (by decide!),
    by decide!, by decide!, by decide!⟩

/-- C5: `AddMine` returns an error if and only if the candidate's power is below zero, or
a mine of the field has the candidate's ID, or a mine of the field has the candidate's X
and Y; when it returns no error the mine list is the old list with the candidate appended
at the end. -/
theorem AddMine_error_iff (h : Heap) (f : Field) (mine : Ptr) :
    ((AddMine h f mine).2.2 ≠ none ↔
      ((h mine).Power.lt F32.zero = true ∨ (∃ n ∈ f.Mines, (h n).ID = (h mine).ID) ∨
        (∃ n ∈ f.Mines, (h n).X.eq (h mine).X = true ∧ (h n).Y.eq (h mine).Y = true))) ∧
    ((AddMine h f mine).2.2 = none → (AddMine h f mine).2.1.Mines = f.Mines ++ [mine]) := by
  have key : (∃ n ∈ f.Mines, Clash (h mine) (h n)) ↔
      ((∃ n ∈ f.Mines, (h n).ID = (h mine).ID) ∨
        (∃ n ∈ f.Mines, (h n).X.eq (h mine).X = true ∧ (h n).Y.eq (h mine).Y = true)) := by
    constructor
    · rintro ⟨n, hn, hc⟩
      rcases hc.symm with e | e
      · exact Or.inl ⟨n, hn, e⟩
      · exact Or.inr ⟨n, hn, e⟩
    · rintro (⟨n, hn, e⟩ | ⟨n, hn, e⟩)
      · exact ⟨n, hn, Clash.symm (Or.inl e)⟩
      · exact ⟨n, hn, Clash.symm (Or.inr e)⟩
  cases hp : (h mine).Power.lt F32.zero
  · by_cases hex : ∃ n ∈ f.Mines, Clash (h mine) (h n)
    · have hc := AddMine_clash hp hex
      refine ⟨⟨fun _ => Or.inr (key.1 hex), fun _ => hc.2.2⟩, fun e => absurd e hc.2.2⟩
    · have hall : ∀ n ∈ f.Mines, ¬ Clash (h mine) (h n) := fun n hn c => hex ⟨n, hn, c⟩
      rw [AddMine_ok hp hall]
      refine ⟨⟨fun e => absurd rfl e, ?_⟩, fun _ => rfl⟩
      rintro (e | e)
      · exact absurd e (by simp)
      · exact absurd (key.2 e) hex
  · rw [AddMine_neg hp]
    exact ⟨⟨fun _ => Or.inl rfl, fun _ => by simp⟩, fun e => by simp at e⟩

/-- C6: for mines with pairwise distinct IDs, pairwise distinct coordinates and
non-negative powers, adding them to an empty field in the given order and in any permuted
order succeeds both times and gives every mine the same set of neighbors. -/
theorem neighbors_independent_of_order (h : Heap) (ps qs : List Ptr) (hperm : ps.Perm qs)
    (hid : ps.Pairwise (fun a b => (h a).ID ≠ (h b).ID))
    (hxy : ps.Pairwise (fun a b => ¬ ((h a).X.eq (h b).X = true ∧ (h a).Y.eq (h b).Y = true)))
    (hpow : ∀ a ∈ ps, F32.zero.le (h a).Power = true) :
    ∃ h1 h2, addAll h { Mines := [] } ps = (h1, { Mines := ps }, none) ∧
      addAll h { Mines := [] } qs = (h2, { Mines := qs }, none) ∧
      ∀ a ∈ ps, ∀ b, b ∈ (h1 a).Neighbors ↔ b ∈ (h2 a).Neighbors := by
  have hsym : Symmetric (fun a b : Ptr => ¬ Clash (h b) (h a)) :=
    fun a b hab c => hab c.symm
  have hps : ps.Pairwise (fun a b => ¬ Clash (h b) (h a)) := by
    refine (hid.and hxy).imp ?_
    intro a b hab c
    rcases c.symm with e | e
    · exact hab.1 e
    · exact hab.2 e
  have hqs : qs.Pairwise (fun a b => ¬ Clash (h b) (h a)) :=
    (hperm.pairwise_iff (fun {a b} hab => hsym hab)).1 hps
  have hpw : ∀ a ∈ ps, (h a).Power.lt F32.zero = false :=
    fun a ha => F32.not_lt_zero_of_le (hpow a ha)
  obtain ⟨h1, e1, f1⟩ := addAll_ok ps h { Mines := [] } hpw (by simp) hps
  obtain ⟨h2, e2, f2⟩ := addAll_ok qs h { Mines := [] }
    (fun a ha => hpw a (hperm.mem_iff.2 ha)) (by simp) hqs
  simp only [List.nil_append] at e1 e2
  refine ⟨h1, h2, e1, e2, ?_⟩
  intro a ha b
  have b1 : Built h1 { Mines := ps } := built_addAll ps (Built.empty h) e1
  have b2 : Built h2 { Mines := qs } := built_addAll qs (Built.empty h) e2
  have ha2 : a ∈ qs := hperm.mem_iff.1 ha
  rw [b1.inv.mem_neighbors (f := { Mines := ps }) ha b,
    b2.inv.mem_neighbors (f := { Mines := qs }) ha2 b,
    f1.distance_eq, f1.power_eq, f2.distance_eq, f2.power_eq]
  simp only [hperm.mem_iff]

theorem neighbors_independent_of_order_witness :
    ∃ h1 h2, addAll testHeap { Mines := [] } [1, 2] = (h1, { Mines := [1, 2] }, none) ∧
      addAll testHeap { Mines := [] } [2, 1] = (h2, { Mines := [2, 1] }, none) ∧
      ∀ a ∈ [1, 2], ∀ b, b ∈ (h1 a).Neighbors ↔ b ∈ (h2 a).Neighbors :=
  neighbors_independent_of_order testHeap [1, 2] [2, 1] (List.Perm.swap 2 1 [])
    (by decide!) (by decide!) (by decide!)

/-! ## The peak interval -/

theorem intervalLess_irrefl (a : Interval) : intervalLess a a = false := by
  simp [intervalLess]

theorem intervalLess_trans {a b c : Interval} (hab : intervalLess a b = true)
    (hbc : intervalLess b c = true) : intervalLess a c = true := by
  unfold intervalLess at *
  by_cases h1 : a.Explosions = b.Explosions <;> by_cases h2 : b.Explosions = c.Explosions <;>
    by_cases h3 : a.Explosions = c.Explosions <;>
    simp_all <;> omega

/-- The head of the sorted list exists and nothing in the list is less than it. -/
theorem sortIntervals_head :
    ∀ (l : List Interval), l ≠ [] →
      ∃ m, (sortIntervals l).head? = some m ∧ m ∈ l ∧ ∀ x ∈ l, intervalLess x m = false
  | [], hne => absurd rfl hne
  | a :: t, _ => by
    by_cases ht : t = []
    · subst ht
      exact ⟨a, by simp [sortIntervals, insertInterval], by simp,
        by intro x hx; simp at hx; subst hx; exact intervalLess_irrefl _⟩
    · obtain ⟨m, hm, hmem, hmin⟩ := sortIntervals_head t ht
      rcases hs : sortIntervals t with _ | ⟨m1, rest⟩
      · rw [hs] at hm; simp at hm
      · rw [hs] at hm
        simp only [List.head?_cons, Option.some.injEq] at hm
        subst hm
        cases hlt : intervalLess a m1
        · refine ⟨m1, by simp [sortIntervals, hs, insertInterval, hlt],
            List.mem_cons_of_mem _ hmem, ?_⟩
          intro x hx
          rcases List.mem_cons.1 hx with e | hx
          · subst e; exact hlt
          · exact hmin x hx
        · refine ⟨a, by simp [sortIntervals, hs, insertInterval, hlt],
            List.mem_cons_self _ _, ?_⟩
          intro x hx
          rcases List.mem_cons.1 hx with e | hx
          · subst e; exact intervalLess_irrefl _
          · cases hxa : intervalLess x a
            · rfl
            · have := intervalLess_trans hxa hlt
              rw [hmin x hx] at this
              exact absurd this (by simp)

/-- An interval that no other one is less than has the highest count, and the earliest
time among those with that count. -/
theorem intervalLess_false_iff {x m : Interval} (hx : intervalLess x m = false) :
    x.Explosions ≤ m.Explosions ∧ (x.Explosions = m.Explosions → m.Time ≤ x.Time) := by
  unfold intervalLess at hx
  by_cases h1 : x.Explosions = m.Explosions
  · simp [h1] at hx
    exact ⟨le_of_eq h1, fun _ => hx⟩
  · simp [h1] at hx
    exact ⟨hx, fun e => absurd e h1⟩

theorem intervalLess_min_unique {m1 m2 : Interval} (h12 : intervalLess m1 m2 = false)
    (h21 : intervalLess m2 m1 = false) : m1 = m2 := by
  obtain ⟨a1, a2⟩ := intervalLess_false_iff h12
  obtain ⟨b1, b2⟩ := intervalLess_false_iff h21
  have e : m1.Explosions = m2.Explosions := le_antisymm a1 b1
  have t : m1.Time = m2.Time := le_antisymm (b2 e.symm) (a2 e)
  cases m1
  cases m2
  simp only at e t
  subst e
  subst t
  rfl

/-- The peak does not depend on the order in which the map is iterated. -/
theorem peak_perm {l1 l2 : List Interval} (hp : l1.Perm l2) : peak l1 = peak l2 := by
  by_cases h1 : l1 = []
  · subst h1
    rw [List.Perm.eq_nil hp.symm]
  · have h2 : l2 ≠ [] := fun e => h1 (by subst e; exact List.Perm.eq_nil hp)
    obtain ⟨m1, e1, mem1, min1⟩ := sortIntervals_head l1 h1
    obtain ⟨m2, e2, mem2, min2⟩ := sortIntervals_head l2 h2
    unfold peak
    rw [e1, e2, intervalLess_min_unique (min2 m1 (hp.mem_iff.1 mem1))
      (min1 m2 (hp.mem_iff.2 mem2))]

/-- The peak does not depend on the sorting algorithm: the first element of any
arrangement of the intervals in which no interval is less than an earlier one is the
peak. -/
theorem peak_of_sorted {ivs sorted : List Interval} (hp : sorted.Perm ivs)
    (hs : sorted.Pairwise (fun a b => intervalLess b a = false)) :
    sorted.head? = peak ivs := by
  rcases sorted with _ | ⟨m, rest⟩
  · rw [List.Perm.eq_nil hp.symm]
    rfl
  · have hne : ivs ≠ [] := fun e => by
      subst e
      exact absurd (List.Perm.eq_nil hp) (by simp)
    obtain ⟨m2, e2, mem2, min2⟩ := sortIntervals_head ivs hne
    unfold peak
    rw [e2, List.head?_cons]
    congr 1
    apply intervalLess_min_unique
    · exact min2 m (hp.mem_iff.1 (List.mem_cons_self _ _))
    · rcases List.mem_cons.1 (hp.mem_iff.2 mem2) with e | hm
      · rw [e]; exact intervalLess_irrefl _
      · exact (List.pairwise_cons.1 hs).1 m2 hm

/-- C4: for every non-empty explosion-count map and every order in which the map is
iterated, the interval `StartExplosions` takes from it (`intervals[0]` after the sort) is
an entry of the map, its count is at least the count of every entry, and its time is the
smallest among the entries with that count. -/
theorem peak_is_earliest_maximum (ex : Counts) (hne : ex ≠ []) (ivs : List Interval)
    (hperm : ivs.Perm (intervalsOf ex)) :
    ∃ iv, peak ivs = some iv ∧ (iv.Time, iv.Explosions) ∈ ex ∧
      (∀ e ∈ ex, e.2 ≤ iv.Explosions) ∧
      (∀ e ∈ ex, e.2 = iv.Explosions → iv.Time ≤ e.1) := by
  have hne2 : ivs ≠ [] := by
    intro e
    subst e
    have := hperm.length_eq
    simp only [intervalsOf, List.length_nil, List.length_map] at this
    exact hne (List.length_eq_zero.1 this.symm)
  obtain ⟨m, hm, hmem, hmin⟩ := sortIntervals_head ivs hne2
  refine ⟨m, hm, ?_, ?_, ?_⟩
  · have := hperm.mem_iff.1 hmem
    simp only [intervalsOf, List.mem_map] at this
    obtain ⟨kv, hkv, e⟩ := this
    subst e
    exact hkv
  · intro e he
    have hin : ({ Time := e.1, Explosions := e.2 } : Interval) ∈ ivs :=
      hperm.mem_iff.2 (by simp only [intervalsOf, List.mem_map]; exact ⟨e, he, rfl⟩)
    exact (intervalLess_false_iff (hmin _ hin)).1
  · intro e he
    have hin : ({ Time := e.1, Explosions := e.2 } : Interval) ∈ ivs :=
      hperm.mem_iff.2 (by simp only [intervalsOf, List.mem_map]; exact ⟨e, he, rfl⟩)
    exact (intervalLess_false_iff (hmin _ hin)).2

theorem peak_is_earliest_maximum_witness :
    ∃ iv, peak [{ Time := 2, Explosions := 5 }, { Time := 0, Explosions := 1 },
        { Time := 1, Explosions := 5 }] = some iv ∧
      (iv.Time, iv.Explosions) ∈ ([(0, 1), (1, 5), (2, 5)] : Counts) ∧
      (∀ e ∈ ([(0, 1), (1, 5), (2, 5)] : Counts), e.2 ≤ iv.Explosions) ∧
      (∀ e ∈ ([(0, 1), (1, 5), (2, 5)] : Counts), e.2 = iv.Explosions → iv.Time ≤ e.1) :=
  peak_is_earliest_maximum [(0, 1), (1, 5), (2, 5)] (by decide) _ (by decide)

/-! ## `byPeakExplosions.Less` -/

theorem F32.lt_irrefl (a : F32) : a.lt a = false := by
  cases a with
  | nan => rfl
  | inf neg => cases neg <;> rfl
  | fin n => simp [F32.lt]

theorem F32.lt_trans {a b c : F32} (hab : a.lt b = true) (hbc : b.lt c = true) :
    a.lt c = true := by
  cases a <;> cases b <;> cases c <;> simp_all [F32.lt]
  omega

theorem F32.eq_of_eq {a b : F32} (h : a.eq b = true) : a = b := by
  cases a <;> cases b <;> simp_all [F32.eq]

theorem F32.eq_false_of_lt {a b : F32} (h : a.lt b = true) : a.eq b = false := by
  cases a <;> cases b <;> simp_all [F32.lt, F32.eq]
  omega

theorem F32.lt_asymm {a b : F32} (h : a.lt b = true) : b.lt a = false := by
  cases a <;> cases b <;> simp_all [F32.lt]
  omega

theorem F32.lt_or_lt_of_eq_false {a b : F32} (ha : a.isNaN = false) (hb : b.isNaN = false)
    (h : a.eq b = false) : a.lt b = true ∨ b.lt a = true := by
  cases a <;> cases b <;> simp_all [F32.lt, F32.eq, F32.isNaN]
  rename_i x y
  cases x <;> cases y <;> simp_all

theorem lessMine_irrefl (a : Mine) (pa : Interval) : lessMine a a pa pa = false := by
  unfold lessMine
  simp only [ne_eq, not_true_eq_false, if_false]
  split
  · exact F32.lt_irrefl _
  · exact F32.lt_irrefl _

theorem lessMine_trans {a b c : Mine} {pa pb pc : Interval}
    (hab : lessMine a b pa pb = true) (hbc : lessMine b c pb pc = true) :
    lessMine a c pa pc = true := by
  unfold lessMine at *
  by_cases h1 : pa.Explosions = pb.Explosions
  · by_cases h2 : pb.Explosions = pc.Explosions
    · have h3 : pa.Explosions = pc.Explosions := h1.trans h2
      simp only [h1, h2, h3, ne_eq, not_true_eq_false, if_false] at hab hbc ⊢
      cases hxab : a.X.eq b.X <;> cases hxbc : b.X.eq c.X <;>
        simp only [hxab, hxbc, Bool.not_false, Bool.not_true, if_true, if_false,
          Bool.false_eq_true] at hab hbc
      · have := F32.lt_trans hab hbc
        simp [F32.eq_false_of_lt this, this]
      · have e := F32.eq_of_eq hxbc
        rw [← e]
        simp [hxab, hab]
      · have e := F32.eq_of_eq hxab
        rw [e]
        simp [hxbc, hbc]
      · have e := F32.eq_of_eq hxab
        rw [e]
        simp [hxbc, F32.lt_trans hab hbc]
    · simp only [h1, h2, ne_eq, not_true_eq_false, not_false_eq_true, if_true, if_false,
        decide_eq_true_eq] at hab hbc ⊢
      have h3 : ¬ pb.Explosions = pc.Explosions := h2
      simp [h3, hbc]
  · by_cases h2 : pb.Explosions = pc.Explosions
    · simp only [h1, ne_eq, not_false_eq_true, if_true, decide_eq_true_eq] at hab
      have h3 : ¬ pa.Explosions = pc.Explosions := fun e => h1 (e.trans h2.symm)
      simp only [h3, ne_eq, not_false_eq_true, if_true, decide_eq_true_eq]
      omega
    · simp only [h1, h2, ne_eq, not_false_eq_true, if_true, decide_eq_true_eq] at hab hbc
      have h3 : ¬ pa.Explosions = pc.Explosions := by omega
      simp only [h3, ne_eq, not_false_eq_true, if_true, decide_eq_true_eq]
      omega

/-- Two mines without NaN coordinates that do not share both X and Y are ordered one way
and not the other. -/
theorem lessMine_total {a b : Mine} (pa pb : Interval)
    (hax : a.X.isNaN = false) (hay : a.Y.isNaN = false)
    (hbx : b.X.isNaN = false) (hby : b.Y.isNaN = false)
    (hxy : ¬ (a.X.eq b.X = true ∧ a.Y.eq b.Y = true)) :
    (lessMine a b pa pb = true ∧ lessMine b a pb pa = false) ∨
      (lessMine a b pa pb = false ∧ lessMine b a pb pa = true) := by
  unfold lessMine
  by_cases h1 : pa.Explosions = pb.Explosions
  · have h1s : pb.Explosions = pa.Explosions := h1.symm
    simp only [h1, ne_eq, not_true_eq_false, if_false]
    cases hx : a.X.eq b.X
    · have hx2 : b.X.eq a.X = false := by rw [F32.eq_comm]; exact hx
      simp only [hx2, Bool.not_false, if_true]
      rcases F32.lt_or_lt_of_eq_false hax hbx hx with h | h
      · exact Or.inl ⟨h, F32.lt_asymm h⟩
      · exact Or.inr ⟨F32.lt_asymm h, h⟩
    · have hx2 : b.X.eq a.X = true := by rw [F32.eq_comm]; exact hx
      simp only [hx2, Bool.not_true, Bool.false_eq_true, if_false]
      have hy : a.Y.eq b.Y = false := by
        cases hy : a.Y.eq b.Y
        · rfl
        · exact absurd ⟨hx, hy⟩ hxy
      rcases F32.lt_or_lt_of_eq_false hay hby hy with h | h
      · exact Or.inl ⟨h, F32.lt_asymm h⟩
      · exact Or.inr ⟨F32.lt_asymm h, h⟩
  · have h1s : ¬ pb.Explosions = pa.Explosions := fun e => h1 e.symm
    simp only [h1, h1s, ne_eq, not_false_eq_true, if_true, decide_eq_true_eq,
      decide_eq_false_iff_not]
    omega

theorem Less_eq {h : Heap} {m : List Ptr} {i j : Nat} {a b : Ptr} {pa pb : Interval}
    (hi : m[i]? = some a) (hj : m[j]? = some b) (ha : (h a).Peak = some pa)
    (hb : (h b).Peak = some pb) :
    byPeakExplosions.Less h m i j = some (lessMine (h a) (h b) pa pb) := by
  simp [byPeakExplosions.Less, hi, hj, ha, hb]

theorem Less_some {h : Heap} {m : List Ptr} {i j : Nat} {r : Bool}
    (hr : byPeakExplosions.Less h m i j = some r) :
    ∃ a b pa pb, m[i]? = some a ∧ m[j]? = some b ∧ (h a).Peak = some pa ∧
      (h b).Peak = some pb ∧ r = lessMine (h a) (h b) pa pb := by
  unfold byPeakExplosions.Less at hr
  rcases hi : m[i]? with _ | a
  · simp [hi] at hr
  · rcases hj : m[j]? with _ | b
    · simp [hi, hj] at hr
    · rcases ha : (h a).Peak with _ | pa
      · simp [hi, hj, ha] at hr
      · rcases hb : (h b).Peak with _ | pb
        · simp [hi, hj, ha, hb] at hr
        · simp only [hi, hj, ha, hb, Option.some.injEq] at hr
          exact ⟨a, b, pa, pb, rfl, rfl, ha, hb, hr.symm⟩

/-- C10, counterexample: two mines with assigned, equal peaks and different Y coordinates
whose X coordinate is NaN do not share both X and Y, yet neither is ordered before the
other. -/
theorem Less_not_total_on_nan :
    (∀ p ∈ [1, 2], (nanHeap p).Peak ≠ none) ∧
      ¬ ((nanHeap 1).X.eq (nanHeap 2).X = true ∧ (nanHeap 1).Y.eq (nanHeap 2).Y = true) ∧
      byPeakExplosions.Less nanHeap [1, 2] 0 1 = some false ∧
      byPeakExplosions.Less nanHeap [1, 2] 1 0 = some false := by
  decide!

/-- C10, amended: on a slice of mines with assigned peaks, `byPeakExplosions.Less` is
irreflexive and transitive; if moreover no coordinate is NaN and no two mines of the slice
share both X and Y, then of two distinct positions exactly one is ordered before the
other. -/
theorem Less_strict_total_order (h : Heap) (m : List Ptr)
    (hpk : ∀ p ∈ m, (h p).Peak ≠ none) :
    (∀ i, i < m.length → byPeakExplosions.Less h m i i = some false) ∧
    (∀ i j k, byPeakExplosions.Less h m i j = some true →
      byPeakExplosions.Less h m j k = some true →
      byPeakExplosions.Less h m i k = some true) ∧
    ((∀ p ∈ m, (h p).X.isNaN = false ∧ (h p).Y.isNaN = false) →
      m.Pairwise (fun a b => ¬ ((h a).X.eq (h b).X = true ∧ (h a).Y.eq (h b).Y = true)) →
      ∀ i j, i < m.length → j < m.length → i ≠ j →
        (byPeakExplosions.Less h m i j = some true ∧
          byPeakExplosions.Less h m j i = some false) ∨
        (byPeakExplosions.Less h m i j = some false ∧
          byPeakExplosions.Less h m j i = some true)) := by
  have peakOf : ∀ i (hi : i < m.length), ∃ pa, (h m[i]).Peak = some pa := by
    intro i hi
    have := hpk m[i] (List.getElem_mem _)
    rcases hp : (h m[i]).Peak with _ | pa
    · exact absurd hp this
    · exact ⟨pa, rfl⟩
  refine ⟨?_, ?_, ?_⟩
  · intro i hi
    obtain ⟨pa, hpa⟩ := peakOf i hi
    rw [Less_eq (List.getElem?_eq_getElem hi) (List.getElem?_eq_getElem hi) hpa hpa,
      lessMine_irrefl]
  · intro i j k hij hjk
    obtain ⟨a, b, pa, pb, hi, hj, ha, hb, e1⟩ := Less_some hij
    obtain ⟨b2, c, pb2, pc, hj2, hk, hb2, hc, e2⟩ := Less_some hjk
    rw [hj] at hj2
    simp only [Option.some.injEq] at hj2
    subst hj2
    rw [hb] at hb2
    simp only [Option.some.injEq] at hb2
    subst hb2
    rw [Less_eq hi hk ha hc, lessMine_trans e1.symm e2.symm]
  · intro hnan hxy i j hi hj hij
    obtain ⟨pa, hpa⟩ := peakOf i hi
    obtain ⟨pb, hpb⟩ := peakOf j hj
    have hne : ¬ ((h m[i]).X.eq (h m[j]).X = true ∧ (h m[i]).Y.eq (h m[j]).Y = true) := by
      rw [List.pairwise_iff_getElem] at hxy
      rcases Nat.lt_or_gt_of_ne hij with hlt | hgt
      · exact hxy i j hi hj hlt
      · intro hc
        refine hxy j i hj hi hgt ⟨?_, ?_⟩
        · rw [F32.eq_comm]; exact hc.1
        · rw [F32.eq_comm]; exact hc.2
    have hai := hnan m[i] (List.getElem_mem _)
    have haj := hnan m[j] (List.getElem_mem _)
    rw [Less_eq (List.getElem?_eq_getElem hi) (List.getElem?_eq_getElem hj) hpa hpb,
      Less_eq (List.getElem?_eq_getElem hj) (List.getElem?_eq_getElem hi) hpb hpa]
    rcases lessMine_total pa pb hai.1 hai.2 haj.1 haj.2 hne with ⟨h1, h2⟩ | ⟨h1, h2⟩
    · exact Or.inl ⟨by rw [h1], by rw [h2]⟩
    · exact Or.inr ⟨by rw [h1], by rw [h2]⟩

theorem Less_strict_total_order_witness :
    (∀ p ∈ [1, 2, 3], (rankHeap p).Peak ≠ none) ∧
      byPeakExplosions.Less rankHeap [1, 2, 3] 0 0 = some false :=
  ⟨by decide!, (Less_strict_total_order rankHeap [1, 2, 3] (by decide!)).1 0 (by decide)⟩

/-! ## Exploded flags -/

theorem ExplodedOnly.same (h : Heap) : ExplodedOnly h h := fun _ => rfl

theorem ExplodedOnly.chain {a b c : Heap} (hab : ExplodedOnly a b) (hbc : ExplodedOnly b c) :
    ExplodedOnly a c := by
  intro p
  have h1 := hab p
  have h2 := hbc p
  rw [h2]
  conv_lhs => rw [h1]

theorem ExplodedOnly.flip {a b : Heap} (hab : ExplodedOnly a b) : ExplodedOnly b a := by
  intro p
  rw [hab p]

theorem ExplodedOnly.neighbors_eq {a b : Heap} (hab : ExplodedOnly a b) (p : Ptr) :
    (b p).Neighbors = (a p).Neighbors := by rw [hab p]

theorem ExplodedOnly.keepsClosed {a b : Heap} (hab : ExplodedOnly a b) {s : List Ptr}
    (hc : Closed a s) : Closed b s := by
  intro p hp q hq
  rw [hab.neighbors_eq] at hq
  exact hc p hp q hq

theorem setExploded_same (h : Heap) (p : Ptr) (b : Bool) :
    (setExploded h p b p).Exploded = b := by
  simp [setExploded]

theorem setExploded_other (h : Heap) {p q : Ptr} (b : Bool) (hq : q ≠ p) :
    setExploded h p b q = h q := by
  simp [setExploded, Function.update_noteq hq]

theorem explodedOnly_setExploded (h : Heap) (p : Ptr) (b : Bool) :
    ExplodedOnly h (setExploded h p b) := by
  intro q
  by_cases hq : q = p
  · subst hq; simp [setExploded]
  · rw [setExploded_other h b hq]

theorem setExploded_exploded (h : Heap) (p q : Ptr) :
    (setExploded h p true q).Exploded = ((h q).Exploded || decide (q = p)) := by
  by_cases hq : q = p
  · subst hq; simp [setExploded_same]
  · simp [setExploded_other h true hq, hq]

theorem resetAll_frame : ∀ (l : List Ptr) (h : Heap), ExplodedOnly h (resetAll l h)
  | [], h => ExplodedOnly.same h
  | m :: rest, h => (explodedOnly_setExploded h m false).chain (resetAll_frame rest _)

theorem resetAll_not_mem : ∀ (l : List Ptr) (h : Heap) (p : Ptr), p ∉ l → resetAll l h p = h p
  | [], _, _, _ => rfl
  | m :: rest, h, p, hp => by
    have h1 : p ≠ m := fun e => hp (e ▸ List.mem_cons_self _ _)
    have h2 : p ∉ rest := fun e => hp (List.mem_cons_of_mem _ e)
    rw [resetAll, resetAll_not_mem rest _ p h2, setExploded_other h false h1]

theorem resetAll_mem : ∀ (l : List Ptr) (h : Heap) (p : Ptr), p ∈ l →
    (resetAll l h p).Exploded = false
  | m :: rest, h, p, hp => by
    by_cases h2 : p ∈ rest
    · exact resetAll_mem rest _ p h2
    · have h1 : p = m := by
        rcases List.mem_cons.1 hp with e | e
        · exact e
        · exact absurd e h2
      subst h1
      rw [resetAll, resetAll_not_mem rest _ p h2, setExploded_same]

/-! ## The explosion-count map -/

theorem Counts.incr_fresh : ∀ (ex : Counts) (k : Int), (∀ e ∈ ex, e.1 ≠ k) →
    ex.incr k = ex ++ [(k, 1)]
  | [], k, _ => by simp [Counts.incr]
  | (k1, v) :: rest, k, hk => by
    have h1 : k1 ≠ k := hk (k1, v) (List.mem_cons_self _ _)
    have h2 : ∀ e ∈ rest, e.1 ≠ k := fun e he => hk e (List.mem_cons_of_mem _ he)
    simp [Counts.incr, h1, Counts.incr_fresh rest k h2]

theorem Counts.incr_last : ∀ (ex : Counts) (k v : Int), (∀ e ∈ ex, e.1 ≠ k) →
    Counts.incr (ex ++ [(k, v)]) k = ex ++ [(k, v + 1)]
  | [], k, v, _ => by simp [Counts.incr]
  | (k1, v1) :: rest, k, v, hk => by
    have h1 : k1 ≠ k := hk (k1, v1) (List.mem_cons_self _ _)
    have h2 : ∀ e ∈ rest, e.1 ≠ k := fun e he => hk e (List.mem_cons_of_mem _ he)
    simp [Counts.incr, h1, Counts.incr_last rest k v h2]

theorem Counts.incr_bump (ex : Counts) (k : Int) (c : Nat) (hk : ∀ e ∈ ex, e.1 ≠ k) :
    Counts.incr (Counts.bump ex k c) k = Counts.bump ex k (c + 1) := by
  unfold Counts.bump
  by_cases hc : c = 0
  · subst hc
    simp [Counts.incr_fresh ex k hk]
  · simp only [hc, if_false, Nat.add_one_ne_zero, Counts.incr_last ex k c hk]
    push_cast
    rfl

/-! ## One time step -/

theorem frontierLoop_skip {time : Int} {m : Ptr} {rest : List Ptr} {h : Heap} {ex : Counts}
    {nb : List Ptr} (hm : (h m).Exploded = true) :
    frontierLoop time (m :: rest) h ex nb = frontierLoop time rest h ex nb := by
  simp [frontierLoop, Explode, hm]

theorem frontierLoop_explode {time : Int} {m : Ptr} {rest : List Ptr} {h : Heap} {ex : Counts}
    {nb : List Ptr} (hm : (h m).Exploded = false) :
    frontierLoop time (m :: rest) h ex nb =
      frontierLoop time rest (setExploded h m true) (ex.incr time)
        (nb ++ (h m).Neighbors.filter (fun n => !(setExploded h m true n).Exploded)) := by
  simp [frontierLoop, Explode, hm, (explodedOnly_setExploded h m true).neighbors_eq]

theorem frontierLoop_frame (time : Int) :
    ∀ (mines : List Ptr) (h : Heap) (ex : Counts) (nb : List Ptr),
      ExplodedOnly h (frontierLoop time mines h ex nb).1
  | [], h, _, _ => ExplodedOnly.same h
  | m :: rest, h, ex, nb => by
    cases hm : (h m).Exploded
    · rw [frontierLoop_explode hm]
      exact (explodedOnly_setExploded h m true).chain (frontierLoop_frame time rest _ _ _)
    · rw [frontierLoop_skip hm]
      exact frontierLoop_frame time rest _ _ _

/-- After the step a mine is exploded iff it was exploded before or is in the frontier. -/
theorem frontierLoop_exploded (time : Int) :
    ∀ (mines : List Ptr) (h : Heap) (ex : Counts) (nb : List Ptr) (p : Ptr),
      ((frontierLoop time mines h ex nb).1 p).Exploded =
        ((h p).Exploded || decide (p ∈ mines))
  | [], h, _, _, p => by simp [frontierLoop]
  | m :: rest, h, ex, nb, p => by
    cases hm : (h m).Exploded
    · rw [frontierLoop_explode hm, frontierLoop_exploded time rest, setExploded_exploded]
      simp only [List.mem_cons, Bool.decide_or, Bool.or_assoc]
    · rw [frontierLoop_skip hm, frontierLoop_exploded time rest]
      by_cases hp : p = m
      · subst hp; simp [hm]
      · simp [hp]

theorem newlyExploded_skip {h : Heap} {m : Ptr} {rest : List Ptr}
    (hm : (h m).Exploded = true) : newlyExploded h (m :: rest) = newlyExploded h rest := by
  simp [newlyExploded, List.filter_cons, hm]

theorem newlyExploded_explode {h : Heap} {m : Ptr} {rest : List Ptr}
    (hm : (h m).Exploded = false) :
    newlyExploded h (m :: rest) = newlyExploded (setExploded h m true) rest + 1 := by
  have e1 : rest.filter (fun p => !(setExploded h m true p).Exploded) =
      (rest.filter (fun p => !(h p).Exploded)).filter (fun p => decide (p ≠ m)) := by
    rw [List.filter_filter]
    apply List.filter_congr
    intro p _
    rw [setExploded_exploded]
    by_cases hp : p = m <;> simp [hp]
  have e2 : ((rest.filter (fun p => !(h p).Exploded)).filter
      (fun p => decide (p ≠ m))).toFinset =
      (rest.filter (fun p => !(h p).Exploded)).toFinset.erase m := by
    ext x
    simp only [List.mem_toFinset, List.mem_filter, Finset.mem_erase, decide_eq_true_eq]
    tauto
  unfold newlyExploded
  rw [e1, e2]
  simp only [List.filter_cons, hm, Bool.not_false, if_true, List.toFinset_cons]
  rw [← Finset.card_erase_add_one (Finset.mem_insert_self m _), Finset.erase_insert_eq_erase]

/-- The step adds to the entry of `time` the number of distinct unexploded mines of the
frontier, and creates no entry when there is none. -/
theorem frontierLoop_counts (time : Int) (ex0 : Counts) (hk : ∀ e ∈ ex0, e.1 ≠ time) :
    ∀ (mines : List Ptr) (h : Heap) (c0 : Nat) (nb : List Ptr),
      (frontierLoop time mines h (Counts.bump ex0 time c0) nb).2.1 =
        Counts.bump ex0 time (c0 + newlyExploded h mines)
  | [], h, c0, nb => by simp [frontierLoop, newlyExploded]
  | m :: rest, h, c0, nb => by
    cases hm : (h m).Exploded
    · rw [frontierLoop_explode hm, Counts.incr_bump ex0 time c0 hk,
        frontierLoop_counts time ex0 hk rest, newlyExploded_explode hm]
      congr 1
      omega
    · rw [frontierLoop_skip hm, frontierLoop_counts time ex0 hk rest, newlyExploded_skip hm]

/-- Every queued mine was already queued, or is a neighbor, unexploded at the start of the
step, of a frontier mine that was unexploded at the start of the step. -/
theorem frontierLoop_queue_sub (time : Int) :
    ∀ (mines : List Ptr) (h : Heap) (ex : Counts) (nb : List Ptr) (q : Ptr),
      q ∈ (frontierLoop time mines h ex nb).2.2 →
      q ∈ nb ∨ ∃ m ∈ mines, (h m).Exploded = false ∧ q ∈ (h m).Neighbors ∧
        (h q).Exploded = false
  | [], h, _, nb, q, hq => Or.inl (by simpa [frontierLoop] using hq)
  | m :: rest, h, ex, nb, q, hq => by
    cases hm : (h m).Exploded
    · rw [frontierLoop_explode hm] at hq
      rcases frontierLoop_queue_sub time rest _ _ _ q hq with h1 | ⟨m2, hm2, hu, hn, hqu⟩
      · rcases List.mem_append.1 h1 with h1 | h1
        · exact Or.inl h1
        · rw [List.mem_filter] at h1
          refine Or.inr ⟨m, List.mem_cons_self _ _, hm, h1.1, ?_⟩
          have := h1.2
          rw [setExploded_exploded] at this
          simp only [Bool.not_eq_true', Bool.or_eq_false_iff] at this
          exact this.1
      · rw [setExploded_exploded] at hu hqu
        rw [(explodedOnly_setExploded h m true).neighbors_eq] at hn
        simp only [Bool.or_eq_false_iff] at hu hqu
        exact Or.inr ⟨m2, List.mem_cons_of_mem _ hm2, hu.1, hn, hqu.1⟩
    · rw [frontierLoop_skip hm] at hq
      rcases frontierLoop_queue_sub time rest _ _ _ q hq with h1 | ⟨m2, hm2, hu, hn, hqu⟩
      · exact Or.inl h1
      · exact Or.inr ⟨m2, List.mem_cons_of_mem _ hm2, hu, hn, hqu⟩

theorem frontierLoop_queue_mono (time : Int) :
    ∀ (mines : List Ptr) (h : Heap) (ex : Counts) (nb : List Ptr) (q : Ptr),
      q ∈ nb → q ∈ (frontierLoop time mines h ex nb).2.2
  | [], _, _, _, _, hq => by simpa [frontierLoop] using hq
  | m :: rest, h, ex, nb, q, hq => by
    cases hm : (h m).Exploded
    · rw [frontierLoop_explode hm]
      exact frontierLoop_queue_mono time rest _ _ _ q (List.mem_append_left _ hq)
    · rw [frontierLoop_skip hm]
      exact frontierLoop_queue_mono time rest _ _ _ q hq

/-- A neighbor, still unexploded after the step, of a frontier mine that was unexploded at
the start of the step is queued. -/
theorem frontierLoop_queue_sup (time : Int) :
    ∀ (mines : List Ptr) (h : Heap) (ex : Counts) (nb : List Ptr) (m q : Ptr),
      m ∈ mines → (h m).Exploded = false → q ∈ (h m).Neighbors →
      ((frontierLoop time mines h ex nb).1 q).Exploded = false →
      q ∈ (frontierLoop time mines h ex nb).2.2
  | m1 :: rest, h, ex, nb, m, q, hmem, hu, hn, hq => by
    cases hm1 : (h m1).Exploded
    · rw [frontierLoop_explode hm1] at hq ⊢
      by_cases e : m = m1
      · subst e
        apply frontierLoop_queue_mono
        apply List.mem_append_right
        rw [List.mem_filter]
        refine ⟨hn, ?_⟩
        rw [frontierLoop_exploded] at hq
        simp only [Bool.or_eq_false_iff] at hq
        simp [hq.1]
      · have hmr : m ∈ rest := by
          rcases List.mem_cons.1 hmem with e2 | e2
          · exact absurd e2 e
          · exact e2
        refine frontierLoop_queue_sup time rest _ _ _ m q hmr ?_ ?_ hq
        · rw [setExploded_other h true e]; exact hu
        · rw [(explodedOnly_setExploded h m1 true).neighbors_eq]; exact hn
    · rw [frontierLoop_skip hm1] at hq ⊢
      have hmr : m ∈ rest := by
        rcases List.mem_cons.1 hmem with e2 | e2
        · subst e2; rw [hu] at hm1; exact absurd hm1 (by simp)
        · exact e2
      exact frontierLoop_queue_sup time rest _ _ _ m q hmr hu hn hq

/-! ## Termination of the chain reaction -/

theorem chainLoop_nil (fuel : Nat) (time : Int) (h : Heap) (ex : Counts) :
    chainLoop (fuel + 1) time [] h ex = some (h, ex, time) := by
  simp [chainLoop]

theorem chainLoop_cons (fuel : Nat) (time : Int) {mines : List Ptr} (h : Heap) (ex : Counts)
    (hne : mines ≠ []) :
    chainLoop (fuel + 1) time mines h ex =
      chainLoop fuel (time + 1) (frontierLoop time mines h ex []).2.2
        (frontierLoop time mines h ex []).1 (frontierLoop time mines h ex []).2.1 := by
  have : mines.length > 0 := List.length_pos.2 hne
  simp [chainLoop, this]

theorem unexploded_le {h h1 : Heap} (hmono : ∀ p, (h p).Exploded = true → (h1 p).Exploded = true) :
    ∀ l : List Ptr, unexploded h1 l ≤ unexploded h l
  | [] => by simp [unexploded]
  | a :: l => by
    have ih := unexploded_le hmono l
    unfold unexploded at ih ⊢
    simp only [List.filter_cons]
    cases ha : (h a).Exploded
    · cases ha1 : (h1 a).Exploded <;> simp <;> omega
    · simp [hmono a ha]
      exact ih

theorem unexploded_lt {h h1 : Heap} (hmono : ∀ p, (h p).Exploded = true → (h1 p).Exploded = true) :
    ∀ l : List Ptr, (∃ m ∈ l, (h m).Exploded = false ∧ (h1 m).Exploded = true) →
      unexploded h1 l < unexploded h l
  | [], hex => by simp at hex
  | a :: l, hex => by
    have ih := unexploded_lt hmono l
    have hle := unexploded_le hmono l
    unfold unexploded at ih hle ⊢
    simp only [List.filter_cons]
    cases ha : (h a).Exploded
    · cases ha1 : (h1 a).Exploded
      · obtain ⟨m, hm, hu, he⟩ := hex
        rcases List.mem_cons.1 hm with e | hm
        · subst e; rw [ha1] at he; exact absurd he (by simp)
        · have := ih ⟨m, hm, hu, he⟩
          simp
          exact this
      · simp
        omega
    · obtain ⟨m, hm, hu, he⟩ := hex
      rcases List.mem_cons.1 hm with e | hm
      · subst e; rw [ha] at hu; exact absurd hu (by simp)
      · have := ih ⟨m, hm, hu, he⟩
        simp [hmono a ha]
        exact this

theorem unexploded_le_length (h : Heap) (l : List Ptr) : unexploded h l ≤ l.length :=
  List.length_filter_le _ _

theorem newlyExploded_eq_zero {h : Heap} {mines : List Ptr} :
    newlyExploded h mines = 0 ↔ ∀ m ∈ mines, (h m).Exploded = true := by
  unfold newlyExploded
  rw [Finset.card_eq_zero, List.toFinset_eq_empty_iff, List.filter_eq_nil_iff]
  simp

theorem frontierLoop_mono (time : Int) (mines : List Ptr) (h : Heap) (ex : Counts)
    (nb : List Ptr) (p : Ptr) (hp : (h p).Exploded = true) :
    ((frontierLoop time mines h ex nb).1 p).Exploded = true := by
  rw [frontierLoop_exploded, hp]
  rfl

/-- A step in which no frontier mine is unexploded queues nothing. -/
theorem frontierLoop_idle (time : Int) (mines : List Ptr) (h : Heap) (ex : Counts)
    (hall : ∀ m ∈ mines, (h m).Exploded = true) :
    (frontierLoop time mines h ex []).2.2 = [] := by
  apply List.eq_nil_iff_forall_not_mem.2
  intro q hq
  rcases frontierLoop_queue_sub time mines h ex [] q hq with h1 | ⟨m, hm, hu, _, _⟩
  · simp at h1
  · rw [hall m hm] at hu
    exact absurd hu (by simp)

/-- A step in which some frontier mine of `s` is unexploded lowers the number of
unexploded mines of `s`. -/
theorem frontierLoop_progress (time : Int) (mines : List Ptr) (h : Heap) (ex : Counts)
    (nb : List Ptr) (s : List Ptr) (hex : ∃ m ∈ mines, m ∈ s ∧ (h m).Exploded = false) :
    unexploded (frontierLoop time mines h ex nb).1 s < unexploded h s := by
  obtain ⟨m, hm, hs, hu⟩ := hex
  refine unexploded_lt (fun p hp => frontierLoop_mono time mines h ex nb p hp) s
    ⟨m, hs, hu, ?_⟩
  rw [frontierLoop_exploded]
  simp [hm]

theorem frontierLoop_queue_closed (time : Int) (mines : List Ptr) (h : Heap) (ex : Counts)
    {s : List Ptr} (hc : Closed h s) (hsub : ∀ p ∈ mines, p ∈ s) :
    ∀ q ∈ (frontierLoop time mines h ex []).2.2, q ∈ s := by
  intro q hq
  rcases frontierLoop_queue_sub time mines h ex [] q hq with h1 | ⟨m, hm, _, hn, _⟩
  · simp at h1
  · exact hc m (hsub m hm) q hn

/-- With the frontier inside a closed set `s` that has at most `n` unexploded mines, the
loop ends within `n + 1` further time steps, given `n + 2` units of fuel. -/
theorem chainLoop_terminates (s : List Ptr) :
    ∀ (fuel n : Nat) (time : Int) (mines : List Ptr) (h : Heap) (ex : Counts),
      Closed h s → (∀ p ∈ mines, p ∈ s) → unexploded h s ≤ n → n + 2 ≤ fuel →
      ∃ h1 ex1 t1, chainLoop fuel time mines h ex = some (h1, ex1, t1) ∧
        time ≤ t1 ∧ t1 ≤ time + n + 1 ∧ ExplodedOnly h h1
  | 0, _, _, _, _, _, _, _, _, hf => by omega
  | fuel + 1, n, time, mines, h, ex, hc, hsub, hn, hf => by
    by_cases hne : mines = []
    · subst hne
      exact ⟨h, ex, time, chainLoop_nil fuel time h ex, le_refl _, by omega,
        ExplodedOnly.same h⟩
    · rw [chainLoop_cons fuel time h ex hne]
      have hfr := frontierLoop_frame time mines h ex []
      by_cases hall : ∀ m ∈ mines, (h m).Exploded = true
      · rw [frontierLoop_idle time mines h ex hall]
        obtain ⟨f2, hf2⟩ : ∃ f2, fuel = f2 + 1 := ⟨fuel - 1, by omega⟩
        subst hf2
        exact ⟨_, _, time + 1, chainLoop_nil f2 (time + 1) _ _, by omega, by omega, hfr⟩
      · have hex : ∃ m ∈ mines, m ∈ s ∧ (h m).Exploded = false := by
          by_contra hcon
          apply hall
          intro m hm
          cases hu : (h m).Exploded
          · exact absurd ⟨m, hm, hsub m hm, hu⟩ hcon
          · rfl
        have hlt := frontierLoop_progress time mines h ex [] s hex
        obtain ⟨n2, hn2⟩ : ∃ n2, n = n2 + 1 := ⟨n - 1, by omega⟩
        subst hn2
        obtain ⟨h1, ex1, t1, e, ht1, ht2, hfr2⟩ := chainLoop_terminates s fuel n2 (time + 1)
          (frontierLoop time mines h ex []).2.2 (frontierLoop time mines h ex []).1
          (frontierLoop time mines h ex []).2.1 (hfr.keepsClosed hc)
          (frontierLoop_queue_closed time mines h ex hc hsub) (by omega) (by omega)
        refine ⟨h1, ex1, t1, e, by omega, ?_, hfr.chain hfr2⟩
        push_cast
        omega

theorem chainLoop_time_le :
    ∀ (fuel : Nat) (time : Int) (mines : List Ptr) (h : Heap) (ex : Counts) (h1 : Heap)
      (ex1 : Counts) (t1 : Int),
      chainLoop fuel time mines h ex = some (h1, ex1, t1) → time ≤ t1
  | 0, _, _, _, _, _, _, _, hr => by simp [chainLoop] at hr
  | fuel + 1, time, mines, h, ex, h1, ex1, t1, hr => by
    by_cases hne : mines = []
    · subst hne
      rw [chainLoop_nil] at hr
      simp only [Option.some.injEq, Prod.mk.injEq] at hr
      omega
    · rw [chainLoop_cons fuel time h ex hne] at hr
      have := chainLoop_time_le fuel (time + 1) _ _ _ h1 ex1 t1 hr
      omega

/-- The map returned by the loop is the map it starts from followed by entries for time
steps from `time` on, each with a count of at least one. -/
theorem chainLoop_entries :
    ∀ (fuel : Nat) (time : Int) (mines : List Ptr) (h : Heap) (ex : Counts) (h1 : Heap)
      (ex1 : Counts) (t1 : Int),
      chainLoop fuel time mines h ex = some (h1, ex1, t1) → (∀ e ∈ ex, e.1 < time) →
      ∃ tail, ex1 = ex ++ tail ∧ ∀ e ∈ tail, time ≤ e.1 ∧ e.1 < t1 ∧ 1 ≤ e.2
  | 0, _, _, _, _, _, _, _, hr, _ => by simp [chainLoop] at hr
  | fuel + 1, time, mines, h, ex, h1, ex1, t1, hr, hk => by
    by_cases hne : mines = []
    · subst hne
      rw [chainLoop_nil] at hr
      simp only [Option.some.injEq, Prod.mk.injEq] at hr
      exact ⟨[], by simp [hr.2.1], by simp⟩
    · rw [chainLoop_cons fuel time h ex hne] at hr
      have hfresh : ∀ e ∈ ex, e.1 ≠ time := fun e he => ne_of_lt (hk e he)
      have hc := frontierLoop_counts time ex hfresh mines h 0 []
      simp only [Counts.bump, if_true, Nat.zero_add] at hc
      rw [hc] at hr
      by_cases hz : newlyExploded h mines = 0
      · simp only [hz, if_true] at hr
        obtain ⟨tail, e1, h2⟩ := chainLoop_entries fuel (time + 1) _ _ ex h1 ex1 t1 hr
          (fun e he => by have := hk e he; omega)
        exact ⟨tail, e1, fun e he => by have := h2 e he; omega⟩
      · simp only [hz, if_false] at hr
        obtain ⟨tail, e1, h2⟩ := chainLoop_entries fuel (time + 1) _ _ _ h1 ex1 t1 hr
          (fun e he => by
            rcases List.mem_append.1 he with he | he
            · have := hk e he; omega
            · simp only [List.mem_singleton] at he
              subst he
              simp)
        have ht : time + 1 ≤ t1 := chainLoop_time_le fuel (time + 1) _ _ _ h1 ex1 t1 hr
        refine ⟨(time, (newlyExploded h mines : Int)) :: tail, by simp [e1], ?_⟩
        intro e he
        rcases List.mem_cons.1 he with he | he
        · subst he
          simp only
          omega
        · have := h2 e he
          omega

/-! ## Claims about the chain reaction -/

/-- C8, counterexample: a field of three mines in which the chain reaction started at mine
3 runs for five time steps, more than the number of mines plus one.  The field is built by
`AddMine`; two further calls are rejected for a duplicate ID after having linked the
rejected candidates into the neighbor lists of mines 1 and 2. -/
theorem chain_reaction_leaves_field :
    Built strayBuilt { Mines := [1, 2, 3] } ∧
      (AddMine strayBuilt { Mines := [1, 2, 3] } 4).2 =
        ({ Mines := [1, 2, 3] }, some AddErr.sameID) ∧
      (AddMine (AddMine strayBuilt { Mines := [1, 2, 3] } 4).1 { Mines := [1, 2, 3] } 5).2 =
        ({ Mines := [1, 2, 3] }, some AddErr.sameID) ∧
      (explosionCounts 10 strayField { Mines := [1, 2, 3] } 3).map (fun r => r.2) =
        some ([(0, 1), (1, 1), (2, 1), (3, 1), (4, 1)], 5) :=
  ⟨built_addAll_fresh [1, 2, 3] strayHeap (by decide!) (by decide!),
    by decide!, by decide!, by decide!⟩

theorem explosionCounts_terminates (h : Heap) (f : Field) (m : Ptr) (s : List Ptr)
    (hc : Closed h s) (hm : m ∈ s) (fuel : Nat) (hf : s.length + 2 ≤ fuel) :
    ∃ h1 ex t, explosionCounts fuel h f m = some (h1, ex, t) ∧ 0 ≤ t ∧ t ≤ s.length + 1 ∧
      ExplodedOnly h h1 := by
  have hfr := resetAll_frame f.Mines h
  obtain ⟨h1, ex, t, e, ht0, ht, hfr2⟩ := chainLoop_terminates s fuel s.length 0 [m]
    (resetAll f.Mines h) [] (hfr.keepsClosed hc)
    (fun p hp => by rw [List.mem_singleton] at hp; exact hp ▸ hm)
    (unexploded_le_length _ _) hf
  exact ⟨h1, ex, t, e, ht0, by omega, hfr.chain hfr2⟩

/-- C8, amended: let `s` be a list of mines that contains the start mine and every
neighbor of each of its mines (for a field whose neighbor lists stay inside the field, as
after successful `AddMine` calls, `s` can be the field's mine list).  Then a time step
that explodes a mine of `s` strictly reduces the number of unexploded mines of `s`, a time
step that explodes no mine produces an empty next frontier, and with `len(s) + 2` units of
fuel the loop of `StartExplosions` ends after at most `len(s) + 1` time steps. -/
theorem chain_reaction_terminates (h : Heap) (f : Field) (m : Ptr) (s : List Ptr)
    (hc : Closed h s) (hm : m ∈ s) :
    (∀ (time : Int) (mines : List Ptr) (h1 : Heap) (ex : Counts) (nb : List Ptr),
      (∃ p ∈ mines, p ∈ s ∧ (h1 p).Exploded = false) →
      unexploded (frontierLoop time mines h1 ex nb).1 s < unexploded h1 s) ∧
    (∀ (time : Int) (mines : List Ptr) (h1 : Heap) (ex : Counts),
      (∀ p ∈ mines, (h1 p).Exploded = true) →
      (frontierLoop time mines h1 ex []).2.2 = []) ∧
    (∀ fuel, s.length + 2 ≤ fuel →
      ∃ h1 ex t, explosionCounts fuel h f m = some (h1, ex, t) ∧ t ≤ s.length + 1) := by
  refine ⟨?_, ?_, ?_⟩
  · intro time mines h1 ex nb hex
    exact frontierLoop_progress time mines h1 ex nb s hex
  · intro time mines h1 ex hall
    exact frontierLoop_idle time mines h1 ex hall
  · intro fuel hf
    obtain ⟨h1, ex, t, e, _, ht, _⟩ := explosionCounts_terminates h f m s hc hm fuel hf
    exact ⟨h1, ex, t, e, ht⟩

theorem chain_reaction_terminates_witness :
    Closed pairHeap [1, 2] ∧
      ∃ h1 ex t, explosionCounts 4 pairHeap { Mines := [1, 2] } 1 = some (h1, ex, t) ∧
        t ≤ ([1, 2] : List Ptr).length + 1 :=
  have hb : Built pairHeap { Mines := [1, 2] } :=
    built_addAll_fresh [1, 2] testHeap (by decide!) (by decide!)
  ⟨hb.inv.closed,
    (chain_reaction_terminates pairHeap { Mines := [1, 2] } 1 [1, 2] hb.inv.closed
      (by decide)).2.2 4 (by decide)⟩

/-- The start mine of the field is counted alone at time 0, whatever follows. -/
theorem explosionCounts_start (h : Heap) (f : Field) (m : Ptr) (hm : m ∈ f.Mines)
    (fuel : Nat) (h1 : Heap) (ex : Counts) (t : Int)
    (hr : explosionCounts fuel h f m = some (h1, ex, t)) :
    ∃ tail, ex = (0, 1) :: tail ∧ ∀ e ∈ tail, 1 ≤ e.1 ∧ 1 ≤ e.2 := by
  unfold explosionCounts at hr
  rcases fuel with _ | fuel
  · simp [chainLoop] at hr
  · rw [chainLoop_cons fuel 0 _ _ (by simp)] at hr
    have hu : (resetAll f.Mines h m).Exploded = false := resetAll_mem f.Mines h m hm
    have hc := frontierLoop_counts 0 [] (by simp) [m] (resetAll f.Mines h) 0 []
    have hn : newlyExploded (resetAll f.Mines h) [m] = 1 := by
      simp [newlyExploded, List.filter_cons, hu]
    simp only [Counts.bump, if_true, Nat.zero_add, hn, List.nil_append] at hc
    rw [hc] at hr
    obtain ⟨tail, e1, h2⟩ := chainLoop_entries fuel (0 + 1) _ _ _ h1 ex t hr (by simp)
    refine ⟨tail, by simpa using e1, fun e he => ?_⟩
    have := h2 e he
    omega

/-- With enough fuel `StartExplosions` returns, and its map starts with `0 ↦ 1`. -/
theorem StartExplosions_returns (h : Heap) (f : Field) (m : Ptr) (s : List Ptr)
    (hmf : m ∈ f.Mines) (hc : Closed h s) (hm : m ∈ s) (fuel : Nat)
    (hf : s.length + 2 ≤ fuel) :
    ∃ h1 ex t, explosionCounts fuel h f m = some (h1, ex, t) ∧
      ex.get 0 = some 1 ∧ ex ≠ [] ∧
      (∀ ivs, ivs.Perm (intervalsOf ex) →
        ∃ iv, peak ivs = some iv ∧ 0 ≤ iv.Time ∧ 1 ≤ iv.Explosions) ∧
      ∃ iv, StartExplosions fuel h f m = some (h1, iv) ∧ 0 ≤ iv.Time ∧ 1 ≤ iv.Explosions := by
  obtain ⟨h1, ex, t, e, _, _, _⟩ := explosionCounts_terminates h f m s hc hm fuel hf
  obtain ⟨tail, e1, h2⟩ := explosionCounts_start h f m hmf fuel h1 ex t e
  have hne : ex ≠ [] := by rw [e1]; simp
  have hall : ∀ ivs, ivs.Perm (intervalsOf ex) →
      ∃ iv, peak ivs = some iv ∧ 0 ≤ iv.Time ∧ 1 ≤ iv.Explosions := by
    intro ivs hp
    have hne2 : ivs ≠ [] := by
      intro e0
      subst e0
      have := hp.length_eq
      simp only [intervalsOf, List.length_nil, List.length_map] at this
      exact hne (List.length_eq_zero.1 this.symm)
    obtain ⟨iv, hiv, hmem, _⟩ := sortIntervals_head ivs hne2
    refine ⟨iv, hiv, ?_⟩
    have := hp.mem_iff.1 hmem
    simp only [intervalsOf, List.mem_map] at this
    obtain ⟨kv, hkv, e0⟩ := this
    subst e0
    rw [e1] at hkv
    rcases List.mem_cons.1 hkv with e0 | hkv
    · subst e0; simp
    · have := h2 kv hkv
      simp only
      omega
  refine ⟨h1, ex, t, e, by rw [e1]; simp [Counts.get], hne, hall, ?_⟩
  obtain ⟨iv, hiv, h0, h1'⟩ := hall (intervalsOf ex) (List.Perm.refl _)
  exact ⟨iv, by simp [StartExplosions, e, hiv], h0, h1'⟩

/-- C9: for a start mine of the field (in a heap whose mines reachable from it are
finitely many: `s` lists them), with `len(s) + 2` units of fuel the map built by
`StartExplosions` holds time step 0 with count exactly 1, so it is not empty;
`intervals[0]` is in range for every iteration order of the map, and the returned
interval has `Time >= 0` and `Explosions >= 1`. -/
theorem start_mine_counted_at_time_zero (h : Heap) (f : Field) (m : Ptr) (s : List Ptr)
    (hmf : m ∈ f.Mines) (hc : Closed h s) (hm : m ∈ s) (fuel : Nat)
    (hf : s.length + 2 ≤ fuel) :
    ∃ h1 ex t, explosionCounts fuel h f m = some (h1, ex, t) ∧
      ex.get 0 = some 1 ∧ ex ≠ [] ∧
      (∀ ivs, ivs.Perm (intervalsOf ex) →
        ∃ iv, peak ivs = some iv ∧ 0 ≤ iv.Time ∧ 1 ≤ iv.Explosions) ∧
      ∃ iv, StartExplosions fuel h f m = some (h1, iv) ∧ 0 ≤ iv.Time ∧ 1 ≤ iv.Explosions :=
  StartExplosions_returns h f m s hmf hc hm fuel hf

theorem start_mine_counted_at_time_zero_witness :
    ∃ h1 ex t, explosionCounts 4 pairHeap { Mines := [1, 2] } 1 = some (h1, ex, t) ∧
      ex.get 0 = some 1 ∧ ex ≠ [] ∧
      (∀ ivs, ivs.Perm (intervalsOf ex) →
        ∃ iv, peak ivs = some iv ∧ 0 ≤ iv.Time ∧ 1 ≤ iv.Explosions) ∧
      ∃ iv, StartExplosions 4 pairHeap { Mines := [1, 2] } 1 = some (h1, iv) ∧
        0 ≤ iv.Time ∧ 1 ≤ iv.Explosions :=
  start_mine_counted_at_time_zero pairHeap { Mines := [1, 2] } 1 [1, 2] (by decide)
    (built_addAll_fresh [1, 2] testHeap (by decide!) (by decide!)).inv.closed (by decide) 4
    (by decide)

/-- C13: for a start mine of the field whose neighbor list is empty, with at least two
units of fuel the explosion-count map is exactly `{0: 1}`, built in one time step, and
`StartExplosions` returns `Interval{Time: 0, Explosions: 1}`. -/
theorem isolated_mine_peak (h : Heap) (f : Field) (m : Ptr) (hm : m ∈ f.Mines)
    (hiso : (h m).Neighbors = []) (fuel : Nat) (hf : 2 ≤ fuel) :
    ∃ h1, explosionCounts fuel h f m = some (h1, [(0, 1)], 1) ∧
      StartExplosions fuel h f m = some (h1, { Time := 0, Explosions := 1 }) := by
  obtain ⟨f2, e⟩ : ∃ f2, fuel = f2 + 1 + 1 := ⟨fuel - 2, by omega⟩
  subst e
  have hu : (resetAll f.Mines h m).Exploded = false := resetAll_mem f.Mines h m hm
  have hn : (resetAll f.Mines h m).Neighbors = [] := by
    rw [(resetAll_frame f.Mines h).neighbors_eq, hiso]
  have e1 : explosionCounts (f2 + 1 + 1) h f m =
      some (setExploded (resetAll f.Mines h) m true, [(0, 1)], 1) := by
    unfold explosionCounts
    rw [chainLoop_cons (f2 + 1) 0 _ _ (by simp), frontierLoop_explode hu, hn]
    simp [frontierLoop, Counts.incr, chainLoop_nil]
  refine ⟨_, e1, ?_⟩
  simp [StartExplosions, e1, peak, intervalsOf, sortIntervals, insertInterval]

theorem isolated_mine_peak_witness :
    ∃ h1, explosionCounts 2 loneHeap { Mines := [1] } 1 = some (h1, [(0, 1)], 1) ∧
      StartExplosions 2 loneHeap { Mines := [1] } 1 =
        some (h1, { Time := 0, Explosions := 1 }) :=
  isolated_mine_peak loneHeap { Mines := [1] } 1 (by decide) (by decide) 2 (by decide)

/-- C14: for a candidate with power below zero `AddMine` returns an error and leaves the
field as it was: the same mine list (hence the same mine count) and the same heap, so
every neighbor list is as before the call. -/
theorem AddMine_negative_power (h : Heap) (f : Field) (mine : Ptr)
    (hp : (h mine).Power.lt F32.zero = true) :
    (AddMine h f mine).2.2 = some AddErr.negativePower ∧
      (AddMine h f mine).2.1 = f ∧ (AddMine h f mine).2.1.Mines.length = f.Mines.length ∧
      (AddMine h f mine).1 = h := by
  rw [AddMine_neg hp]
  exact ⟨rfl, rfl, rfl, rfl⟩

theorem AddMine_negative_power_witness :
    (negHeap 1).Power.lt F32.zero = true ∧
      (AddMine negHeap { Mines := [] } 1).2.2 = some AddErr.negativePower ∧
      (AddMine negHeap { Mines := [] } 1).2.1 = { Mines := [] } ∧
      (AddMine negHeap { Mines := [] } 1).2.1.Mines.length = ([] : List Ptr).length ∧
      (AddMine negHeap { Mines := [] } 1).1 = negHeap :=
  ⟨by decide!, AddMine_negative_power negHeap { Mines := [] } 1 (by decide!)⟩

/-! ## Independence from the flags left by earlier runs -/

theorem resetAll_at_mem (l : List Ptr) (h : Heap) (p : Ptr) (hp : p ∈ l) :
    resetAll l h p = { h p with Exploded := false } := by
  have h1 := resetAll_frame l h p
  rw [resetAll_mem l h p hp] at h1
  exact h1

theorem agreeOn_resetAll {h1 h2 : Heap} (hfl : ExplodedOnly h1 h2) (l : List Ptr) :
    AgreeOn l (resetAll l h1) (resetAll l h2) := by
  intro p hp
  rw [resetAll_at_mem l h1 p hp, resetAll_at_mem l h2 p hp, hfl p]

theorem agreeOn_setExploded {s : List Ptr} {h1 h2 : Heap} (ha : AgreeOn s h1 h2) (m : Ptr)
    (hm : m ∈ s) (b : Bool) : AgreeOn s (setExploded h1 m b) (setExploded h2 m b) := by
  intro p hp
  by_cases e : p = m
  · subst e
    simp [setExploded, ha p hm]
  · rw [setExploded_other h1 b e, setExploded_other h2 b e, ha p hp]

/-- A time step reads and writes only the frontier and its neighbors. -/
theorem frontierLoop_congr (time : Int) (s : List Ptr) :
    ∀ (mines : List Ptr) (h1 h2 : Heap) (ex : Counts) (nb : List Ptr),
      Closed h1 s → AgreeOn s h1 h2 → (∀ p ∈ mines, p ∈ s) →
      (frontierLoop time mines h1 ex nb).2 = (frontierLoop time mines h2 ex nb).2 ∧
        AgreeOn s (frontierLoop time mines h1 ex nb).1 (frontierLoop time mines h2 ex nb).1
  | [], h1, h2, ex, nb, _, ha, _ => by simp [frontierLoop, ha]
  | m :: rest, h1, h2, ex, nb, hc, ha, hsub => by
    have hm : m ∈ s := hsub m (List.mem_cons_self _ _)
    have hrest : ∀ p ∈ rest, p ∈ s := fun p hp => hsub p (List.mem_cons_of_mem _ hp)
    have em : h1 m = h2 m := ha m hm
    cases hu : (h1 m).Exploded
    · have hu2 : (h2 m).Exploded = false := by rw [← em]; exact hu
      rw [frontierLoop_explode hu, frontierLoop_explode hu2]
      have ha2 := agreeOn_setExploded ha m hm true
      have e : (h1 m).Neighbors.filter (fun n => !(setExploded h1 m true n).Exploded) =
          (h2 m).Neighbors.filter (fun n => !(setExploded h2 m true n).Exploded) := by
        rw [← em]
        apply List.filter_congr
        intro n hn
        rw [ha2 n (hc m hm n hn)]
      rw [e]
      exact frontierLoop_congr time s rest _ _ _ _
        ((explodedOnly_setExploded h1 m true).keepsClosed hc) ha2 hrest
    · have hu2 : (h2 m).Exploded = true := by rw [← em]; exact hu
      rw [frontierLoop_skip hu, frontierLoop_skip hu2]
      exact frontierLoop_congr time s rest _ _ _ _ hc ha hrest

theorem chainLoop_congr (s : List Ptr) :
    ∀ (fuel : Nat) (time : Int) (mines : List Ptr) (h1 h2 : Heap) (ex : Counts),
      Closed h1 s → AgreeOn s h1 h2 → (∀ p ∈ mines, p ∈ s) →
      (chainLoop fuel time mines h1 ex).map (fun r => r.2) =
        (chainLoop fuel time mines h2 ex).map (fun r => r.2)
  | 0, _, _, _, _, _, _, _, _ => by simp [chainLoop]
  | fuel + 1, time, mines, h1, h2, ex, hc, ha, hsub => by
    by_cases hne : mines = []
    · subst hne
      simp [chainLoop_nil]
    · rw [chainLoop_cons fuel time h1 ex hne, chainLoop_cons fuel time h2 ex hne]
      obtain ⟨e, ha2⟩ := frontierLoop_congr time s mines h1 h2 ex [] hc ha hsub
      have e1 : (frontierLoop time mines h2 ex []).2.1 = (frontierLoop time mines h1 ex []).2.1 :=
        by rw [e]
      have e2 : (frontierLoop time mines h2 ex []).2.2 = (frontierLoop time mines h1 ex []).2.2 :=
        by rw [e]
      rw [e1, e2]
      exact chainLoop_congr s fuel (time + 1) _ _ _ _
        ((frontierLoop_frame time mines h1 ex []).keepsClosed hc) ha2
        (frontierLoop_queue_closed time mines h1 ex hc hsub)

theorem chainLoop_frame :
    ∀ (fuel : Nat) (time : Int) (mines : List Ptr) (h : Heap) (ex : Counts) (h1 : Heap)
      (ex1 : Counts) (t1 : Int),
      chainLoop fuel time mines h ex = some (h1, ex1, t1) → ExplodedOnly h h1
  | 0, _, _, _, _, _, _, _, hr => by simp [chainLoop] at hr
  | fuel + 1, time, mines, h, ex, h1, ex1, t1, hr => by
    by_cases hne : mines = []
    · subst hne
      rw [chainLoop_nil] at hr
      simp only [Option.some.injEq, Prod.mk.injEq] at hr
      rw [← hr.1]
      exact ExplodedOnly.same h
    · rw [chainLoop_cons fuel time h ex hne] at hr
      exact (frontierLoop_frame time mines h ex []).chain
        (chainLoop_frame fuel (time + 1) _ _ _ h1 ex1 t1 hr)

theorem StartExplosions_snd (fuel : Nat) (h : Heap) (f : Field) (m : Ptr) :
    (StartExplosions fuel h f m).map Prod.snd =
      ((explosionCounts fuel h f m).map (fun r => r.2)).bind
        (fun r => peak (intervalsOf r.1)) := by
  unfold StartExplosions
  rcases explosionCounts fuel h f m with _ | ⟨h1, ex, t⟩
  · rfl
  · simp only [Option.map_some', Option.some_bind]
    rcases peak (intervalsOf ex) with _ | iv <;> rfl

theorem StartExplosions_frame {fuel : Nat} {h : Heap} {f : Field} {m : Ptr} {h1 : Heap}
    {iv : Interval} (hr : StartExplosions fuel h f m = some (h1, iv)) : ExplodedOnly h h1 := by
  unfold StartExplosions at hr
  rcases e : explosionCounts fuel h f m with _ | ⟨h2, ex, t⟩
  · simp [e] at hr
  · simp only [e] at hr
    rcases e2 : peak (intervalsOf ex) with _ | iv2
    · simp [e2] at hr
    · simp only [e2, Option.some.injEq, Prod.mk.injEq] at hr
      rw [← hr.1]
      exact (resetAll_frame f.Mines h).chain (chainLoop_frame fuel 0 _ _ _ h2 ex t e)

theorem StartExplosions_congr {h1 h2 : Heap} {f : Field} (hc : Closed h1 f.Mines)
    (hfl : ExplodedOnly h1 h2) (m : Ptr) (hm : m ∈ f.Mines) (fuel : Nat) :
    (StartExplosions fuel h1 f m).map Prod.snd = (StartExplosions fuel h2 f m).map Prod.snd := by
  rw [StartExplosions_snd, StartExplosions_snd]
  unfold explosionCounts
  rw [chainLoop_congr f.Mines fuel 0 [m] (resetAll f.Mines h1) (resetAll f.Mines h2) []
    ((resetAll_frame f.Mines h1).keepsClosed hc) (agreeOn_resetAll hfl f.Mines)
    (fun p hp => by rw [List.mem_singleton] at hp; exact hp ▸ hm)]

/-- C7: on a field built by successful `AddMine` calls, the interval `StartExplosions`
returns for a start mine of the field is the same from two heaps that differ only in
`Exploded` flags; in particular it is the same after a run of `StartExplosions` for any
mine, and with `len(Mines) + 2` units of fuel it is returned. -/
theorem StartExplosions_ignores_flags (h1 h2 : Heap) (f : Field) (m : Ptr) (hb : Built h1 f)
    (hm : m ∈ f.Mines) (hfl : ExplodedOnly h1 h2) (fuel : Nat) :
    (StartExplosions fuel h1 f m).map Prod.snd = (StartExplosions fuel h2 f m).map Prod.snd ∧
    (∀ (m2 : Ptr) (fuel2 : Nat) (h3 : Heap) (iv : Interval),
      StartExplosions fuel2 h1 f m2 = some (h3, iv) →
      (StartExplosions fuel h3 f m).map Prod.snd =
        (StartExplosions fuel h1 f m).map Prod.snd) ∧
    (f.Mines.length + 2 ≤ fuel →
      ∃ iv, (StartExplosions fuel h1 f m).map Prod.snd = some iv) := by
  have hc : Closed h1 f.Mines := hb.inv.closed
  refine ⟨StartExplosions_congr hc hfl m hm fuel, ?_, ?_⟩
  · intro m2 fuel2 h3 iv hr
    exact (StartExplosions_congr hc (StartExplosions_frame hr) m hm fuel).symm
  · intro hf
    obtain ⟨h3, ex, t, _, _, _, _, iv, hiv, _⟩ :=
      StartExplosions_returns h1 f m f.Mines hm hc hm fuel hf
    exact ⟨iv, by rw [hiv]; rfl⟩

theorem StartExplosions_ignores_flags_witness :
    (StartExplosions 4 pairHeap { Mines := [1, 2] } 1).map Prod.snd =
      (StartExplosions 4 (setExploded pairHeap 2 true) { Mines := [1, 2] } 1).map Prod.snd :=
  (StartExplosions_ignores_flags pairHeap (setExploded pairHeap 2 true) { Mines := [1, 2] } 1
    (built_addAll_fresh [1, 2] testHeap (by decide!) (by decide!)) (by decide)
    (explodedOnly_setExploded pairHeap 2 true) 4).1

/-! ## Walks in the neighbor graph -/

theorem Walk.mem_closed {h : Heap} {s : List Ptr} (hc : Closed h s) {n : Nat} {a b : Ptr}
    (w : Walk h n a b) : a ∈ s → b ∈ s := by
  induction w with
  | nil => exact fun ha => ha
  | snoc _ hn ih => exact fun ha => hc _ (ih ha) _ hn

theorem Walk.transport {h h1 : Heap} (hn : ∀ p, (h1 p).Neighbors = (h p).Neighbors) :
    ∀ {n : Nat} {a b : Ptr}, Walk h n a b → Walk h1 n a b := by
  intro n a b w
  induction w with
  | nil => exact Walk.nil _
  | snoc _ hc ih => exact Walk.snoc ih (by rw [hn]; exact hc)

theorem Walk.exists_shortest {h : Heap} {a b : Ptr} :
    ∀ (n : Nat), Walk h n a b → ∃ j, j ≤ n ∧ ShortestPath h a b j := by
  intro n
  induction n using Nat.strong_induction_on with
  | _ n ih =>
    intro w
    by_cases hmin : ∀ k, k < n → ¬ Walk h k a b
    · exact ⟨n, le_refl n, w, hmin⟩
    · push_neg at hmin
      obtain ⟨k, hk, wk⟩ := hmin
      obtain ⟨j, hj, sp⟩ := ih k hk wk
      exact ⟨j, by omega, sp⟩

theorem ShortestPath.unique {h : Heap} {a b : Ptr} {j k : Nat} (hj : ShortestPath h a b j)
    (hk : ShortestPath h a b k) : j = k := by
  rcases Nat.lt_trichotomy j k with hlt | heq | hgt
  · exact absurd hj.1 (hk.2 j hlt)
  · exact heq
  · exact absurd hk.1 (hj.2 k hgt)

theorem ShortestPath.zero_iff {h : Heap} {a b : Ptr} : ShortestPath h a b 0 ↔ b = a := by
  constructor
  · rintro ⟨w, _⟩
    cases w
    rfl
  · rintro rfl
    exact ⟨Walk.nil _, fun k hk => by omega⟩

/-- The last edge of a shortest path of `k + 1` edges leaves a mine at distance `k`. -/
theorem ShortestPath.pred {h : Heap} {a c : Ptr} {k : Nat} (hs : ShortestPath h a c (k + 1)) :
    ∃ b, ShortestPath h a b k ∧ c ∈ (h b).Neighbors := by
  obtain ⟨w, hmin⟩ := hs
  cases w with
  | snoc wb hn =>
    rename_i b
    obtain ⟨j, hj, sp⟩ := Walk.exists_shortest k wb
    have : j = k := by
      by_contra hne
      exact hmin (j + 1) (by omega) (Walk.snoc sp.1 hn)
    subst this
    exact ⟨b, sp, hn⟩

theorem ShortestPath.none_above {h : Heap} {a : Ptr} {t : Nat}
    (hnone : ∀ p, ¬ ShortestPath h a p t) : ∀ k, t ≤ k → ∀ p, ¬ ShortestPath h a p k := by
  intro k hk
  induction k with
  | zero =>
    have : t = 0 := by omega
    subst this
    exact hnone
  | succ k ih =>
    by_cases e : t = k + 1
    · subst e; exact hnone
    · intro p sp
      obtain ⟨b, sb, _⟩ := sp.pred
      exact ih (by omega) b sb

/-! ## Lookups in the explosion-count map -/

theorem Counts.get_none : ∀ (ex : Counts) (k : Int), (∀ e ∈ ex, e.1 ≠ k) → ex.get k = none
  | [], _, _ => rfl
  | (k1, v) :: rest, k, hk => by
    have h1 : k1 ≠ k := hk (k1, v) (List.mem_cons_self _ _)
    simp [Counts.get, h1, Counts.get_none rest k (fun e he => hk e (List.mem_cons_of_mem _ he))]

theorem Counts.get_append_other : ∀ (ex : Counts) (k j v : Int), k ≠ j →
    Counts.get (ex ++ [(k, v)]) j = ex.get j
  | [], k, j, v, hkj => by simp [Counts.get, hkj]
  | (k1, v1) :: rest, k, j, v, hkj => by
    by_cases h1 : k1 = j
    · simp [Counts.get, h1]
    · simp [Counts.get, h1, Counts.get_append_other rest k j v hkj]

theorem Counts.get_append_fresh : ∀ (ex : Counts) (k v : Int), (∀ e ∈ ex, e.1 ≠ k) →
    Counts.get (ex ++ [(k, v)]) k = some v
  | [], k, v, _ => by simp [Counts.get]
  | (k1, v1) :: rest, k, v, hk => by
    have h1 : k1 ≠ k := hk (k1, v1) (List.mem_cons_self _ _)
    simp [Counts.get, h1,
      Counts.get_append_fresh rest k v (fun e he => hk e (List.mem_cons_of_mem _ he))]

theorem Counts.get_bump_other (ex : Counts) (k j : Int) (c : Nat) (hkj : k ≠ j) :
    (Counts.bump ex k c).get j = ex.get j := by
  unfold Counts.bump
  split
  · rfl
  · exact Counts.get_append_other ex k j c hkj

theorem Counts.get_bump_fresh (ex : Counts) (k : Int) (c : Nat) (hk : ∀ e ∈ ex, e.1 ≠ k) :
    (Counts.bump ex k c).get k = countEntry c := by
  unfold Counts.bump countEntry
  split
  · exact Counts.get_none ex k hk
  · exact Counts.get_append_fresh ex k c hk

/-! ## The chain reaction is a breadth-first search -/

theorem newlyExploded_eq_ncard {h hcur : Heap} {s F : List Ptr} {m : Ptr} {t : Nat}
    (hF : ∀ p, (p ∈ F ∧ (hcur p).Exploded = false) ↔ ShortestPath h m p t)
    (hsub : ∀ p ∈ F, p ∈ s) :
    Set.ncard {p | p ∈ s ∧ ShortestPath h m p t} = newlyExploded hcur F := by
  have e : {p | p ∈ s ∧ ShortestPath h m p t} =
      ((F.filter (fun p => !(hcur p).Exploded)).toFinset : Set Ptr) := by
    ext p
    simp only [Set.mem_setOf_eq, Finset.mem_coe, List.mem_toFinset, List.mem_filter,
      Bool.not_eq_true', ← hF p]
    exact ⟨fun hp => hp.2, fun hp => ⟨hsub p hp.1, hp⟩⟩
  rw [e, Set.ncard_coe_Finset]
  rfl

/-- Loop invariant of the chain reaction: at the start of time step `t` the exploded mines
are those at distance less than `t` from the start mine, and the unexploded mines of the
frontier are those at distance exactly `t`.  Then the map returned holds, for every `k`,
the number of mines at distance `k`. -/
theorem chainLoop_levels (h : Heap) (s : List Ptr) (m : Ptr) (hc : Closed h s) (hm : m ∈ s) :
    ∀ (fuel t : Nat) (F : List Ptr) (hcur : Heap) (ex : Counts) (h1 : Heap) (ex1 : Counts)
      (t1 : Int),
      chainLoop fuel (t : Int) F hcur ex = some (h1, ex1, t1) →
      ExplodedOnly h hcur →
      (∀ p ∈ s, (hcur p).Exploded = true ↔ ∃ k, k < t ∧ ShortestPath h m p k) →
      (∀ p, (p ∈ F ∧ (hcur p).Exploded = false) ↔ ShortestPath h m p t) →
      (∀ k : Nat, k < t →
        ex.get (k : Int) = countEntry (Set.ncard {p | p ∈ s ∧ ShortestPath h m p k})) →
      (∀ e ∈ ex, 0 ≤ e.1 ∧ e.1 < (t : Int)) →
      (∀ p ∈ F, p ∈ s) →
      (∀ k : Nat,
        ex1.get (k : Int) = countEntry (Set.ncard {p | p ∈ s ∧ ShortestPath h m p k})) ∧
        ∀ e ∈ ex1, 0 ≤ e.1
  | 0, _, _, _, _, _, _, _, hr, _, _, _, _, _, _ => by simp [chainLoop] at hr
  | fuel + 1, t, F, hcur, ex, h1, ex1, t1, hr, hfr, hE, hF, hX, hK, hsub => by
    by_cases hne : F = []
    · subst hne
      rw [chainLoop_nil] at hr
      simp only [Option.some.injEq, Prod.mk.injEq] at hr
      obtain ⟨_, e1, _⟩ := hr
      subst e1
      refine ⟨fun k => ?_, fun e he => (hK e he).1⟩
      by_cases hk : k < t
      · exact hX k hk
      · have hnone : ∀ p, ¬ ShortestPath h m p t := fun p sp => by
          have := (hF p).2 sp
          simp at this
        have hempty : {p | p ∈ s ∧ ShortestPath h m p k} = (∅ : Set Ptr) := by
          apply Set.eq_empty_iff_forall_not_mem.2
          intro p hp
          exact ShortestPath.none_above hnone k (by omega) p hp.2
        rw [hempty, Set.ncard_empty]
        apply Counts.get_none
        intro e he
        have := (hK e he).2
        omega
    · rw [chainLoop_cons fuel _ hcur ex hne] at hr
      have hfresh : ∀ e ∈ ex, e.1 ≠ (t : Int) := fun e he => ne_of_lt (hK e he).2
      have hcnt := frontierLoop_counts (t : Int) ex hfresh F hcur 0 []
      simp only [Counts.bump, if_true, Nat.zero_add] at hcnt
      have hfr1 := frontierLoop_frame (t : Int) F hcur ex []
      have hcc : Closed hcur s := hfr.keepsClosed hc
      have hE1 : ∀ p ∈ s, ((frontierLoop (t : Int) F hcur ex []).1 p).Exploded = true ↔
          ∃ k, k < t + 1 ∧ ShortestPath h m p k := by
        intro p hp
        rw [frontierLoop_exploded]
        constructor
        · intro hx
          cases hu : (hcur p).Exploded
          · rw [hu] at hx
            simp only [Bool.false_or, decide_eq_true_eq] at hx
            exact ⟨t, by omega, (hF p).1 ⟨hx, hu⟩⟩
          · obtain ⟨k, hk, sp⟩ := (hE p hp).1 hu
            exact ⟨k, by omega, sp⟩
        · rintro ⟨k, hk, sp⟩
          by_cases e : k = t
          · subst e
            simp [((hF p).2 sp).1]
          · have := (hE p hp).2 ⟨k, by omega, sp⟩
            simp [this]
      have hF1 : ∀ q, (q ∈ (frontierLoop (t : Int) F hcur ex []).2.2 ∧
          ((frontierLoop (t : Int) F hcur ex []).1 q).Exploded = false) ↔
          ShortestPath h m q (t + 1) := by
        intro q
        constructor
        · rintro ⟨hq, hu⟩
          rcases frontierLoop_queue_sub (t : Int) F hcur ex [] q hq with h0 | ⟨b, hb, hbu, hn, _⟩
          · simp at h0
          · have spb : ShortestPath h m b t := (hF b).1 ⟨hb, hbu⟩
            rw [hfr.neighbors_eq] at hn
            have w : Walk h (t + 1) m q := Walk.snoc spb.1 hn
            have hqs : q ∈ s := w.mem_closed hc hm
            obtain ⟨j, hj, sp⟩ := Walk.exists_shortest (t + 1) w
            by_cases e : j = t + 1
            · subst e; exact sp
            · have := (hE1 q hqs).2 ⟨j, by omega, sp⟩
              rw [this] at hu
              exact absurd hu (by simp)
        · intro sp
          obtain ⟨b, spb, hn⟩ := sp.pred
          obtain ⟨hbF, hbu⟩ := (hF b).2 spb
          have hqs : q ∈ s := sp.1.mem_closed hc hm
          have hu : ((frontierLoop (t : Int) F hcur ex []).1 q).Exploded = false := by
            cases hx : ((frontierLoop (t : Int) F hcur ex []).1 q).Exploded
            · rfl
            · obtain ⟨k, hk, spk⟩ := (hE1 q hqs).1 hx
              have := spk.unique sp
              omega
          refine ⟨?_, hu⟩
          apply frontierLoop_queue_sup (t : Int) F hcur ex [] b q hbF hbu _ hu
          rw [hfr.neighbors_eq]
          exact hn
      have hX1 : ∀ k : Nat, k < t + 1 →
          (frontierLoop (t : Int) F hcur ex []).2.1.get (k : Int) =
            countEntry (Set.ncard {p | p ∈ s ∧ ShortestPath h m p k}) := by
        intro k hk
        rw [hcnt]
        by_cases e : k = t
        · subst e
          have := Counts.get_bump_fresh ex (k : Int) (newlyExploded hcur F) hfresh
          unfold Counts.bump at this
          rw [this, newlyExploded_eq_ncard hF hsub]
        · have := Counts.get_bump_other ex (t : Int) (k : Int) (newlyExploded hcur F)
            (by omega)
          unfold Counts.bump at this
          rw [this]
          exact hX k (by omega)
      have hK1 : ∀ e ∈ (frontierLoop (t : Int) F hcur ex []).2.1,
          0 ≤ e.1 ∧ e.1 < ((t + 1 : Nat) : Int) := by
        intro e he
        rw [hcnt] at he
        split at he
        · have := hK e he
          omega
        · rcases List.mem_append.1 he with he | he
          · have := hK e he
            omega
          · simp only [List.mem_singleton] at he
            subst he
            simp only
            omega
      have hr2 : chainLoop fuel ((t + 1 : Nat) : Int) (frontierLoop (t : Int) F hcur ex []).2.2
          (frontierLoop (t : Int) F hcur ex []).1 (frontierLoop (t : Int) F hcur ex []).2.1 =
          some (h1, ex1, t1) := by
        rw [← hr]
        push_cast
        rfl
      exact chainLoop_levels h s m hc hm fuel (t + 1) _ _ _ h1 ex1 t1 hr2 (hfr.chain hfr1)
        hE1 hF1 hX1 hK1 (frontierLoop_queue_closed (t : Int) F hcur ex hcc hsub)

theorem explosionCounts_levels (h : Heap) (f : Field) (m : Ptr) (hc : Closed h f.Mines)
    (hm : m ∈ f.Mines) (fuel : Nat) (h1 : Heap) (ex : Counts) (t : Int)
    (hr : explosionCounts fuel h f m = some (h1, ex, t)) :
    (∀ k : Nat, ex.get (k : Int) =
      countEntry (Set.ncard {p | p ∈ f.Mines ∧ ShortestPath h m p k})) ∧
      ∀ k : Int, k < 0 → ex.get k = none := by
  unfold explosionCounts at hr
  have hfr := resetAll_frame f.Mines h
  obtain ⟨hall, hpos⟩ := chainLoop_levels h f.Mines m hc hm fuel 0 [m] (resetAll f.Mines h) []
    h1 ex t hr hfr
    (fun p hp => by
      rw [resetAll_mem f.Mines h p hp]
      simp)
    (fun p => by
      rw [ShortestPath.zero_iff, List.mem_singleton]
      constructor
      · exact fun hp => hp.1
      · intro e
        subst e
        exact ⟨rfl, resetAll_mem f.Mines h p hm⟩)
    (fun k hk => by omega)
    (fun e he => by simp at he)
    (fun p hp => by rw [List.mem_singleton] at hp; exact hp ▸ hm)
  refine ⟨hall, fun k hk => ?_⟩
  apply Counts.get_none
  intro e he
  have := hpos e he
  omega

/-- C3: on a field built by successful `AddMine` calls, for a start mine of the field and
`len(Mines) + 2` units of fuel, the map built by `StartExplosions` holds for every time
step `k` the number of mines of the field whose shortest directed path from the start mine
in the neighbor graph has exactly `k` edges, and no entry when that number is zero (nor
for a negative key); each mine is counted once however often it was queued. -/
theorem explosion_counts_are_bfs_levels (h : Heap) (f : Field) (m : Ptr) (hb : Built h f)
    (hm : m ∈ f.Mines) (fuel : Nat) (hf : f.Mines.length + 2 ≤ fuel) :
    ∃ h1 ex t, explosionCounts fuel h f m = some (h1, ex, t) ∧
      (∀ k : Nat, ex.get (k : Int) =
        countEntry (Set.ncard {p | p ∈ f.Mines ∧ ShortestPath h m p k})) ∧
      ∀ k : Int, k < 0 → ex.get k = none := by
  obtain ⟨h1, ex, t, e, _, _, _⟩ :=
    explosionCounts_terminates h f m f.Mines hb.inv.closed hm fuel hf
  exact ⟨h1, ex, t, e, explosionCounts_levels h f m hb.inv.closed hm fuel h1 ex t e⟩

theorem explosion_counts_are_bfs_levels_witness :
    ∃ h1 ex t, explosionCounts 4 pairHeap { Mines := [1, 2] } 1 = some (h1, ex, t) ∧
      (∀ k : Nat, ex.get (k : Int) = countEntry
        (Set.ncard {p | p ∈ ({ Mines := [1, 2] } : Field).Mines ∧
          ShortestPath pairHeap 1 p k})) ∧
      ∀ k : Int, k < 0 → ex.get k = none :=
  explosion_counts_are_bfs_levels pairHeap { Mines := [1, 2] } 1
    (built_addAll_fresh [1, 2] testHeap (by decide!) (by decide!)) (by decide) 4 (by decide)

/-! ## Order of the neighbor lists -/

theorem pairwise_indexOf_of_nodup :
    ∀ (l : List Ptr), l.Nodup → l.Pairwise (fun x y => l.indexOf x < l.indexOf y)
  | [], _ => List.Pairwise.nil
  | a :: t, hnd => by
    rw [List.nodup_cons] at hnd
    have ih := pairwise_indexOf_of_nodup t hnd.2
    refine List.Pairwise.cons ?_ ?_
    · intro y hy
      have hya : y ≠ a := fun e => hnd.1 (e ▸ hy)
      rw [List.indexOf_cons_self, List.indexOf_cons_ne _ (Ne.symm hya)]
      omega
    · refine ih.imp_of_mem ?_
      intro x y hx hy hxy
      have hxa : x ≠ a := fun e => hnd.1 (e ▸ hx)
      have hya : y ≠ a := fun e => hnd.1 (e ▸ hy)
      rw [List.indexOf_cons_ne _ (Ne.symm hxa), List.indexOf_cons_ne _ (Ne.symm hya)]
      omega

/-- C20: in a field built from the empty field by successful `AddMine` calls, the neighbor
list of every mine of the field is a sublist of the field's mine list, so its entries
appear at strictly increasing positions of the mine list; it holds no mine twice and does
not hold the mine itself. -/
theorem neighbors_in_insertion_order (h : Heap) (f : Field) (hb : Built h f) (a : Ptr)
    (ha : a ∈ f.Mines) :
    (h a).Neighbors.Sublist f.Mines ∧
      (h a).Neighbors.Pairwise (fun x y => f.Mines.indexOf x < f.Mines.indexOf y) ∧
      (h a).Neighbors.Nodup ∧ a ∉ (h a).Neighbors := by
  have inv := hb.inv
  have hsub : (h a).Neighbors.Sublist f.Mines := by
    rw [inv.2.2.2 a ha]
    exact List.filter_sublist _
  refine ⟨hsub, (pairwise_indexOf_of_nodup f.Mines inv.1).sublist hsub, hsub.nodup inv.1, ?_⟩
  intro hmem
  exact ((inv.mem_neighbors ha a).1 hmem).2.1 rfl

theorem neighbors_in_insertion_order_witness :
    (pairHeap 1).Neighbors.Sublist [1, 2] ∧
      (pairHeap 1).Neighbors.Pairwise
        (fun x y => ([1, 2] : List Ptr).indexOf x < ([1, 2] : List Ptr).indexOf y) ∧
      (pairHeap 1).Neighbors.Nodup ∧ 1 ∉ (pairHeap 1).Neighbors :=
  neighbors_in_insertion_order pairHeap { Mines := [1, 2] }
    (built_addAll_fresh [1, 2] testHeap (by decide!) (by decide!)) 1 (by decide)

/-! ## The field invariant under arbitrary calls -/

theorem F32.zero_le_of_not_lt {p : F32} (hn : p.isNaN = false) (hp : p.lt F32.zero = false) :
    F32.zero.le p = true := by
  cases p with
  | nan => simp [F32.isNaN] at hn
  | inf neg => cases neg <;> simp_all [F32.le, F32.lt, F32.eq, F32.zero]
  | fin n =>
    simp only [F32.lt, F32.zero, decide_eq_false_iff_not] at hp
    simp only [F32.le, F32.lt, F32.eq, F32.zero, Bool.or_eq_true, decide_eq_true_eq]
    omega

theorem reached_inv {h : Heap} {f : Field} (hr : Reached h f) :
    f.Mines.Pairwise (fun a b => ¬ Clash (h b) (h a)) ∧
      ∀ a ∈ f.Mines, (h a).Power.lt F32.zero = false := by
  induction hr with
  | empty h => exact ⟨List.Pairwise.nil, fun a ha => by simp at ha⟩
  | @call h f mine _ ih =>
    have hfr := AddMine_frame h f mine
    cases hp : (h mine).Power.lt F32.zero
    · by_cases hex : ∃ n ∈ f.Mines, Clash (h mine) (h n)
      · rw [(AddMine_clash hp hex).2.1]
        exact ⟨ih.1.imp (fun {a b} hab c => hab ((hfr.clash_iff b a).1 c)),
          fun a ha => by rw [hfr.power_eq]; exact ih.2 a ha⟩
      · have hall : ∀ n ∈ f.Mines, ¬ Clash (h mine) (h n) := fun n hn c => hex ⟨n, hn, c⟩
        have e : (AddMine h f mine).2.1 = { Mines := f.Mines ++ [mine] } := by
          rw [AddMine_ok hp hall]
        rw [e]
        refine ⟨?_, ?_⟩
        · rw [List.pairwise_append]
          refine ⟨ih.1.imp (fun {a b} hab c => hab ((hfr.clash_iff b a).1 c)),
            List.pairwise_singleton _ _, ?_⟩
          intro a ha b hb c
          rw [List.mem_singleton] at hb
          subst hb
          exact hall a ha ((hfr.clash_iff b a).1 c)
        · intro a ha
          rw [hfr.power_eq]
          rcases List.mem_append.1 ha with ha | ha
          · exact ih.2 a ha
          · rw [List.mem_singleton] at ha
            subst ha
            exact hp
    · rw [AddMine_neg hp]
      exact ih

theorem Built.reached {h : Heap} {f : Field} (hb : Built h f) : Reached h f := by
  induction hb with
  | empty h => exact Reached.empty h
  | @add h f mine h1 f1 _ hr ih =>
    have := Reached.call mine ih
    rw [hr] at this
    exact this

/-- C12, counterexample: a mine whose power is NaN passes the test `mine.Power < 0`, so
`AddMine` adds it, and the field then holds a mine for which `0 <= Power` is false. -/
theorem field_can_hold_nan_power :
    Reached (AddMine nanPowerHeap { Mines := [] } 1).1 { Mines := [1] } ∧
      (AddMine nanPowerHeap { Mines := [] } 1).2.2 = none ∧
      F32.zero.le ((AddMine nanPowerHeap { Mines := [] } 1).1 1).Power = false :=
  ⟨Reached.call 1 (Reached.empty nanPowerHeap), by decide!, by decide!⟩

/-- C12, amended: every field reached from the empty field by `AddMine` calls, successful
or failing, has no two mines in its mine list with the same ID, no two with the same X and
the same Y, and no mine with a power below zero: each power is NaN or at least zero. -/
theorem field_invariant (h : Heap) (f : Field) (hr : Reached h f) :
    f.Mines.Pairwise (fun a b => (h a).ID ≠ (h b).ID) ∧
      f.Mines.Pairwise
        (fun a b => ¬ ((h a).X.eq (h b).X = true ∧ (h a).Y.eq (h b).Y = true)) ∧
      ∀ a ∈ f.Mines, (h a).Power.lt F32.zero = false ∧
        ((h a).Power.isNaN = true ∨ F32.zero.le (h a).Power = true) := by
  obtain ⟨hcl, hpw⟩ := reached_inv hr
  refine ⟨hcl.imp (fun {a b} hab e => hab (Clash.symm (Or.inl e))),
    hcl.imp (fun {a b} hab e => hab (Clash.symm (Or.inr e))), fun a ha => ⟨hpw a ha, ?_⟩⟩
  cases hn : (h a).Power.isNaN
  · exact Or.inr (F32.zero_le_of_not_lt hn (hpw a ha))
  · exact Or.inl rfl

theorem field_invariant_witness :
    Reached (AddMine clashField { Mines := [1, 2] } 3).1 { Mines := [1, 2] } ∧
      ([1, 2] : List Ptr).Pairwise (fun a b =>
        ((AddMine clashField { Mines := [1, 2] } 3).1 a).ID ≠
          ((AddMine clashField { Mines := [1, 2] } 3).1 b).ID) :=
  have h0 : Reached clashField { Mines := [1, 2] } :=
    (built_addAll_fresh [1, 2] clashHeap (by decide!) (by decide!)).reached
  have e : (AddMine clashField { Mines := [1, 2] } 3).2.1 = { Mines := [1, 2] } := by decide!
  have h1 : Reached (AddMine clashField { Mines := [1, 2] } 3).1 { Mines := [1, 2] } := by
    have h2 := Reached.call 3 h0
    rw [e] at h2
    exact h2
  ⟨h1, (field_invariant _ _ h1).1⟩

/-! ## The winner scan -/

theorem peakCount_of_peak {m : Mine} {pk : Interval} (hp : m.Peak = some pk) :
    peakCount m = pk.Explosions := by
  simp [peakCount, hp]

theorem lessPtr_false_count {h : Heap} {a b : Ptr} (hl : lessPtr h b a = some false) :
    peakCount (h b) ≤ peakCount (h a) := by
  unfold lessPtr at hl
  rcases hb : (h b).Peak with _ | pb
  · simp [hb] at hl
  · rcases ha : (h a).Peak with _ | pa
    · simp [hb, ha] at hl
    · simp only [hb, ha, Option.some.injEq] at hl
      rw [peakCount_of_peak hb, peakCount_of_peak ha]
      unfold lessMine at hl
      by_cases e : pb.Explosions = pa.Explosions
      · omega
      · simp only [e, ne_eq, not_false_eq_true, if_true, decide_eq_false_iff_not] at hl
        omega

theorem scanWinners_sorted (h : Heap) (mx : Int) :
    ∀ (l : List Ptr), (∀ p ∈ l, (h p).Peak ≠ none) →
      l.Pairwise (fun a b => peakCount (h b) ≤ peakCount (h a)) →
      (∀ p ∈ l, peakCount (h p) ≤ mx) →
      scanWinners h mx l = some (l.filter (fun p => decide (peakCount (h p) = mx)))
  | [], _, _, _ => rfl
  | m :: rest, hpk, hs, hle => by
    rw [List.pairwise_cons] at hs
    rcases hm : (h m).Peak with _ | pk
    · exact absurd hm (hpk m (List.mem_cons_self _ _))
    · have hc : peakCount (h m) = pk.Explosions := peakCount_of_peak hm
      have hmle := hle m (List.mem_cons_self _ _)
      unfold scanWinners
      simp only [hm]
      by_cases hlt : pk.Explosions < mx
      · simp only [hlt, if_true, List.filter_cons]
        have hne : ¬ peakCount (h m) = mx := by omega
        simp only [hne, decide_False, Bool.false_eq_true, if_false]
        congr 1
        symm
        rw [List.filter_eq_nil_iff]
        intro p hp
        have := hs.1 p hp
        simp only [decide_eq_true_eq]
        omega
      · have heq : peakCount (h m) = mx := by omega
        simp only [hlt, if_false, List.filter_cons, heq, decide_True, if_true]
        rw [scanWinners_sorted h mx rest (fun p hp => hpk p (List.mem_cons_of_mem _ hp)) hs.2
          (fun p hp => hle p (List.mem_cons_of_mem _ hp))]
        rfl

/-- On a non-empty slice with assigned peaks whose peak counts do not increase, the scan
returns exactly the mines with the highest count. -/
theorem winners_of_count_sorted (h : Heap) (mines : List Ptr) (hne : mines ≠ [])
    (hpk : ∀ p ∈ mines, (h p).Peak ≠ none)
    (hs2 : mines.Pairwise (fun a b => peakCount (h b) ≤ peakCount (h a))) :
    ∃ mx ws, (∀ p ∈ mines, peakCount (h p) ≤ mx) ∧ (∃ p ∈ mines, peakCount (h p) = mx) ∧
      winners h mines = some ws ∧
      ws = mines.filter (fun p => decide (peakCount (h p) = mx)) ∧ ws ≠ [] := by
  rcases mines with _ | ⟨m0, rest⟩
  · exact absurd rfl hne
  · rcases hm : (h m0).Peak with _ | pk
    · exact absurd hm (hpk m0 (List.mem_cons_self _ _))
    · have hc : peakCount (h m0) = pk.Explosions := peakCount_of_peak hm
      have hle : ∀ p ∈ m0 :: rest, peakCount (h p) ≤ pk.Explosions := by
        intro p hp
        rcases List.mem_cons.1 hp with e | hp
        · subst e; omega
        · have := (List.pairwise_cons.1 hs2).1 p hp
          omega
      refine ⟨pk.Explosions, _, hle, ⟨m0, List.mem_cons_self _ _, hc⟩, ?_, rfl, ?_⟩
      · unfold winners
        simp only [hm]
        exact scanWinners_sorted h pk.Explosions (m0 :: rest) hpk hs2 hle
      · simp [List.filter_cons, hc]

/-! ## Sorting the mines -/

theorem lessPtr_eq {h : Heap} {a b : Ptr} {pa pb : Interval} (ha : (h a).Peak = some pa)
    (hb : (h b).Peak = some pb) : lessPtr h a b = some (lessMine (h a) (h b) pa pb) := by
  simp [lessPtr, ha, hb]

theorem lessPtr_true {h : Heap} {a b : Ptr} (hl : lessPtr h a b = some true) :
    ∃ pa pb, (h a).Peak = some pa ∧ (h b).Peak = some pb ∧
      lessMine (h a) (h b) pa pb = true := by
  unfold lessPtr at hl
  rcases ha : (h a).Peak with _ | pa
  · simp [ha] at hl
  · rcases hb : (h b).Peak with _ | pb
    · simp [ha, hb] at hl
    · simp only [ha, hb, Option.some.injEq] at hl
      exact ⟨pa, pb, rfl, rfl, hl⟩

theorem lessPtr_trans {h : Heap} {a b c : Ptr} (hab : lessPtr h a b = some true)
    (hbc : lessPtr h b c = some true) : lessPtr h a c = some true := by
  obtain ⟨pa, pb, ha, hb, h1⟩ := lessPtr_true hab
  obtain ⟨pb2, pc, hb2, hc, h2⟩ := lessPtr_true hbc
  rw [hb] at hb2
  simp only [Option.some.injEq] at hb2
  subst hb2
  rw [lessPtr_eq ha hc, lessMine_trans h1 h2]

theorem lessPtr_irrefl {h : Heap} {a : Ptr} : lessPtr h a a ≠ some true := by
  intro hl
  obtain ⟨pa, pb, ha, hb, h1⟩ := lessPtr_true hl
  rw [ha] at hb
  simp only [Option.some.injEq] at hb
  subst hb
  rw [lessMine_irrefl] at h1
  exact absurd h1 (by simp)

theorem lessPtr_cases {h : Heap} {a b : Ptr} (ha : (h a).Peak ≠ none)
    (hb : (h b).Peak ≠ none) : lessPtr h a b = some true ∨ lessPtr h a b = some false := by
  rcases hpa : (h a).Peak with _ | pa
  · exact absurd hpa ha
  · rcases hpb : (h b).Peak with _ | pb
    · exact absurd hpb hb
    · rw [lessPtr_eq hpa hpb]
      cases lessMine (h a) (h b) pa pb
      · exact Or.inr rfl
      · exact Or.inl rfl

theorem rankedBefore_of_less {h : Heap} {a b : Ptr} (hl : lessPtr h a b = some true) :
    RankedBefore (h a) (h b) := by
  obtain ⟨pa, pb, ha, hb, h1⟩ := lessPtr_true hl
  unfold RankedBefore
  rw [peakCount_of_peak ha, peakCount_of_peak hb]
  unfold lessMine at h1
  by_cases e : pa.Explosions = pb.Explosions
  · simp only [e, ne_eq, not_true_eq_false, if_false] at h1
    cases hx : (h a).X.eq (h b).X
    · simp only [hx, Bool.not_false, if_true] at h1
      exact Or.inr (Or.inl ⟨e, h1⟩)
    · simp only [hx, Bool.not_true, Bool.false_eq_true, if_false] at h1
      exact Or.inr (Or.inr ⟨e, rfl, h1⟩)
  · simp only [e, ne_eq, not_false_eq_true, if_true, decide_eq_true_eq] at h1
    exact Or.inl h1

theorem less_of_sorted_distinct {h : Heap} {a b : Ptr} (ha : (h a).Peak ≠ none)
    (hb : (h b).Peak ≠ none) (hna : (h a).X.isNaN = false ∧ (h a).Y.isNaN = false)
    (hnb : (h b).X.isNaN = false ∧ (h b).Y.isNaN = false)
    (hxy : ¬ ((h a).X.eq (h b).X = true ∧ (h a).Y.eq (h b).Y = true))
    (hs : lessPtr h b a = some false) : lessPtr h a b = some true := by
  rcases hpa : (h a).Peak with _ | pa
  · exact absurd hpa ha
  · rcases hpb : (h b).Peak with _ | pb
    · exact absurd hpb hb
    · rw [lessPtr_eq hpb hpa] at hs
      rw [lessPtr_eq hpa hpb]
      simp only [Option.some.injEq] at hs
      rcases lessMine_total pa pb hna.1 hna.2 hnb.1 hnb.2 hxy with ⟨h1, _⟩ | ⟨_, h2⟩
      · rw [h1]
      · rw [h2] at hs
        exact absurd hs (by simp)

theorem sorted_strict {h : Heap} {l : List Ptr} (hpk : ∀ p ∈ l, (h p).Peak ≠ none)
    (hnan : ∀ p ∈ l, (h p).X.isNaN = false ∧ (h p).Y.isNaN = false)
    (hxy : l.Pairwise
      (fun a b => ¬ ((h a).X.eq (h b).X = true ∧ (h a).Y.eq (h b).Y = true)))
    (hs : SortedByPeak h l) : l.Pairwise (fun a b => lessPtr h a b = some true) := by
  refine (hs.and hxy).imp_of_mem ?_
  intro a b ha hb hab
  exact less_of_sorted_distinct (hpk a ha) (hpk b hb) (hnan a ha) (hnan b hb) hab.2 hab.1

theorem sorted_unique {h : Heap} {l1 l2 : List Ptr} (hp : l1.Perm l2)
    (h1 : l1.Pairwise (fun a b => lessPtr h a b = some true))
    (h2 : l2.Pairwise (fun a b => lessPtr h a b = some true)) : l1 = l2 := by
  haveI : IsAntisymm Ptr (fun a b => lessPtr h a b = some true) :=
    ⟨fun a b hab hba => absurd (lessPtr_trans hab hba) lessPtr_irrefl⟩
  exact List.eq_of_perm_of_sorted hp h1 h2

/-- The inner loop of the insertion sort keeps the mines, and keeps the placed mines in
strict order when the mines have no NaN coordinate and pairwise distinct coordinates. -/
theorem insertMine_strict (h : Heap) (x : Ptr) (hx : (h x).Peak ≠ none)
    (hnx : (h x).X.isNaN = false ∧ (h x).Y.isNaN = false) :
    ∀ (placed : List Ptr), (∀ p ∈ placed, (h p).Peak ≠ none) →
      (∀ p ∈ placed, (h p).X.isNaN = false ∧ (h p).Y.isNaN = false) →
      (∀ p ∈ placed, ¬ ((h p).X.eq (h x).X = true ∧ (h p).Y.eq (h x).Y = true)) →
      placed.Pairwise (fun a b => lessPtr h b a = some true) →
      ∃ out, insertMine h x placed = some out ∧ out.Perm (x :: placed) ∧
        out.Pairwise (fun a b => lessPtr h b a = some true)
  | [], _, _, _, _ => ⟨[x], rfl, List.Perm.refl _, List.pairwise_singleton _ _⟩
  | y :: before, hpk, hnan, hxy, hs => by
    have hy := hpk y (List.mem_cons_self _ _)
    rw [List.pairwise_cons] at hs
    rcases lessPtr_cases hx hy with hl | hl
    · obtain ⟨out, e, hperm, hs2⟩ := insertMine_strict h x hx hnx before
        (fun p hp => hpk p (List.mem_cons_of_mem _ hp))
        (fun p hp => hnan p (List.mem_cons_of_mem _ hp))
        (fun p hp => hxy p (List.mem_cons_of_mem _ hp)) hs.2
      refine ⟨y :: out, by simp [insertMine, hl, e], ?_, List.Pairwise.cons ?_ hs2⟩
      · exact (List.Perm.cons y hperm).trans (List.Perm.swap x y before)
      · intro z hz
        rcases List.mem_cons.1 (hperm.mem_iff.1 hz) with e2 | hz
        · subst e2; exact hl
        · exact hs.1 z hz
    · have hyx : lessPtr h y x = some true :=
        less_of_sorted_distinct hy hx (hnan y (List.mem_cons_self _ _)) hnx
          (hxy y (List.mem_cons_self _ _)) hl
      refine ⟨x :: y :: before, by simp [insertMine, hl], List.Perm.refl _,
        List.Pairwise.cons ?_ (List.Pairwise.cons hs.1 hs.2)⟩
      intro z hz
      rcases List.mem_cons.1 hz with e2 | hz
      · subst e2; exact hyx
      · exact lessPtr_trans (hs.1 z hz) hyx

theorem insertionSort_strict (h : Heap) :
    ∀ (rest placed : List Ptr), (∀ p ∈ placed ++ rest, (h p).Peak ≠ none) →
      (∀ p ∈ placed ++ rest, (h p).X.isNaN = false ∧ (h p).Y.isNaN = false) →
      (placed ++ rest).Pairwise
        (fun a b => ¬ ((h a).X.eq (h b).X = true ∧ (h a).Y.eq (h b).Y = true)) →
      placed.Pairwise (fun a b => lessPtr h b a = some true) →
      ∃ out, insertionSort h placed rest = some out ∧ out.Perm (placed ++ rest) ∧
        out.Pairwise (fun a b => lessPtr h a b = some true)
  | [], placed, _, _, _, hs => by
    refine ⟨placed.reverse, rfl, ?_, List.pairwise_reverse.2 hs⟩
    rw [List.append_nil]
    exact List.reverse_perm placed
  | x :: rest, placed, hpk, hnan, hxy, hs => by
    have hsym : Symmetric (fun a b : Ptr =>
        ¬ ((h a).X.eq (h b).X = true ∧ (h a).Y.eq (h b).Y = true)) := by
      intro a b hab hc
      exact hab ⟨by rw [F32.eq_comm]; exact hc.1, by rw [F32.eq_comm]; exact hc.2⟩
    have hmx : x ∈ placed ++ x :: rest := by simp
    have hsub : ∀ p ∈ placed, p ∈ placed ++ x :: rest := fun p hp => by simp [hp]
    obtain ⟨placed1, e, hperm, hs1⟩ := insertMine_strict h x (hpk x hmx) (hnan x hmx) placed
      (fun p hp => hpk p (hsub p hp)) (fun p hp => hnan p (hsub p hp))
      (fun p hp => (List.pairwise_append.1 hxy).2.2 p hp x (List.mem_cons_self _ _)) hs
    have hperm2 : (placed1 ++ rest).Perm (placed ++ x :: rest) :=
      (hperm.append_right rest).trans (List.perm_middle.symm)
    obtain ⟨out, e2, hperm3, hs3⟩ := insertionSort_strict h rest placed1
      (fun p hp => hpk p (hperm2.mem_iff.1 hp)) (fun p hp => hnan p (hperm2.mem_iff.1 hp))
      ((hperm2.pairwise_iff (fun {a b} hab => hsym hab)).2 hxy) hs1
    exact ⟨out, by simp [insertionSort, e, e2], hperm3.trans hperm2, hs3⟩

/-- The sort returns the input in strict order when every mine has a peak and the mines
have no NaN coordinate and pairwise distinct coordinates. -/
theorem sortMines_strict (h : Heap) (l : List Ptr) (hpk : ∀ p ∈ l, (h p).Peak ≠ none)
    (hnan : ∀ p ∈ l, (h p).X.isNaN = false ∧ (h p).Y.isNaN = false)
    (hxy : l.Pairwise
      (fun a b => ¬ ((h a).X.eq (h b).X = true ∧ (h a).Y.eq (h b).Y = true))) :
    ∃ out, sortMines h l = some out ∧ out.Perm l ∧
      out.Pairwise (fun a b => lessPtr h a b = some true) := by
  obtain ⟨out, e, hperm, hs⟩ := insertionSort_strict h l [] (by simpa using hpk)
    (by simpa using hnan) (by simpa using hxy) List.Pairwise.nil
  exact ⟨out, e, by simpa using hperm, hs⟩

/-- C15, counterexample: two mines with assigned, equal peaks, different Y coordinates and
a NaN X coordinate.  Neither ranks before the other, so no arrangement has the stated
order; `Less` is false both ways, the sort swaps nothing and returns each input order
unchanged, a different slice for each. -/
theorem sort_order_lost_on_nan :
    (∀ p ∈ [1, 2], (nanHeap p).Peak ≠ none) ∧
      ¬ ((nanHeap 1).X.eq (nanHeap 2).X = true ∧ (nanHeap 1).Y.eq (nanHeap 2).Y = true) ∧
      ¬ RankedBefore (nanHeap 1) (nanHeap 2) ∧ ¬ RankedBefore (nanHeap 2) (nanHeap 1) ∧
      sortMines nanHeap [1, 2] = some [1, 2] ∧ sortMines nanHeap [2, 1] = some [2, 1] := by
  decide!

/-- C15, amended: for a list of mines with assigned peaks, no NaN coordinate and pairwise
distinct coordinates, the sort returns a permutation of the input in which, for every pair
of positions `i < j`, the mine at `i` has a higher peak count than the mine at `j`, or the
same count and a lower X, or the same count and X and a lower Y; every input order of the
same mines gives this same result, and so does any arrangement of them that is in sorted
order for `Less`. -/
theorem sort_by_peak_explosions (h : Heap) (l : List Ptr)
    (hpk : ∀ p ∈ l, (h p).Peak ≠ none)
    (hnan : ∀ p ∈ l, (h p).X.isNaN = false ∧ (h p).Y.isNaN = false)
    (hxy : l.Pairwise
      (fun a b => ¬ ((h a).X.eq (h b).X = true ∧ (h a).Y.eq (h b).Y = true))) :
    ∃ out, sortMines h l = some out ∧ out.Perm l ∧
      out.Pairwise (fun a b => RankedBefore (h a) (h b)) ∧
      (∀ l2, l2.Perm l → sortMines h l2 = some out) ∧
      (∀ out2, out2.Perm l → SortedByPeak h out2 → out2 = out) := by
  have hsym : Symmetric (fun a b : Ptr =>
      ¬ ((h a).X.eq (h b).X = true ∧ (h a).Y.eq (h b).Y = true)) := by
    intro a b hab hc
    exact hab ⟨by rw [F32.eq_comm]; exact hc.1, by rw [F32.eq_comm]; exact hc.2⟩
  have strict : ∀ l2 : List Ptr, l2.Perm l → SortedByPeak h l2 →
      l2.Pairwise (fun a b => lessPtr h a b = some true) := by
    intro l2 hp hs
    exact sorted_strict (fun p hp2 => hpk p (hp.mem_iff.1 hp2))
      (fun p hp2 => hnan p (hp.mem_iff.1 hp2))
      ((hp.pairwise_iff (fun {a b} hab => hsym hab)).2 hxy) hs
  obtain ⟨out, e, hperm, hstrict⟩ := sortMines_strict h l hpk hnan hxy
  refine ⟨out, e, hperm, hstrict.imp (fun {a b} hab => rankedBefore_of_less hab), ?_, ?_⟩
  · intro l2 hp2
    obtain ⟨out2, e2, hperm2, hstrict2⟩ := sortMines_strict h l2
      (fun p hp => hpk p (hp2.mem_iff.1 hp)) (fun p hp => hnan p (hp2.mem_iff.1 hp))
      ((hp2.pairwise_iff (fun {a b} hab => hsym hab)).2 hxy)
    rw [e2, sorted_unique ((hperm2.trans hp2).trans hperm.symm) hstrict2 hstrict]
  · intro out2 hp2 hs2
    exact sorted_unique (hp2.trans hperm.symm) (strict out2 hp2 hs2) hstrict

theorem sort_by_peak_explosions_witness :
    ∃ out, sortMines rankHeap [3, 1, 2] = some out ∧ out.Perm [3, 1, 2] ∧
      out.Pairwise (fun a b => RankedBefore (rankHeap a) (rankHeap b)) ∧
      (∀ l2, l2.Perm [3, 1, 2] → sortMines rankHeap l2 = some out) ∧
      (∀ out2, out2.Perm [3, 1, 2] → SortedByPeak rankHeap out2 → out2 = out) :=
  sort_by_peak_explosions rankHeap [3, 1, 2] (by decide!) (by decide!) (by decide!)

/-! ## The test field -/

/-- C17: for the field built by `AddMine` from the nine mines of the test, in order,
`StartExplosions` returns `{2, 5}` for mine 1, `{1, 5}` for mine 2, `{2, 5}` for mine 3,
`{1, 5}` for mine 4, `{1, 8}` for mine 5, `{1, 5}` for mine 6, `{1, 8}` for mine 7,
`{0, 1}` for mine 8 and `{2, 3}` for mine 9. -/
theorem test_field_peaks :
    Built gridField { Mines := [1, 2, 3, 4, 5, 6, 7, 8, 9] } ∧
      (StartExplosions 11 gridField { Mines := [1, 2, 3, 4, 5, 6, 7, 8, 9] } 1).map Prod.snd =
        some { Time := 2, Explosions := 5 } ∧
      (StartExplosions 11 gridField { Mines := [1, 2, 3, 4, 5, 6, 7, 8, 9] } 2).map Prod.snd =
        some { Time := 1, Explosions := 5 } ∧
      (StartExplosions 11 gridField { Mines := [1, 2, 3, 4, 5, 6, 7, 8, 9] } 3).map Prod.snd =
        some { Time := 2, Explosions := 5 } ∧
      (StartExplosions 11 gridField { Mines := [1, 2, 3, 4, 5, 6, 7, 8, 9] } 4).map Prod.snd =
        some { Time := 1, Explosions := 5 } ∧
      (StartExplosions 11 gridField { Mines := [1, 2, 3, 4, 5, 6, 7, 8, 9] } 5).map Prod.snd =
        some { Time := 1, Explosions := 8 } ∧
      (StartExplosions 11 gridField { Mines := [1, 2, 3, 4, 5, 6, 7, 8, 9] } 6).map Prod.snd =
        some { Time := 1, Explosions := 5 } ∧
      (StartExplosions 11 gridField { Mines := [1, 2, 3, 4, 5, 6, 7, 8, 9] } 7).map Prod.snd =
        some { Time := 1, Explosions := 8 } ∧
      (StartExplosions 11 gridField { Mines := [1, 2, 3, 4, 5, 6, 7, 8, 9] } 8).map Prod.snd =
        some { Time := 0, Explosions := 1 } ∧
      (StartExplosions 11 gridField { Mines := [1, 2, 3, 4, 5, 6, 7, 8, 9] } 9).map Prod.snd =
        some { Time := 2, Explosions := 3 } :=
  ⟨built_addAll_fresh [1, 2, 3, 4, 5, 6, 7, 8, 9] gridHeap (by decide!) (by decide!),
    by decide!, by decide!, by decide!, by decide!, by decide!, by decide!, by decide!,
    by decide!, by decide!⟩

/-! ## `Mine.Distance` -/

theorem F32.ofMag_not_lt_zero (mag : Nat) : (F32.ofMag false mag).lt F32.zero = false := by
  unfold F32.ofMag
  split
  · rfl
  · simp [F32.lt, F32.zero]

theorem F64.sqrt_sign (x : F64) :
    F64.sqrt x = .nan ∨ F64.sqrt x = .inf false ∨ ∃ n : Nat, F64.sqrt x = .fin (n : Int) := by
  cases x with
  | nan => exact Or.inl rfl
  | inf neg => cases neg <;> simp [F64.sqrt]
  | fin n =>
    by_cases hn : n < 0
    · simp [F64.sqrt, hn]
    · exact Or.inr (Or.inr ⟨F64.sqrtMag n.natAbs, by simp [F64.sqrt, hn]⟩)

/-- The computed distance is never below zero. -/
theorem Mine.Distance_not_lt_zero (a b : Mine) : (a.Distance b).lt F32.zero = false := by
  unfold Mine.Distance
  rcases F64.sqrt_sign (F64.add (F64.sq (F32.toF64 (F32.sub b.X a.X)))
    (F64.sq (F32.toF64 (F32.sub b.Y a.Y)))) with e | e | ⟨n, e⟩
  · simp only [e]; rfl
  · simp only [e]; rfl
  · simp only [e, F64.toF32]
    have : decide ((n : Int) < 0) = false := by simp
    rw [this]
    exact F32.ofMag_not_lt_zero _

/-- A mine with finite coordinates is at distance zero from itself. -/
theorem Mine.Distance_self (a : Mine) (x y : Int) (hx : a.X = .fin x) (hy : a.Y = .fin y) :
    a.Distance a = F32.zero := by
  have e : ∀ z : Int, F64.sq (F32.toF64 (F32.sub (.fin z) (.fin z))) = .fin 0 := by
    intro z
    simp only [F32.sub, sub_self, Int.natAbs_zero, lt_self_iff_false, decide_False]
    decide!
  unfold Mine.Distance
  simp only [hx, hy, e]
  decide!

/-- C16, counterexample: a mine whose X coordinate is `+Inf` is at distance NaN, not 0,
from itself; and the distance computed between (1,1) and (2,2) is the `float32`
`11863283 * 2^-23`, whose square is not 2. -/
theorem distance_not_exact :
    (infHeap 1).Distance (infHeap 1) = F32.nan ∧
      ((infHeap 1).Distance (infHeap 1)).eq F32.zero = false ∧
      (testHeap 1).Distance (testHeap 2) = F32.fin (11863283 * 2 ^ 126) ∧
      (11863283 * 11863283 : Int) ≠ 2 * 2 ^ 46 := by
  decide!

/-- C16, amended: for every two mines `a` and `b`, `a.Distance(b)` and `b.Distance(a)` are
the same value; `a.Distance(a)` is 0 when the coordinates of `a` are finite; the distance
is never negative: it is NaN or at least zero; and it is the Euclidean distance
`sqrt((ax-bx)^2 + (ay-by)^2)`, rounded: for mines at the finite points
`(ax, ay) * 2^-149` and `(bx, by) * 2^-149` the result is `+Inf` only when the Euclidean
distance is at least `2^127`, and otherwise it is a finite `float32` `d * 2^-149` that
differs from the Euclidean distance by at most the fraction `2^-22` of it plus `2^-150`. -/
theorem distance_symmetric_nonnegative (a b : Mine) :
    a.Distance b = b.Distance a ∧
      (∀ x y : Int, a.X = .fin x → a.Y = .fin y → a.Distance a = F32.zero) ∧
      (a.Distance b).lt F32.zero = false ∧
      ((a.Distance b).isNaN = true ∨ F32.zero.le (a.Distance b) = true) ∧
      (∀ ax ay bx by_ : Int, a.X = .fin ax → a.Y = .fin ay → b.X = .fin bx →
        b.Y = .fin by_ →
        (a.Distance b = .inf false ∧
            (2 : ℝ) ^ 127 ≤ Real.sqrt (((bx : ℝ) / 2 ^ 149 - (ax : ℝ) / 2 ^ 149) ^ 2 +
              ((by_ : ℝ) / 2 ^ 149 - (ay : ℝ) / 2 ^ 149) ^ 2)) ∨
          ∃ d : Nat, a.Distance b = .fin (d : Int) ∧
            |(d : ℝ) / 2 ^ 149 - Real.sqrt (((bx : ℝ) / 2 ^ 149 - (ax : ℝ) / 2 ^ 149) ^ 2 +
                ((by_ : ℝ) / 2 ^ 149 - (ay : ℝ) / 2 ^ 149) ^ 2)| ≤
              Real.sqrt (((bx : ℝ) / 2 ^ 149 - (ax : ℝ) / 2 ^ 149) ^ 2 +
                ((by_ : ℝ) / 2 ^ 149 - (ay : ℝ) / 2 ^ 149) ^ 2) / 2 ^ 22 + 1 / 2 ^ 150) := by
  refine ⟨Mine.Distance_comm a b, fun x y hx hy => Mine.Distance_self a x y hx hy,
    Mine.Distance_not_lt_zero a b, ?_,
    fun ax ay bx by_ hax hay hbx hby => Distance_near a b ax ay bx by_ hax hay hbx hby⟩
  cases hn : (a.Distance b).isNaN
  · exact Or.inr (F32.zero_le_of_not_lt hn (Mine.Distance_not_lt_zero a b))
  · exact Or.inl rfl

/-! ## `ParseData` -/

theorem parseRecord_some {fields : String → List String} {pf : String → Option F32}
    {line : String} {r : F32 × F32 × F32} (hr : parseRecord fields pf line = some r) :
    ∃ sx sy sp, fields line = [sx, sy, sp] ∧ pf sx = some r.1 ∧ pf sy = some r.2.1 ∧
      pf sp = some r.2.2 := by
  unfold parseRecord at hr
  rcases hf : fields line with _ | ⟨sx, _ | ⟨sy, _ | ⟨sp, _ | ⟨s4, t⟩⟩⟩⟩
  · simp [hf] at hr
  · simp [hf] at hr
  · simp [hf] at hr
  · simp only [hf] at hr
    rcases hx : pf sx with _ | x
    · simp [hx] at hr
    · rcases hy : pf sy with _ | y
      · simp [hx, hy] at hr
      · rcases hp : pf sp with _ | p
        · simp [hx, hy, hp] at hr
        · simp only [hx, hy, hp, Option.some.injEq] at hr
          subst hr
          exact ⟨sx, sy, sp, rfl, hx, hy, hp⟩
  · simp [hf] at hr

theorem parseRecord_none {fields : String → List String} {pf : String → Option F32}
    {line : String} (hr : parseRecord fields pf line = none) (rest : List String) (id : Nat)
    (h : Heap) (f : Field) : ∃ e, parseLoop fields pf (line :: rest) id h f = .error e := by
  unfold parseRecord at hr
  unfold parseLoop
  rcases hf : fields line with _ | ⟨sx, _ | ⟨sy, _ | ⟨sp, _ | ⟨s4, t⟩⟩⟩⟩
  · exact ⟨_, rfl⟩
  · exact ⟨_, rfl⟩
  · exact ⟨_, rfl⟩
  · simp only [hf] at hr
    simp only
    rcases hx : pf sx with _ | x
    · exact ⟨_, rfl⟩
    · rcases hy : pf sy with _ | y
      · exact ⟨_, rfl⟩
      · rcases hp : pf sp with _ | p
        · exact ⟨_, rfl⟩
        · simp [hx, hy, hp] at hr
  · exact ⟨_, rfl⟩

/-- One pass of the loop on a line that parses: the mine is allocated and handed to
`AddMine`. -/
theorem parseLoop_cons {fields : String → List String} {pf : String → Option F32}
    {line : String} {r : F32 × F32 × F32} (hr : parseRecord fields pf line = some r)
    (rest : List String) (id : Nat) (h : Heap) (f : Field) :
    parseLoop fields pf (line :: rest) id h f =
      match AddMine (Function.update h (id + 1) (mkMine ((id + 1 : Nat) : Int) r.1 r.2.1 r.2.2))
          f (id + 1) with
      | (h2, f2, none) => parseLoop fields pf rest (id + 1) h2 f2
      | (_, _, some e) => .error (.add e) := by
  obtain ⟨sx, sy, sp, hf, hx, hy, hp⟩ := parseRecord_some hr
  conv_lhs => unfold parseLoop
  simp only [hf, hx, hy, hp]

theorem update_other (h : Heap) {p q : Ptr} (m : Mine) (hq : q ≠ p) :
    Function.update h p m q = h q := Function.update_noteq hq m h

/-- Lines that all parse, with no power below zero and pairwise different coordinates, and
none sharing coordinates with a mine already in the field, are all loaded: the loop
appends the addresses `id + 1, id + 2, ...`, keeps the data of the mines allocated before
and stores the `k`-th record at address `id + 1 + k` under ID `id + 1 + k`. -/
theorem parseLoop_loads (fields : String → List String) (pf : String → Option F32) :
    ∀ (lines : List String) (recs : List (F32 × F32 × F32)) (id : Nat) (h : Heap) (f : Field),
      lines.map (parseRecord fields pf) = recs.map some →
      (∀ r ∈ recs, r.2.2.lt F32.zero = false) →
      recs.Pairwise (fun a b => ¬ SameCoords b a) →
      (∀ n ∈ f.Mines, n ≤ id ∧ (h n).ID = (n : Int)) →
      (∀ n ∈ f.Mines, ∀ r ∈ recs, ¬ (r.1.eq (h n).X = true ∧ r.2.1.eq (h n).Y = true)) →
      ∃ h1, parseLoop fields pf lines id h f =
          .ok (h1, { Mines := f.Mines ++ List.range' (id + 1) lines.length }) ∧
        (∀ n, n ≤ id → (h1 n).ID = (h n).ID ∧ (h1 n).X = (h n).X ∧ (h1 n).Y = (h n).Y ∧
          (h1 n).Power = (h n).Power) ∧
        ∀ k r, recs[k]? = some r →
          (h1 (id + 1 + k)).ID = ((id + 1 + k : Nat) : Int) ∧ (h1 (id + 1 + k)).X = r.1 ∧
            (h1 (id + 1 + k)).Y = r.2.1 ∧ (h1 (id + 1 + k)).Power = r.2.2
  | [], recs, id, h, f, hmap, _, _, _, _ => by
    have : recs = [] := by
      cases recs with
      | nil => rfl
      | cons r t => simp at hmap
    subst this
    exact ⟨h, by simp [parseLoop], fun n _ => ⟨rfl, rfl, rfl, rfl⟩, fun k r hk => by simp at hk⟩
  | line :: rest, recs, id, h, f, hmap, hpow, hpair, hinv, hxy => by
    rcases recs with _ | ⟨r, recs⟩
    · simp at hmap
    simp only [List.map_cons, List.cons.injEq] at hmap
    obtain ⟨hrec, hmap2⟩ := hmap
    rw [List.pairwise_cons] at hpair
    have hle : ∀ n ∈ f.Mines, (n : Nat) ≤ id := fun n hn => (hinv n hn).1
    have hne : ∀ n ∈ f.Mines, n ≠ id + 1 := fun n hn e => by
      have h1 : (n : Nat) ≤ id := hle n hn
      rw [e] at h1
      exact Nat.not_succ_le_self id h1
    obtain ⟨h0, eh0⟩ : ∃ h0, h0 =
      Function.update h (id + 1) (mkMine ((id + 1 : Nat) : Int) r.1 r.2.1 r.2.2) := ⟨_, rfl⟩
    have hnew : h0 (id + 1) = mkMine ((id + 1 : Nat) : Int) r.1 r.2.1 r.2.2 := by
      rw [eh0]; exact Function.update_same _ _ _
    have hold : ∀ n, n ≠ id + 1 → h0 n = h n := fun n hn => by
      rw [eh0]; exact update_other h _ hn
    have hp : (h0 (id + 1)).Power.lt F32.zero = false := by
      rw [hnew]
      exact hpow r (List.mem_cons_self _ _)
    have hall : ∀ n ∈ f.Mines, ¬ Clash (h0 (id + 1)) (h0 n) := by
      intro n hn hc
      rw [hnew, hold n (hne n hn)] at hc
      rcases hc with e | e
      · have h1 := (hinv n hn).2
        simp only [mkMine] at e
        have e2 : ((id + 1 : Nat) : Int) = ((n : Nat) : Int) := e.trans h1
        exact hne n hn (Int.ofNat_inj.1 e2).symm
      · exact hxy n hn r (List.mem_cons_self _ _) e
    have hA := AddMine_ok hp hall
    have hfr : NeighborsOnly h0 (addLoop (id + 1) f.Mines (setNeighbors h0 (id + 1) [])).1 := by
      have := AddMine_frame h0 f (id + 1)
      rw [hA] at this
      exact this
    obtain ⟨h2, eh2⟩ : ∃ h2, h2 = (addLoop (id + 1) f.Mines (setNeighbors h0 (id + 1) [])).1 :=
      ⟨_, rfl⟩
    rw [← eh2] at hA hfr
    obtain ⟨h1, e1, hkeep, hdata⟩ := parseLoop_loads fields pf rest recs (id + 1) h2
      { Mines := f.Mines ++ [id + 1] } hmap2
      (fun r2 hr2 => hpow r2 (List.mem_cons_of_mem _ hr2)) hpair.2
      (fun n hn => by
        rw [hfr.id_eq]
        rcases List.mem_append.1 hn with hn | hn
        · rw [hold n (hne n hn)]
          exact ⟨Nat.le_succ_of_le (hle n hn), (hinv n hn).2⟩
        · rw [List.mem_singleton] at hn
          subst hn
          rw [hnew]
          exact ⟨le_refl _, rfl⟩)
      (fun n hn r2 hr2 => by
        rw [hfr.x_eq, hfr.y_eq]
        rcases List.mem_append.1 hn with hn | hn
        · rw [hold n (hne n hn)]
          exact hxy n hn r2 (List.mem_cons_of_mem _ hr2)
        · rw [List.mem_singleton] at hn
          subst hn
          rw [hnew]
          exact hpair.1 r2 hr2)
    refine ⟨h1, ?_, ?_, ?_⟩
    · rw [parseLoop_cons hrec, ← eh0, hA]
      simp only
      rw [e1]
      simp [List.range'_succ]
    · intro n hn
      have := hkeep n (by omega)
      rw [hfr.id_eq, hfr.x_eq, hfr.y_eq, hfr.power_eq, hold n (by omega)] at this
      exact this
    · intro k r2 hk
      rcases k with _ | k
      · simp only [List.getElem?_cons_zero, Option.some.injEq] at hk
        subst hk
        have := hkeep (id + 1) (le_refl _)
        rw [hfr.id_eq, hfr.x_eq, hfr.y_eq, hfr.power_eq, hnew] at this
        exact this
      · simp only [List.getElem?_cons_succ] at hk
        have := hdata k r2 hk
        have e : id + 1 + (k + 1) = id + 1 + 1 + k := by omega
        rw [e]
        exact this

/-- If the loop returns a field, every line parsed, no power was below zero, no record
shared its coordinates with a mine already in the field, and no two records shared
theirs. -/
theorem parseLoop_ok (fields : String → List String) (pf : String → Option F32) :
    ∀ (lines : List String) (id : Nat) (h : Heap) (f : Field) (res : Heap × Field),
      parseLoop fields pf lines id h f = .ok res → (∀ n ∈ f.Mines, (n : Nat) ≤ id) →
      (∀ line ∈ lines, ∃ r, parseRecord fields pf line = some r ∧
        r.2.2.lt F32.zero = false ∧
        ∀ n ∈ f.Mines, ¬ (r.1.eq (h n).X = true ∧ r.2.1.eq (h n).Y = true)) ∧
      lines.Pairwise (fun a b => ∀ ra rb, parseRecord fields pf a = some ra →
        parseRecord fields pf b = some rb → ¬ SameCoords rb ra)
  | [], _, _, _, _, _, _ => ⟨fun line hl => by simp at hl, List.Pairwise.nil⟩
  | line :: rest, id, h, f, res, hres, hle => by
    rcases hrec : parseRecord fields pf line with _ | r
    · obtain ⟨e, he⟩ := parseRecord_none hrec rest id h f
      rw [he] at hres
      cases hres
    · rw [parseLoop_cons hrec] at hres
      obtain ⟨h0, eh0⟩ : ∃ h0, h0 =
        Function.update h (id + 1) (mkMine ((id + 1 : Nat) : Int) r.1 r.2.1 r.2.2) := ⟨_, rfl⟩
      rw [← eh0] at hres
      have hnew : h0 (id + 1) = mkMine ((id + 1 : Nat) : Int) r.1 r.2.1 r.2.2 := by
        rw [eh0]; exact Function.update_same _ _ _
      have hne : ∀ n ∈ f.Mines, n ≠ id + 1 := fun n hn e => by
        have h1 : (n : Nat) ≤ id := hle n hn
        rw [e] at h1
        exact Nat.not_succ_le_self id h1
      have hold : ∀ n ∈ f.Mines, h0 n = h n := fun n hn => by
        rw [eh0]; exact update_other h _ (hne n hn)
      rcases hA : AddMine h0 f (id + 1) with ⟨h2, f2, err⟩
      rw [hA] at hres
      cases err with
      | some e => cases hres
      | none =>
        simp only at hres
        obtain ⟨hp, hall, eh2, ef2⟩ := AddMine_success hA
        have hfr : NeighborsOnly h0 h2 := by
          have := AddMine_frame h0 f (id + 1)
          rw [hA] at this
          exact this
        subst ef2
        obtain ⟨ih1, ih2⟩ := parseLoop_ok fields pf rest (id + 1) h2
          { Mines := f.Mines ++ [id + 1] } res hres
          (fun n hn => by
            rcases List.mem_append.1 hn with hn | hn
            · exact Nat.le_succ_of_le (hle n hn)
            · rw [List.mem_singleton] at hn
              rw [hn])
        have hhead : ∀ n ∈ f.Mines, ¬ (r.1.eq (h n).X = true ∧ r.2.1.eq (h n).Y = true) := by
          intro n hn hc
          apply hall n hn
          rw [hnew, hold n hn]
          exact Or.inr hc
        refine ⟨?_, List.Pairwise.cons ?_ ih2⟩
        · intro l hl
          rcases List.mem_cons.1 hl with e | hl
          · subst e
            rw [hnew] at hp
            exact ⟨r, hrec, hp, hhead⟩
          · obtain ⟨r2, hr2, hp2, hx2⟩ := ih1 l hl
            refine ⟨r2, hr2, hp2, fun n hn => ?_⟩
            have := hx2 n (List.mem_append_left _ hn)
            rw [hfr.x_eq, hfr.y_eq, hold n hn] at this
            exact this
        · intro l hl ra rb hra hrb
          rw [hrec] at hra
          simp only [Option.some.injEq] at hra
          subst hra
          obtain ⟨r2, hr2, _, hx2⟩ := ih1 l hl
          rw [hrb] at hr2
          simp only [Option.some.injEq] at hr2
          subst hr2
          have := hx2 (id + 1) (List.mem_append_right _ (List.mem_singleton_self _))
          rw [hfr.x_eq, hfr.y_eq, hnew] at this
          exact this

theorem parseRecord_none_of_length {fields : String → List String} {pf : String → Option F32}
    {line : String} (hl : (fields line).length ≠ 3) : parseRecord fields pf line = none := by
  unfold parseRecord
  rcases hf : fields line with _ | ⟨sx, _ | ⟨sy, _ | ⟨sp, _ | ⟨s4, t⟩⟩⟩⟩
  · rfl
  · rfl
  · rfl
  · rw [hf] at hl
    simp at hl
  · rfl

theorem parseRecord_none_of_field {fields : String → List String} {pf : String → Option F32}
    {line s : String} (hs : s ∈ fields line) (hp : pf s = none) :
    parseRecord fields pf line = none := by
  rcases hrec : parseRecord fields pf line with _ | r
  · rfl
  · obtain ⟨sx, sy, sp, hf, hx, hy, hpw⟩ := parseRecord_some hrec
    rw [hf] at hs
    simp only [List.mem_cons, List.mem_singleton, List.not_mem_nil, or_false] at hs
    rcases hs with e | e | e <;> subst e
    · rw [hp] at hx; cases hx
    · rw [hp] at hy; cases hy
    · rw [hp] at hpw; cases hpw

/-- C18, counterexample: both lines have three fields that parse and both records pass the
validation of `AddMine`, but the scanner ends with an error (as it does after these lines
when a further line is longer than its 64 KiB token limit, or when the reader fails), and
`ParseData` returns that error and a nil field. -/
theorem ParseData_returns_scanner_error :
    (["1 1 1", "2 2 2"] : List String).map (parseRecord sampleFields sampleFloat) =
        [some (F32.ofInt 1, F32.ofInt 1, F32.ofInt 1),
          some (F32.ofInt 2, F32.ofInt 2, F32.ofInt 2)] ∧
      (∃ r, parseLoop sampleFields sampleFloat ["1 1 1", "2 2 2"] 0 emptyHeap { Mines := [] } =
        .ok r) ∧
      ParseData sampleFields sampleFloat ["1 1 1", "2 2 2"] true = (none, some ParseErr.scan) := by
  obtain ⟨h, e, _⟩ := parseLoop_loads sampleFields sampleFloat ["1 1 1", "2 2 2"]
    [(F32.ofInt 1, F32.ofInt 1, F32.ofInt 1), (F32.ofInt 2, F32.ofInt 2, F32.ofInt 2)]
    0 emptyHeap { Mines := [] } (by decide!) (by decide!) (by unfold SameCoords; decide!)
    (fun n hn => by simp at hn) (fun n hn => by simp at hn)
  refine ⟨by decide!, ⟨_, e⟩, ?_⟩
  unfold ParseData
  rw [e]
  rfl

/-- C18, amended: when every line the scanner delivers has exactly three fields that parse,
no record has a power below zero and no two records have the same coordinates (so
`AddMine` accepts every record), and the scanner reports no error, `ParseData` returns no
error and a field with exactly one mine per line, in read order: the mines are those
allocated for lines 1, 2, ..., and the `k`-th of them has ID `k` and the X, Y and power
parsed from the `k`-th line. -/
theorem ParseData_loads (fields : String → List String) (pf : String → Option F32)
    (lines : List String) (recs : List (F32 × F32 × F32))
    (hmap : lines.map (parseRecord fields pf) = recs.map some)
    (hpow : ∀ r ∈ recs, r.2.2.lt F32.zero = false)
    (hxy : recs.Pairwise (fun a b => ¬ SameCoords a b)) :
    ∃ h, ParseData fields pf lines false =
        (some (h, { Mines := List.range' 1 lines.length }), none) ∧
      (List.range' 1 lines.length).length = lines.length ∧
      ∀ k r, recs[k]? = some r →
        (List.range' 1 lines.length)[k]? = some (k + 1) ∧
        (h (k + 1)).ID = ((k + 1 : Nat) : Int) ∧ (h (k + 1)).X = r.1 ∧
          (h (k + 1)).Y = r.2.1 ∧ (h (k + 1)).Power = r.2.2 := by
  have hxy2 : recs.Pairwise (fun a b => ¬ SameCoords b a) :=
    hxy.imp (fun {a b} hab hc => hab
      ⟨by rw [F32.eq_comm]; exact hc.1, by rw [F32.eq_comm]; exact hc.2⟩)
  obtain ⟨h, e, _, hdata⟩ := parseLoop_loads fields pf lines recs 0 emptyHeap { Mines := [] }
    hmap hpow hxy2 (fun n hn => by simp at hn) (fun n hn => by simp at hn)
  refine ⟨h, ?_, List.length_range' _ _ _, ?_⟩
  · unfold ParseData
    rw [e]
    simp
  · intro k r hk
    have hlen : recs.length = lines.length := by
      have := congrArg List.length hmap
      simpa using this.symm
    have hk2 : k < lines.length := by
      rw [← hlen]
      exact (List.getElem?_eq_some_iff.1 hk).1
    have := hdata k r hk
    have e2 : 0 + 1 + k = k + 1 := by rw [Nat.zero_add, Nat.add_comm]
    rw [e2] at this
    refine ⟨?_, this⟩
    rw [List.getElem?_range' _ _ hk2, Nat.one_mul, Nat.add_comm]

theorem ParseData_loads_witness :
    ∃ h, ParseData sampleFields sampleFloat ["1 1 1", "2 2 2"] false =
        (some (h, { Mines := List.range' 1 (["1 1 1", "2 2 2"] : List String).length }),
          none) ∧
      (List.range' 1 (["1 1 1", "2 2 2"] : List String).length).length =
        (["1 1 1", "2 2 2"] : List String).length ∧
      ∀ k r, ([(F32.ofInt 1, F32.ofInt 1, F32.ofInt 1),
          (F32.ofInt 2, F32.ofInt 2, F32.ofInt 2)] : List (F32 × F32 × F32))[k]? = some r →
        (List.range' 1 (["1 1 1", "2 2 2"] : List String).length)[k]? = some (k + 1) ∧
        (h (k + 1)).ID = ((k + 1 : Nat) : Int) ∧ (h (k + 1)).X = r.1 ∧
          (h (k + 1)).Y = r.2.1 ∧ (h (k + 1)).Power = r.2.2 :=
  ParseData_loads sampleFields sampleFloat ["1 1 1", "2 2 2"]
    [(F32.ofInt 1, F32.ofInt 1, F32.ofInt 1), (F32.ofInt 2, F32.ofInt 2, F32.ofInt 2)]
    (by decide!) (by decide!) (by unfold SameCoords; decide!)

/-- C19: when some line does not have exactly three fields, or has a field that does not
parse, or parses to a record with a power below zero, or parses to a record with the
coordinates of the record of an earlier line, `ParseData` returns an error and a nil
field.  The offending line is one the scanner delivers, or else the scanner stopped
before it with an error. -/
theorem ParseData_rejects (fields : String → List String) (pf : String → Option F32)
    (lines : List String) (scanErr : Bool)
    (hbad : (∃ line ∈ lines, (fields line).length ≠ 3) ∨
      (∃ line ∈ lines, ∃ s ∈ fields line, pf s = none) ∨
      (∃ line ∈ lines, ∃ r, parseRecord fields pf line = some r ∧
        r.2.2.lt F32.zero = true) ∨
      (∃ (i j : Nat) (a b : String) (ra rb : F32 × F32 × F32),
        i < j ∧ lines[i]? = some a ∧ lines[j]? = some b ∧
        parseRecord fields pf a = some ra ∧ parseRecord fields pf b = some rb ∧
        SameCoords ra rb) ∨
      scanErr = true) :
    ∃ e, ParseData fields pf lines scanErr = (none, some e) := by
  unfold ParseData
  rcases hres : parseLoop fields pf lines 0 emptyHeap { Mines := [] } with e | res
  · exact ⟨e, rfl⟩
  · by_cases hscan : scanErr = true
    · exact ⟨ParseErr.scan, by simp [hscan]⟩
    exfalso
    obtain ⟨hall, hpair⟩ := parseLoop_ok fields pf lines 0 emptyHeap { Mines := [] } res hres
      (fun n hn => by simp at hn)
    rcases hbad with ⟨line, hl, hlen⟩ | ⟨line, hl, s, hs, hp⟩ | ⟨line, hl, r, hr, hp⟩ |
      ⟨i, j, a, b, ra, rb, hij, hi, hj, hra, hrb, hsame⟩ | hs
    rotate_left 4
    · exact hscan hs
    · obtain ⟨r, hr, _⟩ := hall line hl
      rw [parseRecord_none_of_length hlen] at hr
      cases hr
    · obtain ⟨r, hr, _⟩ := hall line hl
      rw [parseRecord_none_of_field hs hp] at hr
      cases hr
    · obtain ⟨r2, hr2, hp2, _⟩ := hall line hl
      rw [hr] at hr2
      simp only [Option.some.injEq] at hr2
      subst hr2
      rw [hp] at hp2
      cases hp2
    · rw [List.pairwise_iff_getElem] at hpair
      obtain ⟨hi1, hi2⟩ := List.getElem?_eq_some_iff.1 hi
      obtain ⟨hj1, hj2⟩ := List.getElem?_eq_some_iff.1 hj
      have := hpair i j hi1 hj1 hij ra rb (by rw [hi2]; exact hra) (by rw [hj2]; exact hrb)
      exact this ⟨by rw [F32.eq_comm]; exact hsame.1, by rw [F32.eq_comm]; exact hsame.2⟩

theorem ParseData_rejects_witness :
    ∃ e, ParseData sampleFields sampleFloat ["1 1 1", "2 2"] false = (none, some e) :=
  ParseData_rejects sampleFields sampleFloat ["1 1 1", "2 2"] false
    (Or.inl ⟨"2 2", by decide, by decide⟩)

theorem distance_symmetric_nonnegative_witness :
    (testHeap 1).X = F32.fin (1 * 2 ^ 149) ∧ (testHeap 1).Y = F32.fin (1 * 2 ^ 149) ∧
      (testHeap 1).Distance (testHeap 1) = F32.zero ∧
      (testHeap 2).X = F32.fin (2 * 2 ^ 149) ∧ (testHeap 2).Y = F32.fin (2 * 2 ^ 149) ∧
      (((testHeap 1).Distance (testHeap 2) = .inf false ∧
          (2 : ℝ) ^ 127 ≤ Real.sqrt ((((2 * 2 ^ 149 : Int) : ℝ) / 2 ^ 149 -
              ((1 * 2 ^ 149 : Int) : ℝ) / 2 ^ 149) ^ 2 +
            (((2 * 2 ^ 149 : Int) : ℝ) / 2 ^ 149 - ((1 * 2 ^ 149 : Int) : ℝ) / 2 ^ 149) ^ 2)) ∨
        ∃ d : Nat, (testHeap 1).Distance (testHeap 2) = .fin (d : Int) ∧
          |(d : ℝ) / 2 ^ 149 - Real.sqrt ((((2 * 2 ^ 149 : Int) : ℝ) / 2 ^ 149 -
                ((1 * 2 ^ 149 : Int) : ℝ) / 2 ^ 149) ^ 2 +
              (((2 * 2 ^ 149 : Int) : ℝ) / 2 ^ 149 -
                ((1 * 2 ^ 149 : Int) : ℝ) / 2 ^ 149) ^ 2)| ≤
            Real.sqrt ((((2 * 2 ^ 149 : Int) : ℝ) / 2 ^ 149 -
                ((1 * 2 ^ 149 : Int) : ℝ) / 2 ^ 149) ^ 2 +
              (((2 * 2 ^ 149 : Int) : ℝ) / 2 ^ 149 -
                ((1 * 2 ^ 149 : Int) : ℝ) / 2 ^ 149) ^ 2) / 2 ^ 22 + 1 / 2 ^ 150) :=
  ⟨rfl, rfl, (distance_symmetric_nonnegative (testHeap 1) (testHeap 2)).2.1 (1 * 2 ^ 149)
    (1 * 2 ^ 149) rfl rfl, rfl, rfl,
    (distance_symmetric_nonnegative (testHeap 1) (testHeap 2)).2.2.2.2 (1 * 2 ^ 149)
      (1 * 2 ^ 149) (2 * 2 ^ 149) (2 * 2 ^ 149) rfl rfl rfl rfl⟩

/-! ## The winners -/

theorem lessPtr_true_count {h : Heap} {a b : Ptr} (hl : lessPtr h a b = some true) :
    peakCount (h b) ≤ peakCount (h a) := by
  rcases rankedBefore_of_less hl with h1 | h1 | h1
  · exact le_of_lt h1
  · exact le_of_eq h1.1.symm
  · exact le_of_eq h1.1.symm

/-- Whatever the coordinates, the inner loop of the insertion sort keeps the mines and
keeps the peak counts of the placed mines in order. -/
theorem insertMine_count_sorted (h : Heap) (x : Ptr) :
    ∀ (placed out : List Ptr), insertMine h x placed = some out →
      placed.Pairwise (fun a b => peakCount (h a) ≤ peakCount (h b)) →
      out.Perm (x :: placed) ∧ out.Pairwise (fun a b => peakCount (h a) ≤ peakCount (h b))
  | [], out, ho, _ => by
    simp only [insertMine, Option.some.injEq] at ho
    subst ho
    exact ⟨List.Perm.refl _, List.pairwise_singleton _ _⟩
  | y :: before, out, ho, hs => by
    unfold insertMine at ho
    rw [List.pairwise_cons] at hs
    rcases hl : lessPtr h x y with _ | r
    · simp [hl] at ho
    · cases r
      · simp only [hl, Option.some.injEq] at ho
        subst ho
        have hxy := lessPtr_false_count hl
        refine ⟨List.Perm.refl _, List.Pairwise.cons ?_ (List.Pairwise.cons hs.1 hs.2)⟩
        intro z hz
        rcases List.mem_cons.1 hz with e | hz
        · subst e; exact hxy
        · exact le_trans hxy (hs.1 z hz)
      · simp only [hl] at ho
        rcases hi : insertMine h x before with _ | out2
        · simp [hi] at ho
        · simp only [hi, Option.map_some', Option.some.injEq] at ho
          subst ho
          obtain ⟨hperm, hs2⟩ := insertMine_count_sorted h x before out2 hi hs.2
          refine ⟨(List.Perm.cons y hperm).trans (List.Perm.swap x y before),
            List.Pairwise.cons ?_ hs2⟩
          intro z hz
          rcases List.mem_cons.1 (hperm.mem_iff.1 hz) with e | hz
          · subst e; exact lessPtr_true_count hl
          · exact hs.1 z hz

theorem insertionSort_count_sorted (h : Heap) :
    ∀ (rest placed out : List Ptr), insertionSort h placed rest = some out →
      placed.Pairwise (fun a b => peakCount (h a) ≤ peakCount (h b)) →
      out.Perm (placed ++ rest) ∧
        out.Pairwise (fun a b => peakCount (h b) ≤ peakCount (h a))
  | [], placed, out, ho, hs => by
    simp only [insertionSort, Option.some.injEq] at ho
    subst ho
    rw [List.append_nil]
    exact ⟨List.reverse_perm placed, List.pairwise_reverse.2 hs⟩
  | x :: rest, placed, out, ho, hs => by
    unfold insertionSort at ho
    rcases hi : insertMine h x placed with _ | placed1
    · simp [hi] at ho
    · simp only [hi] at ho
      obtain ⟨hperm, hs1⟩ := insertMine_count_sorted h x placed placed1 hi hs
      obtain ⟨hperm2, hs2⟩ := insertionSort_count_sorted h rest placed1 out ho hs1
      exact ⟨hperm2.trans ((hperm.append_right rest).trans List.perm_middle.symm), hs2⟩

/-- Whatever the coordinates, the sort returns a permutation of its input in which the
peak counts do not increase. -/
theorem sortMines_count_sorted (h : Heap) (l out : List Ptr)
    (ho : sortMines h l = some out) :
    out.Perm l ∧ out.Pairwise (fun x y => peakCount (h y) ≤ peakCount (h x)) := by
  have := insertionSort_count_sorted h l [] out ho List.Pairwise.nil
  simpa using this

/-- In a slice that `sort.IsSorted` accepts the peak counts do not increase. -/
theorem isSorted_count_sorted {h : Heap} {l : List Ptr} (hs : IsSorted h l) :
    l.Pairwise (fun x y => peakCount (h y) ≤ peakCount (h x)) := by
  haveI : IsTrans Ptr (fun x y => peakCount (h y) ≤ peakCount (h x)) :=
    ⟨fun a b c hab hbc => le_trans hbc hab⟩
  rw [← List.chain'_iff_pairwise]
  exact List.Chain'.imp (fun {a b} hab => lessPtr_false_count hab) hs

/-- C11: for a non-empty slice of mines with assigned peaks, once it has been sorted with
`byPeakExplosions` (by the insertion sort that `sort.Sort` runs, whatever the coordinates,
NaN included; or arranged in any way that `sort.IsSorted` accepts: no mine `Less` than the
mine right before it), the winner scan of `main` emits exactly the mines whose peak
explosion count equals the maximum peak explosion count over all mines, and emits at
least one. -/
theorem winners_are_the_maxima (h : Heap) (input mines : List Ptr) (hne : input ≠ [])
    (hpk : ∀ p ∈ input, (h p).Peak ≠ none)
    (hsort : sortMines h input = some mines ∨ (mines.Perm input ∧ IsSorted h mines)) :
    ∃ mx ws, (∀ p ∈ input, peakCount (h p) ≤ mx) ∧ (∃ p ∈ input, peakCount (h p) = mx) ∧
      winners h mines = some ws ∧
      (∀ p, p ∈ ws ↔ p ∈ input ∧ peakCount (h p) = mx) ∧ ws ≠ [] := by
  have hboth : mines.Perm input ∧
      mines.Pairwise (fun x y => peakCount (h y) ≤ peakCount (h x)) := by
    rcases hsort with hs | ⟨hp, hs⟩
    · exact sortMines_count_sorted h input mines hs
    · exact ⟨hp, isSorted_count_sorted hs⟩
  obtain ⟨hperm, hcs⟩ := hboth
  have hne2 : mines ≠ [] := fun e => hne (by
    subst e
    exact List.Perm.eq_nil hperm.symm)
  obtain ⟨mx, ws, hle, ⟨p0, hp0, hmx⟩, hw, hws, hwne⟩ := winners_of_count_sorted h mines hne2
    (fun p hp => hpk p (hperm.mem_iff.1 hp)) hcs
  refine ⟨mx, ws, fun p hp => hle p (hperm.mem_iff.2 hp), ⟨p0, hperm.mem_iff.1 hp0, hmx⟩, hw,
    ?_, hwne⟩
  intro p
  rw [hws, List.mem_filter, hperm.mem_iff]
  simp

theorem winners_are_the_maxima_witness :
    ∃ mx ws, (∀ p ∈ [1, 2, 3], peakCount (nanRankHeap p) ≤ mx) ∧
      (∃ p ∈ [1, 2, 3], peakCount (nanRankHeap p) = mx) ∧
      winners nanRankHeap [2, 3, 1] = some ws ∧
      (∀ p, p ∈ ws ↔ p ∈ [1, 2, 3] ∧ peakCount (nanRankHeap p) = mx) ∧ ws ≠ [] :=
  winners_are_the_maxima nanRankHeap [1, 2, 3] [2, 3, 1] (by decide) (by decide!)
    (Or.inl (by decide!))

end Minefield
